import Mathlib

/-!
Shallow embedding of the study-plan engine of `src/exam_planner.py`
(grade12-exam-planner).  Times are integer minutes since an epoch
midnight; day `d` spans `[1440*d, 1440*(d+1))` and day `0` is a Monday
(so `weekday d = d.emod 7`, Saturday/Sunday being `5`/`6`, matching
Python's `date.weekday()`).  Python floats holding hour counts are
modelled as rationals; Python's `round` (banker's rounding) is
`pyRound`, `int(...)` truncation is `pyTrunc`, and `//` on integers is
`Int.fdiv`, exactly as in the source.
-/

namespace ExamPlanner

attribute [local semireducible] Rat.mul Rat.inv Rat.add Rat.sub

/-- Python's `round` on a rational: round half to even (banker's rounding).
`Rat.floor` is used (rather than `Int.floor`) so the kernel can evaluate it. -/
def pyRound (q : ℚ) : ℤ :=
  if q - q.floor < 1/2 then q.floor
  else if 1/2 < q - q.floor then q.floor + 1
  else if q.floor % 2 = 0 then q.floor else q.floor + 1

/-- Python's `int(...)` on a rational: truncation toward zero. -/
def pyTrunc (q : ℚ) : ℤ := if q < 0 then -(-q).floor else q.floor

theorem ratFloor_eq_intFloor (q : ℚ) : q.floor = ⌊q⌋ :=
  (Rat.floor_def' q).trans Rat.floor_def.symm

/-- A point in time, in whole minutes since the epoch midnight. -/
abbrev Time := Int

/-- The calendar date (day index) a time instant belongs to: `start.date()`. -/
def dateOf (t : Int) : Int := t.fdiv 1440

/-- The hour component of a time instant (`dt.hour`). -/
def hourOf (t : Int) : Int := (t.emod 1440).fdiv 60

/-- The instant `h:m` on day `d` (`day_dt.replace(hour=h, minute=m)`). -/
def atTime (d h m : Int) : Int := d * 1440 + h * 60 + m

/-- `d.weekday()`: 0 = Monday ... 6 = Sunday (epoch day 0 is a Monday). -/
def weekdayOf (d : Int) : Int := d.emod 7

/-- A half-open occupied interval `(start, end)` in minutes. -/
abbrev Block := Int × Int

/-- `_overlaps(a_start, a_end, b_start, b_end)` from the source. -/
def overlaps (aStart aEnd bStart bEnd : Int) : Prop :=
  aStart < bEnd ∧ bStart < aEnd

instance (aStart aEnd bStart bEnd : Int) :
    Decidable (overlaps aStart aEnd bStart bEnd) := by
  unfold overlaps; infer_instance

/-- Character-list prefix test, used to embed Python's `in` on strings. -/
def charsPre : List Char → List Char → Bool
  | [], _ => true
  | _ :: _, [] => false
  | a :: as, b :: bs => a = b && charsPre as bs

/-- Character-list substring test. -/
def charsSub (pat : List Char) : List Char → Bool
  | [] => charsPre pat []
  | b :: bs => charsPre pat (b :: bs) || charsSub pat bs

/-- Python's `pat in s` substring containment on strings. -/
def strContains (s pat : String) : Bool := charsSub pat.toList s.toList

/-- Python's `s.startswith(pat)`. -/
def strStarts (s pat : String) : Bool := charsPre pat.toList s.toList

/-- ASCII lower-casing of one character (all the level names are ASCII). -/
def charLower (c : Char) : Char :=
  if 'A' ≤ c ∧ c ≤ 'Z' then Char.ofNat (c.toNat + 32) else c

/-- Python's `s.lower()`, restricted to ASCII. -/
def strLower (s : String) : String := ⟨s.toList.map charLower⟩

/-- `_round_up_to_45min(hours_val)` from `build_tasks_for_exam`:
round up to the nearest 45-minute multiple, after rounding
`hours_val * 60` to whole minutes. -/
def roundUpTo45min (hoursVal : ℚ) : ℚ :=
  let totalMinutes := pyRound (hoursVal * 60)
  let blocks := (totalMinutes + 44).fdiv 45
  ((blocks * 45 : ℤ) : ℚ) / 60

theorem pyRound_nonneg (q : ℚ) (hq : 0 ≤ q) : 0 ≤ pyRound q := by
  unfold pyRound
  rw [ratFloor_eq_intFloor]
  have hf : (0:ℤ) ≤ ⌊q⌋ := Int.floor_nonneg.mpr hq
  split <;> [exact hf; skip]
  split <;> [omega; skip]
  split <;> omega

theorem pyRound_intCast (n : ℤ) : pyRound (n : ℚ) = n := by
  unfold pyRound
  rw [ratFloor_eq_intFloor, Int.floor_intCast]
  norm_num

theorem fdiv_eq_ediv_of_nonneg (a b : ℤ) (hb : 0 ≤ b) : a.fdiv b = a / b :=
  Int.fdiv_eq_ediv a hb

theorem roundUpTo45min_eq (h : ℚ) :
    roundUpTo45min h = (((pyRound (h * 60) + 44).fdiv 45 * 45 : ℤ) : ℚ) / 60 := rfl

/-- C10: for every non-negative hours value `h`, `_round_up_to_45min(h)` is the
smallest whole multiple of 45 minutes (0.75 hours) that is greater than or
equal to `h` rounded to whole minutes; in particular the result is at least
that rounded value, and the function is idempotent. -/
theorem c10_roundUpTo45min_correct (h : ℚ) (h0 : 0 ≤ h) :
    (∃ k : ℤ, 0 ≤ k ∧ roundUpTo45min h * 60 = (k * 45 : ℤ)) ∧
    ((pyRound (h * 60) : ℚ) ≤ roundUpTo45min h * 60) ∧
    (∀ k : ℤ, (pyRound (h * 60) : ℚ) ≤ (k * 45 : ℤ) →
      roundUpTo45min h * 60 ≤ (k * 45 : ℤ)) ∧
    roundUpTo45min (roundUpTo45min h) = roundUpTo45min h := by
  have hm : 0 ≤ pyRound (h * 60) := pyRound_nonneg _ (by positivity)
  set m : ℤ := pyRound (h * 60) with hmdef
  have hfd : (m + 44).fdiv 45 = (m + 44) / 45 :=
    fdiv_eq_ediv_of_nonneg _ _ (by norm_num)
  have hval : roundUpTo45min h * 60 = (((m + 44) / 45 * 45 : ℤ) : ℚ) := by
    rw [roundUpTo45min_eq, ← hmdef, hfd]
    field_simp
  have hb0 : 0 ≤ (m + 44) / 45 := by omega
  refine ⟨⟨(m + 44) / 45, hb0, by rw [hval]⟩, ?_, ?_, ?_⟩
  · rw [hval]
    have : m ≤ (m + 44) / 45 * 45 := by omega
    exact_mod_cast this
  · intro k hk
    have hk' : m ≤ k * 45 := by exact_mod_cast hk
    rw [hval]
    have : (m + 44) / 45 * 45 ≤ k * 45 := by
      have : (m + 44) / 45 ≤ k := by omega
      omega
    exact_mod_cast this
  · have hr : roundUpTo45min h = (((m + 44) / 45 * 45 : ℤ) : ℚ) / 60 := by
      rw [roundUpTo45min_eq, ← hmdef, hfd]
    rw [hr, roundUpTo45min_eq]
    have h60 : ((((m + 44) / 45 * 45 : ℤ) : ℚ) / 60) * 60 = (((m + 44) / 45 * 45 : ℤ) : ℚ) := by
      field_simp
    rw [h60, pyRound_intCast]
    congr 2
    have hb0' : (0:ℤ) ≤ (m + 44) / 45 := hb0
    rw [fdiv_eq_ediv_of_nonneg _ _ (by norm_num)]
    omega

/-- Witness for C10 at `h = 2`: the rounded-up value is 2.25 hours. -/
theorem c10_roundUpTo45min_correct_witness :
    (0 ≤ (2:ℚ)) ∧
    ((∃ k : ℤ, 0 ≤ k ∧ roundUpTo45min 2 * 60 = (k * 45 : ℤ)) ∧
    ((pyRound ((2:ℚ) * 60) : ℚ) ≤ roundUpTo45min 2 * 60) ∧
    (∀ k : ℤ, (pyRound ((2:ℚ) * 60) : ℚ) ≤ (k * 45 : ℤ) →
      roundUpTo45min 2 * 60 ≤ (k * 45 : ℤ)) ∧
    roundUpTo45min (roundUpTo45min 2) = roundUpTo45min 2) :=
  ⟨by norm_num, c10_roundUpTo45min_correct 2 (by norm_num)⟩

/-- An exam record of the input JSON (`subjects.<name>.exam_types.<kind>.exams[i]`).
Optional keys are `Option`; datetimes are whole minutes. -/
structure SrcExam where
  paper : Option String
  startDt : Int
  endDt : Int
  effortLevel : Option String := none
  theoryLevel : Option String := none
  practiceLevel : Option String := none
  pastPapersRequired : Option Int := none
  hours : Option ℚ := none
deriving DecidableEq, Repr

/-- An in-memory exam dict as built by `build_runtime_structures` and later
mutated by `extend_exams_with_levels` (absent dict keys are `none`). -/
structure ExamRec where
  paper : String
  start : Int
  stop : Int
  effortLevel : Option String := none
  theoryLevel : Option String := none
  practiceLevel : Option String := none
  pastPapersRequired : Option Int := none
  hours : Option ℚ := none
deriving DecidableEq, Repr

/-- `metadata` of the input JSON (only the fields the engine reads). -/
structure Metadata where
  plannerStartDate : Int
  plannerEndDate : Int
  dailyStartTime : Option (Int × Int) := none
  dailyEndTime : Option (Int × Int) := none
  studyTimePerDay : Option ℚ := none
  perDayMaxHours : Option ℚ := none
  adhdFrontload : Option Bool := none
  weekendExtraHours : Option ℚ := none
  freeDayExtraHours : Option ℚ := none
  tuitionClasses : List Block := []
  breakMinutes : Option Int := none
  perSubjectDailyCapHours : Option ℚ := none
deriving DecidableEq, Repr

/-- Per-subject data of the input JSON that the engine reads. -/
structure SubjectData where
  name : String
  trialExams : List SrcExam := []
  finalExams : List SrcExam := []
deriving DecidableEq, Repr

/-- The whole input document (`exam_timetable`), restricted to engine inputs. -/
structure Timetable where
  metadata : Metadata
  subjects : List SubjectData
deriving DecidableEq, Repr

/-- The exam dictionaries built by `build_runtime_structures` and passed around
as `legacy_data`: subject name paired with its exam list, in insertion order. -/
structure LegacyData where
  trialExams : List (String × List ExamRec)
  finalExams : List (String × List ExamRec)
deriving DecidableEq, Repr

/-- The configuration produced by `_get_config`. -/
structure Config where
  dailyStart : Int × Int
  dailyEnd : Int × Int
  perDayMaxHours : ℚ
  studyTimePerDay : Option ℚ
  adhdFrontload : Bool
  weekendExtraHours : ℚ
  freeDayExtraHours : ℚ
  tuitionBlocks : List Block
  breakMinutes : Int
  perSubjectDailyCapHours : ℚ
  dayBeforeSessionsDefault : Int
  dayBeforeSessionsHighEffort : Int
deriving DecidableEq, Repr

/-- A derived study task (`build_tasks_for_exam` output element). -/
structure Task where
  subject : String
  paper : String
  type : String
  hours : ℚ
  mandatory : Bool
deriving DecidableEq, Repr

/-- A placed plan item (study session or break); `stop` is the source's `end`. -/
structure Item where
  subject : String
  paper : String
  type : String
  start : Int
  stop : Int
deriving DecidableEq, Repr

/-- `HARD_START_HOUR = 9`. -/
def hardStartHour : Int := 9

/-- `HARD_END_HOUR = 23`. -/
def hardEndHour : Int := 23

/-- `_get_config(exam_timetable)`: defaults, optional JSON overrides, and the
final clamp of the daily window to the hard 09:00-23:00 bounds. -/
def getConfig (meta : Metadata) : Config :=
  let dailyStart := meta.dailyStartTime.getD (9, 0)
  let dailyEnd := meta.dailyEndTime.getD (21, 30)
  let sh := max dailyStart.1 hardStartHour
  let eh := min dailyEnd.1 hardEndHour
  { dailyStart := (sh, if sh > hardStartHour then dailyStart.2 else 0)
    dailyEnd := (eh, if eh < hardEndHour then dailyEnd.2 else 0)
    perDayMaxHours := meta.perDayMaxHours.getD 10
    studyTimePerDay := meta.studyTimePerDay
    adhdFrontload := meta.adhdFrontload.getD true
    weekendExtraHours := meta.weekendExtraHours.getD 2
    freeDayExtraHours := meta.freeDayExtraHours.getD 2
    tuitionBlocks := meta.tuitionClasses
    breakMinutes := meta.breakMinutes.getD 15
    perSubjectDailyCapHours := meta.perSubjectDailyCapHours.getD 3
    dayBeforeSessionsDefault := 2
    dayBeforeSessionsHighEffort := 4 }

/-- `LEVELS_THEORY.get(key, 2.0)`. -/
def levelsTheory (s : String) : ℚ :=
  if s = "none" then 0 else if s = "low" then 1
  else if s = "medium" then 2 else if s = "high" then 3 else 2

/-- `LEVELS_PRACTICE.get(key, 1.5)`. -/
def levelsPractice (s : String) : ℚ :=
  if s = "none" then 0 else if s = "low" then 1
  else if s = "medium" then 3/2 else if s = "high" then 2 else 3/2

/-- `LEVELS_EFFORT.get(key, 1.2)`. -/
def levelsEffort (s : String) : ℚ :=
  if s = "none" then 1 else if s = "low" then 1
  else if s = "medium" then 6/5 else if s = "high" then 3/2 else 6/5

/-- `exam_duration_hours(exam)`: the exam length in hours. -/
def examDurationHours (ex : ExamRec) : ℚ := ((ex.stop - ex.start : ℤ) : ℚ) / 60

/-- One timed past paper task, `Past Paper {i} (timed)` with exactly 3 hours. -/
def timedPaperTask (subject paper : String) (i : Nat) : Task :=
  { subject := subject, paper := paper
    type := "Past Paper " ++ toString i ++ " (timed)", hours := 3, mandatory := false }

/-- The effective number of past papers of `build_tasks_for_exam`:
`N = int(exam.get("past_papers_required", 0))`, bumped to 1 when the key is
absent from the exam dict. -/
def effectivePP (ex : ExamRec) : Int :=
  let N0 := ex.pastPapersRequired.getD 0
  let mandatoryPP := if N0 = 0 then ex.pastPapersRequired.isNone else true
  if N0 = 0 ∧ mandatoryPP then 1 else N0

/-- The mandatory non-written past paper task (exactly 2 hours). -/
def pp1Task (subject paper : String) : Task :=
  { subject := subject, paper := paper, type := "Past Paper 1 (non-written)"
    hours := 2, mandatory := true }

/-- The past-paper tasks of `build_tasks_for_exam`: the mandatory 2-hour
non-written paper followed by 3-hour timed papers `2..N`. -/
def ppTasksFor (subject : String) (ex : ExamRec) : List Task :=
  let N := effectivePP ex
  if N > 0 then
    pp1Task subject ex.paper ::
    (List.range (N - 1).toNat).map (fun j => timedPaperTask subject ex.paper (j + 2))
  else []

/-- The computed `Theory Study` / `Practice` fallback tasks. -/
def theoryPracticeTasks (subject : String) (ex : ExamRec) : List Task :=
  let L := examDurationHours ex
  let effort := levelsEffort (ex.effortLevel.getD "medium")
  let theoryMult := levelsTheory (ex.theoryLevel.getD "medium")
  let practiceMult := levelsPractice (ex.practiceLevel.getD "medium")
  (if L * theoryMult * effort > 0 then
    [{ subject := subject, paper := ex.paper, type := "Theory Study"
       hours := L * theoryMult * effort, mandatory := false }] else []) ++
  (if L * practiceMult * effort > 0 then
    [{ subject := subject, paper := ex.paper, type := "Practice"
       hours := L * practiceMult * effort, mandatory := false }] else [])

/-- The preparation-or-fallback tasks of `build_tasks_for_exam` (the part
after the past papers): an explicit `hours` override that rounds to a
positive 45-minute multiple yields a single `Preparation` task, otherwise
the computed theory/practice workload is used. -/
def restTasksFor (subject : String) (ex : ExamRec) : List Task :=
  match ex.hours with
  | some oh =>
    let ph := roundUpTo45min (max 0 oh)
    if ph > 0 then
      [{ subject := subject, paper := ex.paper, type := "Preparation"
         hours := ph, mandatory := false }]
    else theoryPracticeTasks subject ex
  | none => theoryPracticeTasks subject ex

/-- `build_tasks_for_exam(subject, exam)`: past papers first, then either an
explicit-hours `Preparation` task or computed `Theory Study` / `Practice`. -/
def buildTasksForExam (subject : String) (ex : ExamRec) : List Task :=
  ppTasksFor subject ex ++ restTasksFor subject ex

/-- The matching predicate of `extend_exams_with_levels`: the source exam `s`
matches the runtime exam `ex` when papers and start datetimes agree (Python's
`s.get("paper") == ex["paper"]` compares an optional against a string). -/
def srcMatches (ex : ExamRec) (s : SrcExam) : Bool :=
  s.paper == some ex.paper && s.startDt == ex.start

/-- Enrichment of one runtime exam from the first matching source exam
(the inner loop of `extend_exams_with_levels` with its `break`). -/
def enrichOne (srcExams : List SrcExam) (ex : ExamRec) : ExamRec :=
  match srcExams.find? (srcMatches ex) with
  | none => ex
  | some s =>
    { ex with
      effortLevel := some (s.effortLevel.getD "medium")
      theoryLevel := some (s.theoryLevel.getD "medium")
      practiceLevel := some (s.practiceLevel.getD "medium")
      pastPapersRequired := some (s.pastPapersRequired.getD 0)
      hours := match s.hours with | some h => some h | none => ex.hours }

/-- Look up a subject's source data by name (`src_subjects.get(subject, {})`). -/
def findSubject (subjects : List SubjectData) (name : String) : Option SubjectData :=
  subjects.find? (fun sd => sd.name == name)

/-- The source exams for one subject and exam-type key. -/
def srcExamsFor (tt : Timetable) (name : String) (trial : Bool) : List SrcExam :=
  match findSubject tt.subjects name with
  | none => []
  | some sd => if trial then sd.trialExams else sd.finalExams

/-- `extend_exams_with_levels` applied to one group dict. -/
def enrichGroup (tt : Timetable) (trial : Bool) :
    List (String × List ExamRec) → List (String × List ExamRec) :=
  List.map (fun (p : String × List ExamRec) =>
    (p.1, p.2.map (enrichOne (srcExamsFor tt p.1 trial))))

/-- `extend_exams_with_levels(trial_exams, final_exams, exam_timetable)`:
mutates both exam dictionaries in place; modelled as returning the new data. -/
def extendExamsWithLevels (tt : Timetable) (legacy : LegacyData) : LegacyData :=
  { trialExams := enrichGroup tt true legacy.trialExams
    finalExams := enrichGroup tt false legacy.finalExams }

/-- The fixed supper block 18:30-20:00 of day `d`. -/
def supperBlock (d : Int) : Block := (atTime d 18 30, atTime d 18 30 + 90)

/-- The occupied blocks contributed by one exam record: the exam interval
followed by the 2-hour post-exam downtime, in emission order. -/
def examOccBlocks (ex : ExamRec) : List Block :=
  [(ex.start, ex.stop), (ex.stop, ex.stop + 120)]

/-- The occupied blocks of one exam group dict, in iteration order. -/
def groupOccBlocks (group : List (String × List ExamRec)) : List Block :=
  group.flatMap (fun p => p.2.flatMap examOccBlocks)

/-- The occupied blocks contributed by one tuition class: the class itself,
its 30-minute pre-buffer and its 90-minute post-buffer, in emission order. -/
def tuitionOccBlocks (t : Block) : List Block :=
  [(t.1, t.2), (t.1 - 30, t.1), (t.2, t.2 + 90)]

/-- The supper blocks force-inserted for every date in the planner range. -/
def supperOccBlocks (plannerStart plannerEnd : Int) : List Block :=
  (List.range (plannerEnd + 1 - plannerStart).toNat).map
    (fun i => supperBlock (plannerStart + i))

/-- All blocks emitted by `list_blocks_by_date`, in emission order.  The
source keys each block under `start.date()` in a `defaultdict(list)`; the
per-date lists are recovered by `blocksFor`, which preserves emission order
exactly as the Python appends do. -/
def listBlocksByDate (trialExams finalExams : List (String × List ExamRec))
    (tuitionBlocks : List Block) (plannerStart plannerEnd : Int) : List Block :=
  groupOccBlocks trialExams ++ groupOccBlocks finalExams ++
  tuitionBlocks.flatMap tuitionOccBlocks ++
  supperOccBlocks plannerStart plannerEnd

/-- `blocks_by_date[d]`: the blocks filed under date `d`, i.e. those whose
start instant lies on day `d`. -/
def blocksFor (blocks : List Block) (d : Int) : List Block :=
  blocks.filter (fun b => dateOf b.1 = d)

/-- Lexicographic order on blocks, as Python's `sorted` on 2-tuples. -/
def blockLeLex (a b : Block) : Bool :=
  a.1 < b.1 || (a.1 = b.1 && a.2 ≤ b.2)

/-- Order on blocks by start only (`key=lambda ab: ab[0]`). -/
def blockLeStart (a b : Block) : Bool := a.1 ≤ b.1

/-- Stable insertion placing `x` after all already-present entries `y`
with `le y x`; folding from the left gives a stable sort. -/
def insertStable {α : Type} (le : α → α → Bool) (x : α) : List α → List α
  | [] => [x]
  | y :: l => if le y x then y :: insertStable le x l else x :: y :: l

/-- Stable sort under `le` (a total preorder), as Python's `sorted`:
equal-key elements keep their original relative order. -/
def sortedBy {α : Type} (le : α → α → Bool) (l : List α) : List α :=
  l.foldl (fun acc x => insertStable le x acc) []

/-- `DEFAULT_SESSION_MIN = 45` minutes. -/
def defaultSessionMin : Int := 45

/-- `DEFAULT_SESSION_MAX = 75` minutes. -/
def defaultSessionMax : Int := 75

/-- Subtract one occupied block from a segment list, splitting as needed
(the inner loop of `_free_segments`). -/
def subtractBlock (b : Block) : List Block → List Block
  | [] => []
  | (fs, fe) :: rest =>
    if b.2 ≤ fs ∨ b.1 ≥ fe then (fs, fe) :: subtractBlock b rest
    else
      (if b.1 > fs then [(fs, b.1)] else []) ++
      (if b.2 < fe then [(b.2, fe)] else []) ++
      subtractBlock b rest

/-- `_free_segments(day_dt, occupied_blocks, start_pref, end_pref)`: subtract
each occupied block (in sorted order) from the window, then drop segments
shorter than `DEFAULT_SESSION_MIN`. -/
def freeSegments (occupied : List Block) (startPref endPref : Int) : List Block :=
  let segs := (sortedBy blockLeLex occupied).foldl
    (fun segs b => subtractBlock b segs) [(startPref, endPref)]
  segs.filter (fun s => s.2 - s.1 ≥ defaultSessionMin)

/-- Order the free segments for allocation: ascending by start when
frontloading, descending by start otherwise (both stable). -/
def orderSegs (frontload : Bool) (free : List Block) : List Block :=
  if frontload then sortedBy blockLeStart free
  else sortedBy (fun a b => b.1 ≤ a.1) free

/-- `_allocate_single_block(minutes_needed, free_segments, frontload)`: the
first segment (in frontload order) long enough yields one block. -/
def allocSingleBlock (minutesNeeded : Int) (free : List Block)
    (frontload : Bool) : List Block :=
  if minutesNeeded ≤ 0 then []
  else
    match (orderSegs frontload free).find? (fun s => s.2 - s.1 ≥ minutesNeeded) with
    | some s => [(s.1, s.1 + minutesNeeded)]
    | none => []

/-- The mutable state of `_allocate_sessions`. -/
structure AllocState where
  sessions : List Block
  minutesNeeded : Int
  perSubj : Int
  dayCap : Int
  lastEnd : Option Int
deriving DecidableEq, Repr

/-- The inner `while` loop of `_allocate_sessions` over one free segment
`(cursor, e)`.  Fuel decreases on every placed session; the caller passes
enough fuel for the loop's real termination measure (`minutes_needed`
strictly decreases on every placement). -/
def allocSeg (e breakMin : Int) : Nat → Int → AllocState → AllocState
  | 0, _, st => st
  | fuel + 1, cursor, st =>
    if cursor < e ∧ st.minutesNeeded > 0 ∧ st.perSubj > 0 ∧ st.dayCap > 0 then
      let segMins := e - cursor
      if segMins ≤ 0 then st
      else
        let sessionLen :=
          min (min (min (min defaultSessionMax segMins) st.perSubj) st.dayCap)
            st.minutesNeeded
        if sessionLen < defaultSessionMin ∧ st.minutesNeeded > defaultSessionMin then
          st
        else
          let cont := fun (cursor' : Int) =>
            let sessionEnd := cursor' + sessionLen
            allocSeg e breakMin fuel (sessionEnd + breakMin)
              { sessions := st.sessions ++ [(cursor', sessionEnd)]
                minutesNeeded := st.minutesNeeded - sessionLen
                perSubj := st.perSubj - sessionLen
                dayCap := st.dayCap - sessionLen
                lastEnd := some sessionEnd }
          match st.lastEnd with
          | some le' =>
            if cursor ≤ le' then
              let cursor2 := le' + breakMin
              if cursor2 ≥ e then st
              else if e - cursor2 < defaultSessionMin then st
              else cont cursor2
            else cont cursor
          | none => cont cursor
    else st

/-- The outer `for` loop of `_allocate_sessions` over the ordered segments. -/
def allocSegs (breakMin : Int) : List Block → AllocState → AllocState
  | [], st => st
  | (s, e) :: rest, st =>
    let st' := allocSeg e breakMin (st.minutesNeeded.toNat + 1) s st
    if st'.minutesNeeded ≤ 0 then st' else allocSegs breakMin rest st'

/-- `_allocate_sessions(hours_needed, free_segments, per_subject_remaining_mins,
day_remaining_mins, break_minutes, frontload, ignore_caps)`; the `ignore_caps`
parameter is unused in the source body and therefore omitted. -/
def allocateSessions (hoursNeeded : ℚ) (free : List Block)
    (perSubj dayCap breakMin : Int) (frontload : Bool) :
    List Block × ℚ × Int × Int :=
  let minutesNeeded := pyRound (hoursNeeded * 60)
  let st := allocSegs breakMin (orderSegs frontload free)
    { sessions := [], minutesNeeded := minutesNeeded, perSubj := perSubj
      dayCap := dayCap, lastEnd := none }
  (st.sessions, (st.minutesNeeded : ℚ) / 60, st.perSubj, st.dayCap)

/-- The minute component of a time instant (`dt.minute`). -/
def minuteOf (t : Int) : Int := (t.emod 1440).emod 60

/-- `_day_bounds(day_dt, cfg)`: the day's window, hour-clamped to 09-23. -/
def dayBounds (d : Int) (cfg : Config) : Int × Int :=
  let sh := max cfg.dailyStart.1 hardStartHour
  let eh := min cfg.dailyEnd.1 hardEndHour
  (atTime d sh cfg.dailyStart.2, atTime d eh cfg.dailyEnd.2)

/-- `session_count_by_day.get(d, 0)`. -/
def scGet (l : List (Int × Int)) (d : Int) : Int :=
  ((l.find? (fun p => p.1 == d)).map (fun p => p.2)).getD 0

/-- `session_count_by_day[d] = v`. -/
def scSet (l : List (Int × Int)) (d v : Int) : List (Int × Int) :=
  if l.any (fun p => p.1 == d) then
    l.map (fun p => if p.1 == d then (d, v) else p)
  else l ++ [(d, v)]

/-- The placeholder task used for (always in-range) list indexing. -/
def noTask : Task := ⟨"", "", "", 0, false⟩

/-- The indices (into the master task list) of the non-past-paper tasks:
the `priority_pool` of `schedule_study_for_exam`, by position. -/
def poolIndices (tasks : List Task) : List Nat :=
  (List.range tasks.length).filter
    (fun i => ¬ strContains (tasks.getD i noTask).type "Past Paper")

/-- Context shared by the reservation loop of `_reserve_priority_on`. -/
structure ResCtx where
  subject : String
  paper : String
  breakMinutes : Int
  dayStart : Int
  dayEnd : Int
deriving Repr

/-- Mutable state of `_reserve_priority_on` (plus the enclosing scope's
`scheduled`, `blocks_by_date` and `tasks`, all mutated through it). -/
structure ResState where
  scheduled : List Item
  blocks : List Block
  tasks : List Task
  pool : List Nat
  occupied : List Block
  free : List Block
  remaining : Int
  sessionsMade : Int
deriving Repr

/-- The `i += 1` / wrap-around tail of the reservation loop body. -/
def resAdvance (next : Nat → ResState → ResState) (i : Nat) (st : ResState) :
    ResState :=
  let i' := i + 1
  if i' ≥ st.pool.length then
    if st.sessionsMade = 0 then st
    else next 0 { st with sessionsMade := 0 }
  else next i' st

/-- The `while` loop of `_reserve_priority_on`: round-robin over the priority
pool, carving one session at a time with caps ignored. -/
def reserveLoop (ctx : ResCtx) : Nat → Nat → ResState → ResState
  | 0, _, st => st
  | fuel + 1, i, st =>
    if st.free ≠ [] ∧ st.remaining > 0 ∧ st.pool ≠ [] ∧ i < st.pool.length then
      let idx := st.pool.getD i 0
      let task := st.tasks.getD idx noTask
      let allocHours := min task.hours (75 / 60 : ℚ)
      let res := allocateSessions allocHours st.free (10 ^ 9) (10 ^ 9)
        ctx.breakMinutes true
      match res.1 with
      | [] => resAdvance (reserveLoop ctx fuel) i st
      | (ss, ee) :: _ =>
        let newHours := max 0 (task.hours - ((ee - ss : ℤ) : ℚ) / 60)
        let occ' := st.occupied ++ [(ss, ee)]
        let st' : ResState :=
          { st with
            scheduled := st.scheduled ++ [⟨ctx.subject, ctx.paper, task.type, ss, ee⟩]
            blocks := st.blocks ++ [(ss, ee)]
            occupied := occ'
            free := freeSegments occ' ctx.dayStart ctx.dayEnd
            tasks := st.tasks.set idx { task with hours := newHours }
            remaining := st.remaining - 1
            sessionsMade := st.sessionsMade + 1 }
        if newHours ≤ 1 / 1000000 then
          reserveLoop ctx fuel 0 { st' with pool := st'.pool.eraseIdx i }
        else
          resAdvance (reserveLoop ctx fuel) i st'
    else st

/-- The `scheduled` / `blocks_by_date` / `tasks` / pool data threaded through
both `_reserve_priority_on` calls. -/
structure ResData where
  scheduled : List Item
  blocks : List Block
  tasks : List Task
  pool : List Nat
deriving Repr

/-- `_reserve_priority_on(day_date, remaining_sessions)`: returns the updated
data together with the function's return value (the still-unplaced count). -/
def reservePriorityOn (subject paper : String) (examStart : Int) (cfg : Config)
    (lastDay dayDate : Int) (rd : ResData) (remainingSessions : Int) :
    ResData × Int :=
  if remainingSessions ≤ 0 then (rd, 0)
  else
    let b := dayBounds dayDate cfg
    if dayDate = lastDay ∧ hourOf examStart < 12 then (rd, 0)
    else
      let dayEnd := if dayDate = lastDay then min b.2 examStart else b.2
      let occupied := blocksFor rd.blocks dayDate
      let free := freeSegments occupied b.1 dayEnd
      let fuel := (remainingSessions.toNat + rd.pool.length + 2) * (rd.pool.length + 3)
      let st := reserveLoop ⟨subject, paper, cfg.breakMinutes, b.1, dayEnd⟩ fuel 0
        ⟨rd.scheduled, rd.blocks, rd.tasks, rd.pool, occupied, free,
          remainingSessions, 0⟩
      (⟨st.scheduled, st.blocks, st.tasks, st.pool⟩, st.remaining)

/-- The day-before priority reservation driver of `schedule_study_for_exam`
(its lines "Reserve on D-1, then D-2 if needed"), including the source's
`remaining -= _reserve_priority_on(...)` arithmetic. -/
def reservationPhase (subject : String) (exam : ExamRec) (tasks : List Task)
    (plannerStartDay today : Int) (blocks : List Block) (cfg : Config) :
    ResData × Int :=
  let lastDay := dateOf exam.start
  let required :=
    if strLower (exam.effortLevel.getD "") = "high" then
      cfg.dayBeforeSessionsHighEffort
    else cfg.dayBeforeSessionsDefault
  let rd0 : ResData := ⟨[], blocks, tasks, poolIndices tasks⟩
  let dayBefore := lastDay - 1
  let step1 : ResData × Int :=
    if dayBefore ≥ today ∧ dayBefore ≥ plannerStartDay then
      let r := reservePriorityOn subject exam.paper exam.start cfg lastDay dayBefore
        rd0 required
      (r.1, required - r.2)
    else (rd0, required)
  if step1.2 > 0 then
    let twoBefore := lastDay - 2
    if twoBefore ≥ today ∧ twoBefore ≥ plannerStartDay then
      let r := reservePriorityOn subject exam.paper exam.start cfg lastDay twoBefore
        step1.1 step1.2
      (r.1, step1.2 - r.2)
    else step1
  else step1

/-- `counting_minutes`: the occupied durations, excluding blocks that look
like the supper break (start 18:30, duration 90). -/
def countingMinutesOf (occupied : List Block) : Int :=
  occupied.foldl
    (fun acc b =>
      if hourOf b.1 = 18 ∧ minuteOf b.1 = 30 ∧ b.2 - b.1 = 90 then acc
      else acc + (b.2 - b.1))
    0

/-- The daily study capacity of `schedule_study_for_exam`:
`(study_time_per_day or per_day_max_hours) * 60` minus the counting
occupancy, plus the weekend and free-day bonuses, clamped to 0. -/
def dayCapMinutesFn (cfg : Config) (d : Int) (occupied : List Block) : Int :=
  let countingMinutes := countingMinutesOf occupied
  let cap0 := pyTrunc ((cfg.studyTimePerDay.getD cfg.perDayMaxHours) * 60) - countingMinutes
  let cap1 := if weekdayOf d ≥ 5 then cap0 + pyTrunc (cfg.weekendExtraHours * 60) else cap0
  let cap2 := if countingMinutes ≤ 30 then cap1 + pyTrunc (cfg.freeDayExtraHours * 60) else cap1
  max 0 cap2

/-- Context shared by the forward-placement inner loops of one day. -/
structure DayCtx where
  subject : String
  paper : String
  dayStart : Int
  dayEnd : Int
  breakMinutes : Int
  frontload : Bool
deriving Repr

/-- Per-session emission state (the `for (ss, ee) in sessions` loop). -/
structure EmitState where
  occupied : List Block
  free : List Block
  sessionCount : Int
  scheduled : List Item
  usedMinutes : Int
  lastDur : Int
  lastSbs : Int
  lastSbe : Int
deriving Repr

/-- The clamped conditional break append shared by the mandatory 15-minute
break, the post-past-paper downtime and the 2-hour recovery break of the
per-session loop: if the break starts before day end, clamp it to the day
window and, when non-empty, append its block, its item and its minutes. -/
def maybeBreak (subject paper btyp : String) (ds de bstart bend : Int)
    (acc : List Block × List Item × Int) : List Block × List Item × Int :=
  if bstart < de then
    let bs := max bstart ds
    let be := min bend de
    if be > bs then
      (acc.1 ++ [(bs, be)], acc.2.1 ++ [⟨subject, paper, btyp, bs, be⟩],
        acc.2.2 + (be - bs))
    else acc
  else acc

/-- Emit the placed sessions of one task together with their mandatory
15-minute breaks, post-past-paper downtime and 2-hour recovery breaks,
recomputing the free segments after each session, exactly as the
source's per-session loop does. -/
def emitSessions (ctx : DayCtx) (ttype : String) (isPP : Bool) :
    List Block → EmitState → EmitState
  | [], st => st
  | (ss, ee) :: rest, st =>
    let dur := ee - ss
    let used1 := st.usedMinutes + dur
    let sched1 := st.scheduled ++ [⟨ctx.subject, ctx.paper, ttype, ss, ee⟩]
    let occ1 := st.occupied ++ [(ss, ee)]
    let sc1 := st.sessionCount + 1
    let sbs := ee
    let sbe := ee + ctx.breakMinutes
    let step2 : List Block × List Item × Int :=
      maybeBreak ctx.subject ctx.paper "Break: 15m" ctx.dayStart ctx.dayEnd
        sbs sbe (occ1, sched1, used1)
    let extraBreak : Int := if strContains ttype "non-written" then 45 else 90
    let step3 : List Block × List Item × Int :=
      if isPP then
        let breakStart := if sbe > sbs then sbe else ee
        maybeBreak ctx.subject ctx.paper
          ("Break: Post Past Paper (" ++ toString extraBreak ++ "m)")
          ctx.dayStart ctx.dayEnd breakStart (breakStart + extraBreak) step2
      else step2
    let step4 : List Block × List Item :=
      if sc1 % 4 = 0 then
        let lastEnd0 := if sbe > sbs then sbe else ee
        let lastEnd := if isPP then lastEnd0 + extraBreak else lastEnd0
        let m := maybeBreak ctx.subject ctx.paper "Break: 2h recovery"
          ctx.dayStart ctx.dayEnd lastEnd (lastEnd + 120) step3
        (m.1, m.2.1)
      else (step3.1, step3.2.1)
    emitSessions ctx ttype isPP rest
      { occupied := step4.1
        free := freeSegments step4.1 ctx.dayStart ctx.dayEnd
        sessionCount := sc1
        scheduled := step4.2
        usedMinutes := step3.2.2
        lastDur := dur
        lastSbs := sbs
        lastSbe := sbe }

/-- State of the per-day task loop (`while i < len(tasks) and free`). -/
structure TaskLoopState where
  occupied : List Block
  free : List Block
  perSubj : Int
  dayCap : Int
  sessionCount : Int
  scheduled : List Item
  done : List Task
deriving Repr

/-- The per-day task loop of `schedule_study_for_exam`: `done` collects the
tasks already advanced past (`i += 1`); popped tasks are dropped. -/
def taskLoop (ctx : DayCtx) : List Task → TaskLoopState → TaskLoopState
  | [], st => st
  | task :: rest, st =>
    if st.free = [] then { st with done := st.done ++ task :: rest }
    else
      let isPP := strContains task.type "Past Paper"
      let ignore := task.mandatory
      let effPerSubj : Int := if ignore then 10 ^ 9 else st.perSubj
      let effDayCap : Int := if ignore then 10 ^ 9 else st.dayCap
      if ¬ignore ∧ (effPerSubj ≤ 0 ∨ effDayCap ≤ 0) then
        { st with done := st.done ++ task :: rest }
      else
        let alloc : List Block × ℚ × Int × Int :=
          if isPP then
            let minutesNeeded := pyRound (task.hours * 60)
            if ignore ∨ (effPerSubj ≥ minutesNeeded ∧ effDayCap ≥ minutesNeeded) then
              let s := allocSingleBlock minutesNeeded st.free ctx.frontload
              (s, if s = [] then task.hours else 0, effPerSubj, effDayCap)
            else ([], task.hours, effPerSubj, effDayCap)
          else
            allocateSessions task.hours st.free effPerSubj effDayCap
              ctx.breakMinutes ctx.frontload
        let sessions := alloc.1
        let remHours := alloc.2.1
        let est := emitSessions ctx task.type isPP sessions
          { occupied := st.occupied, free := st.free
            sessionCount := st.sessionCount, scheduled := st.scheduled
            usedMinutes := 0, lastDur := 0, lastSbs := 0, lastSbe := 0 }
        let caps : Int × Int :=
          if sessions = [] then (st.perSubj, st.dayCap)
          else if ¬isPP then
            if ¬ignore then (alloc.2.2.1, alloc.2.2.2)
            else
              let countingUsed := est.lastDur +
                (if est.lastSbe > est.lastSbs then
                  min est.lastSbe ctx.dayEnd - max est.lastSbs ctx.dayStart
                else 0)
              (max 0 (st.perSubj - countingUsed), max 0 (st.dayCap - countingUsed))
          else
            (max 0 (st.perSubj - est.usedMinutes), max 0 (st.dayCap - est.usedMinutes))
        let hours' := if sessions = [] then task.hours else remHours
        let st' : TaskLoopState :=
          { occupied := est.occupied, free := est.free, perSubj := caps.1
            dayCap := caps.2, sessionCount := est.sessionCount
            scheduled := est.scheduled, done := st.done }
        if hours' ≤ 1 / 1000000 then taskLoop ctx rest st'
        else taskLoop ctx rest { st' with done := st'.done ++ [{ task with hours := hours' }] }

/-- The supper insertion of the forward day loop: clamp the supper interval
to the day window and append it to the day's occupancy unless it is empty or
overlaps an already-occupied block. -/
def withSupper (occupied0 : List Block) (dayStart dayEnd supperStart supperEnd : Int) :
    List Block :=
  if supperEnd > dayStart ∧ supperStart < dayEnd then
    let ss := max supperStart dayStart
    let se := min supperEnd dayEnd
    if se > ss then
      if occupied0.any (fun ob => decide (overlaps ss se ob.1 ob.2)) then occupied0
      else occupied0 ++ [(ss, se)]
    else occupied0
  else occupied0

/-- One day `d` of forward placement (the body of the source's day loop):
day bounds with the exam-day adjustments, supper insertion, free segments,
capacity computation and the task loop. -/
def placeDay (subject : String) (exam : ExamRec) (cfg : Config) (lastDay d : Int)
    (blocks : List Block) (tasks : List Task) (sessionCountByDay : List (Int × Int)) :
    List Item × List Task × List (Int × Int) :=
  let b := dayBounds d cfg
  let dayStart := b.1
  let dayEnd :=
    if d = lastDay then
      if hourOf exam.start < 12 then dayStart else min b.2 exam.start
    else b.2
  let occupied0 := blocksFor blocks d
  let supperStart := atTime d 18 30
  let supperEnd := supperStart + 90
  let occupied := withSupper occupied0 dayStart dayEnd supperStart supperEnd
  let free := freeSegments occupied dayStart dayEnd
  let dayCapMinutes := dayCapMinutesFn cfg d occupied
  let perSubj := pyTrunc (cfg.perSubjectDailyCapHours * 60)
  let ctx : DayCtx :=
    ⟨subject, exam.paper, dayStart, dayEnd, cfg.breakMinutes, cfg.adhdFrontload⟩
  let stF := taskLoop ctx tasks
    { occupied := occupied, free := free, perSubj := perSubj, dayCap := dayCapMinutes
      sessionCount := scGet sessionCountByDay d, scheduled := [], done := [] }
  (stF.scheduled, stF.done, scSet sessionCountByDay d stF.sessionCount)

/-- The forward day loop `while d <= last_day and tasks`. -/
def dayLoop (subject : String) (exam : ExamRec) (cfg : Config) (lastDay : Int) :
    Nat → Int → List Block → List Task → List (Int × Int) → List Item →
    List Item × List Task × List (Int × Int)
  | 0, _, _, tasks, sc, acc => (acc, tasks, sc)
  | fuel + 1, d, blocks, tasks, sc, acc =>
    if d ≤ lastDay ∧ tasks ≠ [] then
      let r := placeDay subject exam cfg lastDay d blocks tasks sc
      dayLoop subject exam cfg lastDay fuel (d + 1) blocks r.2.1 r.2.2 (acc ++ r.1)
    else (acc, tasks, sc)

/-- `schedule_study_for_exam(subject, exam, tasks, planner_start,
blocks_by_date, cfg, session_count_by_day)`: the priority reservation
followed by forward placement; returns the scheduled items, the mutated
block map and the mutated per-day session counts. -/
def scheduleStudyForExam (subject : String) (exam : ExamRec) (tasks : List Task)
    (plannerStartDay : Int) (blocks : List Block) (cfg : Config)
    (sessionCountByDay : List (Int × Int)) (today : Int) :
    List Item × List Block × List (Int × Int) :=
  let lastDay := dateOf exam.start
  let res := reservationPhase subject exam tasks plannerStartDay today blocks cfg
  let rd := res.1
  let dayCursor := max plannerStartDay today
  let fuel := (lastDay - dayCursor + 1).toNat
  let r := dayLoop subject exam cfg lastDay fuel dayCursor rd.blocks rd.tasks
    sessionCountByDay rd.scheduled
  (r.1, rd.blocks, r.2.2)

/-- The per-exam step of the scheduling fold of `build_study_plan`: derive the
exam's tasks, schedule them, append the produced items to the plan and their
intervals to `blocks_by_date`, and count the non-break sessions per day. -/
def planStep (cfg : Config) (ps today : Int)
    (acc : List Item × List Block × List (Int × Int)) (se : String × ExamRec) :
    List Item × List Block × List (Int × Int) :=
  let tasks := buildTasksForExam se.1 se.2
  if tasks = [] then acc
  else
    let r := scheduleStudyForExam se.1 se.2 tasks ps acc.2.1 cfg acc.2.2 today
    let scheduled := r.1
    let blocks' := r.2.1 ++ scheduled.map (fun s => (s.start, s.stop))
    let sc' := scheduled.foldl
      (fun m s =>
        if ¬ strStarts s.type "Break" ∧ s.type ≠ "EXAM" then
          scSet m (dateOf s.start) (scGet m (dateOf s.start) + 1)
        else m)
      r.2.2
    (acc.1 ++ scheduled, blocks', sc')

/-- The supper-item pass of `build_study_plan`: append a supper break item for
day `d` when the plan already has an item on that date. -/
def addSupperDay (plan : List Item) (d : Int) : List Item :=
  if plan.any (fun it => dateOf it.start = d) then
    plan ++ [⟨"—", "—", "Break: Supper", atTime d 18 30, atTime d 18 30 + 90⟩]
  else plan

/-- `build_study_plan(exam_timetable, legacy_data)`: enriches the legacy exam
dicts in place, schedules every exam in chronological order, appends the
supper items and sorts the plan; returns the plan together with the mutated
legacy data (the in-place enrichment). -/
def buildStudyPlanRun (tt : Timetable) (legacy : LegacyData) (today : Int) :
    List Item × LegacyData :=
  let cfg := getConfig tt.metadata
  let legacy' := extendExamsWithLevels tt legacy
  let ps := tt.metadata.plannerStartDate
  let pe := tt.metadata.plannerEndDate
  let blocks0 := listBlocksByDate legacy'.trialExams legacy'.finalExams
    cfg.tuitionBlocks ps pe
  let allExams := sortedBy (fun (a b : String × ExamRec) => a.2.start ≤ b.2.start)
    (legacy'.trialExams.flatMap (fun p => p.2.map (fun e => (p.1, e))) ++
      legacy'.finalExams.flatMap (fun p => p.2.map (fun e => (p.1, e))))
  let folded := allExams.foldl (planStep cfg ps today) ([], blocks0, [])
  let supperDays := (List.range (pe + 1 - ps).toNat).map (fun i => ps + i)
  let plan2 := supperDays.foldl addSupperDay folded.1
  (sortedBy (fun (a b : Item) => a.start ≤ b.start) plan2, legacy')

/-- Concrete input: a tuition class 09:30-15:00 on day 0 and one afternoon
exam on day 3 whose only task is the mandatory past paper. -/
def tuitionDayMeta : Metadata :=
  { plannerStartDate := 0, plannerEndDate := 3
    tuitionClasses := [(atTime 0 9 30, atTime 0 15 0)] }

/-- Concrete timetable for `tuitionDayMeta`. -/
def tuitionDayTT : Timetable :=
  { metadata := tuitionDayMeta
    subjects := [{ name := "Math"
                   trialExams := [{ paper := some "P1", startDt := atTime 3 12 0
                                    endDt := atTime 3 14 0
                                    theoryLevel := some "none"
                                    practiceLevel := some "none"
                                    pastPapersRequired := some 1 }] }] }

/-- Concrete runtime exam dicts for `tuitionDayTT`. -/
def tuitionDayLegacy : LegacyData :=
  { trialExams := [("Math",
      [{ paper := "P1", start := atTime 3 12 0, stop := atTime 3 14 0 }])]
    finalExams := [("Math", [])] }

/-- C3 counterexample: on the concrete input `tuitionDayTT`, the produced plan
contains the 15-minute break item 18:30-18:45 and the supper item 18:30-20:00
of the same day, two distinct items on the same date whose intervals overlap
(the claim asserts no two same-date items ever overlap). -/
theorem c3_overlap_counterexample :
    (⟨"Math", "P1", "Break: 15m", atTime 0 18 30, atTime 0 18 45⟩ : Item) ∈
      (buildStudyPlanRun tuitionDayTT tuitionDayLegacy 0).1 ∧
    (⟨"—", "—", "Break: Supper", atTime 0 18 30, atTime 0 20 0⟩ : Item) ∈
      (buildStudyPlanRun tuitionDayTT tuitionDayLegacy 0).1 ∧
    (⟨"Math", "P1", "Break: 15m", atTime 0 18 30, atTime 0 18 45⟩ : Item) ≠
      (⟨"—", "—", "Break: Supper", atTime 0 18 30, atTime 0 20 0⟩ : Item) ∧
    dateOf (atTime 0 18 30) = dateOf (atTime 0 18 30) ∧
    overlaps (atTime 0 18 30) (atTime 0 18 45) (atTime 0 18 30) (atTime 0 20 0) := by
  decide

/-- Concrete input for the reservation driver: free days, an afternoon exam
on day 3 with medium effort (so `required = 2`), and roomy eve days. -/
def freeDaysExam : ExamRec :=
  { paper := "P1", start := atTime 3 12 0, stop := atTime 3 14 0
    effortLevel := some "medium", theoryLevel := some "medium"
    practiceLevel := some "medium", pastPapersRequired := some 0 }

/-- The block map for `freeDaysExam` alone over planner days 0-3. -/
def freeDaysBlocks : List Block :=
  listBlocksByDate [("Math", [freeDaysExam])] [] [] 0 3

/-- C1: evaluating the embedded day-before reservation driver on
`freeDaysExam` shows the slip in `remaining -= _reserve_priority_on(...)`:
the eve day (day 2) fits both required sessions, yet two further sessions
are also reserved on day 1 (`E.date - 2`), where the claim requires the
fallback day to receive only the unplaced remainder (here zero). -/
theorem c1_reservation_eval :
    (((reservationPhase "Math" freeDaysExam
        (buildTasksForExam "Math" freeDaysExam) 0 0 freeDaysBlocks
        (getConfig { plannerStartDate := 0, plannerEndDate := 3 })).1.scheduled.filter
          (fun it => dateOf it.start = 2)).length = 2) ∧
    (((reservationPhase "Math" freeDaysExam
        (buildTasksForExam "Math" freeDaysExam) 0 0 freeDaysBlocks
        (getConfig { plannerStartDate := 0, plannerEndDate := 3 })).1.scheduled.filter
          (fun it => dateOf it.start = 1)).length = 2) := by
  decide

/-- Concrete input record whose `past_papers_required` key is absent. -/
def noPPFieldTT : Timetable :=
  { metadata := { plannerStartDate := 0, plannerEndDate := 3 }
    subjects := [{ name := "Math"
                   trialExams := [{ paper := some "P1", startDt := atTime 1 9 0
                                    endDt := atTime 1 11 0 }] }] }

/-- Runtime exam dicts for `noPPFieldTT`. -/
def noPPFieldLegacy : LegacyData :=
  { trialExams := [("Math",
      [{ paper := "P1", start := atTime 1 9 0, stop := atTime 1 11 0 }])]
    finalExams := [("Math", [])] }

theorem mandatory_false_of_mem_theoryPractice {subject : String} {ex : ExamRec}
    {t : Task} (h : t ∈ theoryPracticeTasks subject ex) : t.mandatory = false := by
  unfold theoryPracticeTasks at h
  rcases List.mem_append.mp h with h' | h' <;>
    [skip; skip] <;> (split at h' <;> simp_all)

theorem mandatory_false_of_mem_rest {subject : String} {ex : ExamRec}
    {t : Task} (h : t ∈ restTasksFor subject ex) : t.mandatory = false := by
  unfold restTasksFor at h
  rcases hx : ex.hours with _ | oh <;> rw [hx] at h
  · exact mandatory_false_of_mem_theoryPractice h
  · dsimp only at h
    split at h
    · simp_all
    · exact mandatory_false_of_mem_theoryPractice h

theorem mem_pp1_buildTasks (subject : String) (ex : ExamRec) :
    pp1Task subject ex.paper ∈ buildTasksForExam subject ex ↔
      (1 ≤ ex.pastPapersRequired.getD 0 ∨ ex.pastPapersRequired = none) := by
  constructor
  · intro h
    rcases List.mem_append.mp h with h' | h'
    · unfold ppTasksFor at h'
      dsimp only at h'
      split at h'
      · rcases List.mem_cons.mp h' with _ | h''
        · rename_i hN _
          rcases ho : ex.pastPapersRequired with _ | n
          · exact Or.inr rfl
          · refine Or.inl ?_
            unfold effectivePP at hN
            rw [ho] at hN
            simp only [Option.getD_some, Option.isNone_some] at hN
            simp only [Option.getD_some]
            by_cases hn : n = 0
            · simp [hn] at hN
            · simp [hn] at hN; omega
        · exfalso
          rcases List.mem_map.mp h'' with ⟨j, _, hj⟩
          have : (pp1Task subject ex.paper).mandatory = true := rfl
          rw [← hj] at this
          simp [timedPaperTask] at this
      · simp at h'
    · exfalso
      have := mandatory_false_of_mem_rest h'
      simp [pp1Task] at this
  · intro h
    have hN : effectivePP ex > 0 := by
      unfold effectivePP
      rcases ho : ex.pastPapersRequired with _ | n
      · simp
      · rcases h with h | h
        · rw [ho] at h
          simp only [Option.getD_some] at h
          simp only [ho, Option.getD_some, Option.isNone_some]
          by_cases hn : n = 0 <;> simp [hn] <;> omega
        · rw [ho] at h; exact absurd h (by simp)
    refine List.mem_append.mpr (Or.inl ?_)
    unfold ppTasksFor
    simp only [hN, if_pos]
    exact List.mem_cons_self _ _

/-- C2 (amended): through the pipeline, enrichment stores
`int(record.get("past_papers_required", 0))` on every matched exam, so the
mandatory 2-hour `Past Paper 1 (non-written)` task is emitted iff the input
record's field (counted as 0 when absent) is at least 1; the absent-key
default of `build_tasks_for_exam` fires only for exam dicts that were never
matched by enrichment (second conjunct). -/
theorem c2_pastpaper_pipeline (subject : String) (srcExams : List SrcExam)
    (ex : ExamRec) :
    (∀ s, srcExams.find? (srcMatches ex) = some s →
      (pp1Task subject ex.paper ∈ buildTasksForExam subject (enrichOne srcExams ex) ↔
        1 ≤ s.pastPapersRequired.getD 0)) ∧
    (ex.pastPapersRequired = none →
      pp1Task subject ex.paper ∈ buildTasksForExam subject ex) := by
  constructor
  · intro s hs
    unfold enrichOne
    rw [hs]
    have hpaper : ({ ex with
        effortLevel := some (s.effortLevel.getD "medium")
        theoryLevel := some (s.theoryLevel.getD "medium")
        practiceLevel := some (s.practiceLevel.getD "medium")
        pastPapersRequired := some (s.pastPapersRequired.getD 0)
        hours := match s.hours with | some h => some h | none => ex.hours } : ExamRec).paper
        = ex.paper := rfl
    rw [← hpaper, mem_pp1_buildTasks]
    simp
  · intro hnone
    exact (mem_pp1_buildTasks subject ex).mpr (Or.inr hnone)

/-- Source exam with `past_papers_required = 2` used in the C2 witness. -/
def twoPPSrc : SrcExam :=
  { paper := some "P1", startDt := atTime 1 9 0, endDt := atTime 1 11 0
    pastPapersRequired := some 2 }

/-- Runtime exam dict matching `twoPPSrc`. -/
def twoPPEx : ExamRec := { paper := "P1", start := atTime 1 9 0, stop := atTime 1 11 0 }

/-- Witness for the amended C2 at a record with `past_papers_required = 2`
and at an unmatched exam dict lacking the key. -/
theorem c2_pastpaper_pipeline_witness :
    ([twoPPSrc].find? (srcMatches twoPPEx) = some twoPPSrc ∧
      (pp1Task "Math" twoPPEx.paper ∈
          buildTasksForExam "Math" (enrichOne [twoPPSrc] twoPPEx) ↔
        1 ≤ twoPPSrc.pastPapersRequired.getD 0)) ∧
    (twoPPEx.pastPapersRequired = none ∧
      pp1Task "Math" twoPPEx.paper ∈ buildTasksForExam "Math" twoPPEx) :=
  ⟨⟨by decide, (c2_pastpaper_pipeline "Math" [twoPPSrc] twoPPEx).1 twoPPSrc (by decide)⟩,
   ⟨by decide, (c2_pastpaper_pipeline "Math" [twoPPSrc] twoPPEx).2 (by decide)⟩⟩

/-- C2 counterexample: the input record of `noPPFieldTT` has no
`past_papers_required` field, yet after the pipeline's enrichment
(`extend_exams_with_levels` stores `int(s.get("past_papers_required", 0))`)
the workload deriver emits no past-paper task at all — the claim predicts a
mandatory 2-hour `Past Paper 1 (non-written)` task in exactly this case. -/
theorem c2_absent_field_counterexample :
    (noPPFieldTT.subjects.map (fun sd => sd.trialExams.map
      (fun s => s.pastPapersRequired)) = [[none]]) ∧
    ((extendExamsWithLevels noPPFieldTT noPPFieldLegacy).trialExams.flatMap
        (fun p => p.2.flatMap (buildTasksForExam p.1))).all
      (fun t => ¬ strContains t.type "Past Paper") = true := by
  decide

theorem countingMinutesOf_eq_sum (l : List Block) :
    countingMinutesOf l =
      (l.map (fun b =>
        if hourOf b.1 = 18 ∧ minuteOf b.1 = 30 ∧ b.2 - b.1 = 90 then 0
        else b.2 - b.1)).sum := by
  unfold countingMinutesOf
  suffices h : ∀ a : Int, l.foldl
      (fun acc b =>
        if hourOf b.1 = 18 ∧ minuteOf b.1 = 30 ∧ b.2 - b.1 = 90 then acc
        else acc + (b.2 - b.1)) a =
      a + (l.map (fun b =>
        if hourOf b.1 = 18 ∧ minuteOf b.1 = 30 ∧ b.2 - b.1 = 90 then 0
        else b.2 - b.1)).sum by
    simpa using h 0
  induction l with
  | nil => intro a; simp
  | cons b rest ih =>
    intro a
    simp only [List.foldl_cons, List.map_cons, List.sum_cons]
    by_cases hb : hourOf b.1 = 18 ∧ minuteOf b.1 = 30 ∧ b.2 - b.1 = 90
    · rw [if_pos hb, if_pos hb, ih]; ring
    · rw [if_neg hb, if_neg hb, ih]; ring

theorem int_emod_eq_mod (a b : ℤ) : a.emod b = a % b := rfl

theorem int_ediv_eq_div (a b : ℤ) : a.ediv b = a / b := rfl

theorem supperish_iff {d : Int} {b : Block} (hb : dateOf b.1 = d) :
    (hourOf b.1 = 18 ∧ minuteOf b.1 = 30 ∧ b.2 - b.1 = 90) ↔ b = supperBlock d := by
  obtain ⟨t, u⟩ := b
  simp only [dateOf] at hb
  simp only [hourOf, minuteOf, supperBlock, atTime, Prod.mk.injEq]
  rw [Int.fdiv_eq_ediv _ (by norm_num)] at hb
  rw [Int.fdiv_eq_ediv _ (by norm_num)]
  simp only [int_emod_eq_mod, int_ediv_eq_div] at hb ⊢
  omega

theorem sum_if_eq_filter (s : Block) (dur : Block → Int) (l : List Block) :
    (l.map (fun b => if b = s then 0 else dur b)).sum =
      ((l.filter (fun b => b ≠ s)).map dur).sum := by
  induction l with
  | nil => simp
  | cons b rest ih =>
    by_cases hb : b = s
    · simp [hb, ih]
    · simp [hb, ih]

/-- C5: for every day of forward placement with its occupied blocks all filed
under that date, the computed daily capacity equals
`(study_time_per_day or per_day_max_hours) * 60 - counting_minutes` with
`counting_minutes` the summed durations of the day's occupied blocks other
than the supper block, plus `weekend_extra_hours * 60` on Saturdays/Sundays,
plus `free_day_extra_hours * 60` when `counting_minutes <= 30`, clamped to be
non-negative. -/
theorem c5_day_capacity (cfg : Config) (d : Int) (occupied : List Block)
    (hocc : ∀ b ∈ occupied, dateOf b.1 = d) :
    dayCapMinutesFn cfg d occupied =
      max 0 (pyTrunc ((cfg.studyTimePerDay.getD cfg.perDayMaxHours) * 60)
        - ((occupied.filter (fun b => b ≠ supperBlock d)).map (fun b => b.2 - b.1)).sum
        + (if weekdayOf d = 5 ∨ weekdayOf d = 6 then pyTrunc (cfg.weekendExtraHours * 60) else 0)
        + (if ((occupied.filter (fun b => b ≠ supperBlock d)).map (fun b => b.2 - b.1)).sum ≤ 30
            then pyTrunc (cfg.freeDayExtraHours * 60) else 0)) := by
  have hcount : countingMinutesOf occupied =
      ((occupied.filter (fun b => b ≠ supperBlock d)).map (fun b => b.2 - b.1)).sum := by
    rw [countingMinutesOf_eq_sum, ← sum_if_eq_filter (supperBlock d) (fun b => b.2 - b.1)]
    congr 1
    exact List.map_congr_left (fun b hb => by
      by_cases hs : b = supperBlock d
      · rw [if_pos ((supperish_iff (hocc b hb)).mpr hs), if_pos hs]
      · rw [if_neg (fun hc => hs ((supperish_iff (hocc b hb)).mp hc)), if_neg hs])
  have hweek : weekdayOf d ≥ 5 ↔ (weekdayOf d = 5 ∨ weekdayOf d = 6) := by
    simp only [weekdayOf, int_emod_eq_mod]
    omega
  unfold dayCapMinutesFn
  rw [hcount]
  dsimp only
  by_cases hw : weekdayOf d ≥ 5
  · rw [if_pos hw, if_pos (hweek.mp hw)]
    by_cases hf : ((occupied.filter (fun b => b ≠ supperBlock d)).map
        (fun b => b.2 - b.1)).sum ≤ 30
    · rw [if_pos hf, if_pos hf]
    · rw [if_neg hf, if_neg hf]; congr 1; ring
  · rw [if_neg hw, if_neg (fun hc => hw (hweek.mpr hc))]
    by_cases hf : ((occupied.filter (fun b => b ≠ supperBlock d)).map
        (fun b => b.2 - b.1)).sum ≤ 30
    · rw [if_pos hf, if_pos hf]; congr 1; ring
    · rw [if_neg hf, if_neg hf]; congr 1; ring

/-- The default configuration over planner days 0-3, used by witnesses. -/
def defaultCfg : Config := getConfig { plannerStartDate := 0, plannerEndDate := 3 }

/-- The occupied blocks of the C5 witness day: a tuition class and supper. -/
def c5Occ : List Block := [((570:ℤ), (900:ℤ)), supperBlock 0]

/-- Witness for C5 on day 0 with a tuition block and the supper block. -/
theorem c5_day_capacity_witness :
    (∀ b ∈ c5Occ, dateOf b.1 = 0) ∧
    dayCapMinutesFn defaultCfg 0 c5Occ =
      max 0 (pyTrunc ((defaultCfg.studyTimePerDay.getD defaultCfg.perDayMaxHours) * 60)
        - ((c5Occ.filter (fun b => b ≠ supperBlock 0)).map (fun b => b.2 - b.1)).sum
        + (if weekdayOf 0 = 5 ∨ weekdayOf 0 = 6 then
            pyTrunc (defaultCfg.weekendExtraHours * 60) else 0)
        + (if ((c5Occ.filter (fun b => b ≠ supperBlock 0)).map
              (fun b => b.2 - b.1)).sum ≤ 30
            then pyTrunc (defaultCfg.freeDayExtraHours * 60) else 0)) :=
  ⟨by decide, c5_day_capacity defaultCfg 0 c5Occ (by decide)⟩

theorem blocksFor_append_single (blocks : List Block) (b : Block) (d : Int)
    (h : dateOf b.1 ≠ d) : blocksFor (blocks ++ [b]) d = blocksFor blocks d := by
  unfold blocksFor
  rw [List.filter_append]
  have : List.filter (fun x => decide (dateOf x.1 = d)) [b] = [] := by
    simp [h]
  rw [this, List.append_nil]

/-- C9: the occupancy map files every interval under the date of its start
only: every block listed for date `d` starts on day `d`; consequently an
interval that crosses midnight (starting on `d`, ending on `d + 1`) never
appears in date `d + 1`'s block list, and appending such an interval to the
block map leaves the following day's free segments unchanged. -/
theorem c9_blocks_keyed_by_start_date
    (trial final : List (String × List ExamRec)) (tuition : List Block)
    (ps pe d : Int) :
    (∀ b ∈ blocksFor (listBlocksByDate trial final tuition ps pe) d,
      dateOf b.1 = d) ∧
    (∀ b : Block, dateOf b.1 = d → dateOf b.2 = d + 1 →
      b ∉ blocksFor (listBlocksByDate trial final tuition ps pe) (d + 1)) ∧
    (∀ (blocks : List Block) (b : Block) (lo hi : Int), dateOf b.1 = d →
      freeSegments (blocksFor (blocks ++ [b]) (d + 1)) lo hi =
        freeSegments (blocksFor blocks (d + 1)) lo hi) := by
  refine ⟨?_, ?_, ?_⟩
  · intro b hb
    have := List.mem_filter.mp hb
    exact of_decide_eq_true this.2
  · intro b h1 _ hb
    have := List.mem_filter.mp hb
    have h2 := of_decide_eq_true this.2
    omega
  · intro blocks b lo hi h1
    rw [blocksFor_append_single blocks b (d + 1) (by omega)]

/-- Witness for C9 at day 3 of `freeDaysBlocks` with an interval running
from 23:30 on day 3 into day 4. -/
theorem c9_blocks_keyed_by_start_date_witness :
    (dateOf (atTime 3 23 30) = 3 ∧ dateOf (atTime 3 23 30 + 90) = 4) ∧
    (atTime 3 23 30, atTime 3 23 30 + 90) ∉ blocksFor freeDaysBlocks 4 ∧
    freeSegments (blocksFor (freeDaysBlocks ++ [(atTime 3 23 30, atTime 3 23 30 + 90)]) 4)
        (atTime 4 9 0) (atTime 4 21 30) =
      freeSegments (blocksFor freeDaysBlocks 4) (atTime 4 9 0) (atTime 4 21 30) :=
  ⟨⟨by decide, by decide⟩,
   (c9_blocks_keyed_by_start_date [("Math", [freeDaysExam])] [] [] 0 3 3).2.1
     (atTime 3 23 30, atTime 3 23 30 + 90) (by decide) (by decide),
   (c9_blocks_keyed_by_start_date [("Math", [freeDaysExam])] [] [] 0 3 3).2.2
     freeDaysBlocks (atTime 3 23 30, atTime 3 23 30 + 90)
     (atTime 4 9 0) (atTime 4 21 30) (by decide)⟩

theorem enrichOne_idem (src : List SrcExam) (ex : ExamRec) :
    enrichOne src (enrichOne src ex) = enrichOne src ex := by
  unfold enrichOne
  cases hf : src.find? (srcMatches ex) with
  | none => dsimp only; rw [hf]
  | some s =>
    dsimp only
    have hf' : src.find? (srcMatches
        { ex with
          effortLevel := some (s.effortLevel.getD "medium")
          theoryLevel := some (s.theoryLevel.getD "medium")
          practiceLevel := some (s.practiceLevel.getD "medium")
          pastPapersRequired := some (s.pastPapersRequired.getD 0)
          hours := match s.hours with | some h => some h | none => ex.hours }) =
        some s := hf
    rw [hf']
    cases hs : s.hours <;> simp [hs]

theorem enrichGroup_idem (tt : Timetable) (trial : Bool)
    (g : List (String × List ExamRec)) :
    enrichGroup tt trial (enrichGroup tt trial g) = enrichGroup tt trial g := by
  unfold enrichGroup
  rw [List.map_map]
  refine List.map_congr_left (fun p _ => ?_)
  simp only [Function.comp_apply]
  rw [List.map_map]
  exact congrArg _ (List.map_congr_left (fun e _ => enrichOne_idem _ e))

theorem extendExams_idem (tt : Timetable) (legacy : LegacyData) :
    extendExamsWithLevels tt (extendExamsWithLevels tt legacy) =
      extendExamsWithLevels tt legacy := by
  unfold extendExamsWithLevels
  simp only [enrichGroup_idem]

/-- C8: re-running the engine with identical input and wall-clock `today` on
the state left by a first run (the in-place enrichment of the exam dicts is
the only state a run mutates) produces the identical item sequence; the
engine is a pure function of its inputs, and enrichment is idempotent. -/
theorem c8_identical_reruns (tt : Timetable) (legacy : LegacyData) (today : Int) :
    (buildStudyPlanRun tt (buildStudyPlanRun tt legacy today).2 today).1 =
      (buildStudyPlanRun tt legacy today).1 := by
  have h2 : (buildStudyPlanRun tt legacy today).2 = extendExamsWithLevels tt legacy := rfl
  rw [h2]
  unfold buildStudyPlanRun
  rw [extendExams_idem]

/-- The verifier's warnings, one constructor per message format of
`verify_study_plan` (carrying the message's parameters). -/
inductive Warning where
  | missingSupper (day : Int)
  | missingInterBreak (day : Int) (subject paper : String)
  | missingRecovery (day : Int) (subject paper : String)
  | missingPPDowntime (day : Int) (need : Int) (subject paper : String)
deriving DecidableEq, Repr

/-- `has_block_between(start, end, min_minutes)` over a day's blocks. -/
def hasBlockBetween (blocks : List Block) (s e minMinutes : Int) : Bool :=
  blocks.any (fun b => decide (overlaps b.1 b.2 s e) &&
    decide (max 0 (min b.2 e - max b.1 s) ≥ minMinutes))

/-- The items of the plan on date `d`, sorted by start (`by_date` grouping). -/
def itemsOn (plan : List Item) (d : Int) : List Item :=
  sortedBy (fun a b => a.start ≤ b.start) (plan.filter (fun it => dateOf it.start = d))

/-- The distinct dates of the plan, in ascending order
(`sorted(by_date.items())`). -/
def planDates (plan : List Item) : List Int :=
  sortedBy (fun a b : Int => a ≤ b) (plan.map (fun it => dateOf it.start)).eraseDups

/-- The per-item checks of the verifier's day loop: 15-minute inter-session
break, 2-hour recovery after every 4th session, and post-past-paper
downtime; `sessionCount` counts the study sessions seen so far. -/
def dayItemChecks (day dayEnd breakMin : Int) (blocks : List Block) :
    Int → List Item → List Warning
  | _, [] => []
  | sessionCount, it :: rest =>
    let isSession := ¬ strStarts it.type "Break" ∧ it.type ≠ "EXAM"
    let sc' := if isSession then sessionCount + 1 else sessionCount
    let curEnd := it.stop
    let w1 : List Warning :=
      if isSession then
        match rest with
        | next :: _ =>
          if next.start - curEnd ≥ breakMin ∧
              ¬ hasBlockBetween blocks curEnd next.start breakMin then
            [Warning.missingInterBreak day it.subject it.paper]
          else []
        | [] => []
      else []
    let w2 : List Warning :=
      if isSession ∧ sc' % 4 = 0 then
        let longE := min dayEnd (curEnd + 120)
        if longE - curEnd ≥ 60 ∧ ¬ hasBlockBetween blocks curEnd longE 90 then
          [Warning.missingRecovery day it.subject it.paper]
        else []
      else []
    let w3 : List Warning :=
      if strContains it.type "Past Paper" then
        let need : Int := if strContains it.type "non-written" then 45 else 90
        let ppE := min dayEnd (curEnd + need)
        if ppE - curEnd ≥ need / 2 ∧ ¬ hasBlockBetween blocks curEnd ppE (need / 2) then
          [Warning.missingPPDowntime day need it.subject it.paper]
        else []
      else []
    w1 ++ w2 ++ w3 ++ dayItemChecks day dayEnd breakMin blocks sc' rest

/-- One day of `verify_study_plan`: the supper check followed by the
per-item checks. -/
def dayWarnings (cfg : Config) (plan : List Item) (d : Int) : List Warning :=
  let items := itemsOn plan d
  let blocks := items.map (fun it => (it.start, it.stop))
  let b := dayBounds d cfg
  let supperS := max (atTime d 18 30) b.1
  let supperE := min (atTime d 18 30 + 90) b.2
  let w0 : List Warning :=
    if supperE > supperS then
      if items.any (fun it => strContains it.type "Break: Supper") then []
      else [Warning.missingSupper d]
    else []
  w0 ++ dayItemChecks d b.2 cfg.breakMinutes blocks 0 items

/-- `verify_study_plan(plan, trial_exams, final_exams, cfg)`: scans each date
of the plan and returns all warnings; the plan itself is never modified. -/
def verifyStudyPlan (plan : List Item) (cfg : Config) : List Warning :=
  (planDates plan).flatMap (dayWarnings cfg plan)

/-- The past-paper plan used in the C7 counterexample: a non-written paper
10:00-12:00 followed by a 22-minute occupied block. -/
def ppShortPlan : List Item :=
  [⟨"Math", "P1", "Past Paper 1 (non-written)", atTime 5 10 0, atTime 5 12 0⟩,
   ⟨"Math", "P1", "Theory Study", atTime 5 12 0, atTime 5 12 22⟩]

/-- C7 counterexample: after the non-written past paper of `ppShortPlan`,
no block is occupied for at least half of the 45-minute downtime (half is
22.5 minutes and the occupied overlap is 22), the check window is the full
45 minutes, and yet the verifier emits no post-past-paper downtime warning:
the code compares against `need // 2 = 22`, not half. -/
theorem c7_floor_half_counterexample :
    (∀ b ∈ ppShortPlan.map (fun it => (it.start, it.stop)),
      2 * max 0 (min b.2 (atTime 5 12 45) - max b.1 (atTime 5 12 0)) < 45) ∧
    2 * (min ((dayBounds 5 defaultCfg).2) (atTime 5 12 0 + 45) - atTime 5 12 0) ≥ 45 ∧
    Warning.missingPPDowntime 5 45 "Math" "P1" ∉ verifyStudyPlan ppShortPlan defaultCfg := by
  decide

theorem ppWarning_not_mem_w1 (day : Int) (need : Int) (subj paper : String)
    (it : Item) (rest : List Item) (breakMin : Int) (blocks : List Block)
    (isSession : Prop) [Decidable isSession] :
    Warning.missingPPDowntime day need subj paper ∉
      (if isSession then
        match rest with
        | next :: _ =>
          if next.start - it.stop ≥ breakMin ∧
              ¬ hasBlockBetween blocks it.stop next.start breakMin then
            [Warning.missingInterBreak day it.subject it.paper]
          else []
        | [] => []
      else ([] : List Warning)) := by
  split
  · match rest with
    | [] => simp
    | next :: _ => split <;> simp
  · simp

theorem ppWarning_not_mem_w2 (day dayEnd : Int) (need : Int) (subj paper : String)
    (it : Item) (blocks : List Block) (cond : Prop) [Decidable cond] :
    Warning.missingPPDowntime day need subj paper ∉
      (if cond then
        (if min dayEnd (it.stop + 120) - it.stop ≥ 60 ∧
            ¬ hasBlockBetween blocks it.stop (min dayEnd (it.stop + 120)) 90 then
          [Warning.missingRecovery day it.subject it.paper]
        else [])
      else ([] : List Warning)) := by
  split
  · split <;> simp
  · simp

theorem ppWarning_mem_dayItemChecks (day dayEnd breakMin : Int) (blocks : List Block)
    (need : Int) (subj paper : String) :
    ∀ (items : List Item) (sc : Int),
      Warning.missingPPDowntime day need subj paper ∈
          dayItemChecks day dayEnd breakMin blocks sc items ↔
        ∃ it ∈ items, it.subject = subj ∧ it.paper = paper ∧
          strContains it.type "Past Paper" = true ∧
          need = (if strContains it.type "non-written" = true then 45 else 90) ∧
          min dayEnd (it.stop + need) - it.stop ≥ need / 2 ∧
          hasBlockBetween blocks it.stop (min dayEnd (it.stop + need)) (need / 2) = false := by
  intro items
  induction items with
  | nil => intro sc; simp [dayItemChecks]
  | cons it rest ih =>
    intro sc
    simp only [dayItemChecks]
    constructor
    · intro hmem
      rcases List.mem_append.mp hmem with h123 | hr
      · rcases List.mem_append.mp h123 with h12 | h3
        · rcases List.mem_append.mp h12 with h1 | h2
          · exact absurd h1 (ppWarning_not_mem_w1 day need subj paper it rest breakMin blocks _)
          · exact absurd h2 (ppWarning_not_mem_w2 day dayEnd need subj paper it blocks _)
        · by_cases hpp : strContains it.type "Past Paper" = true
          · rw [if_pos hpp] at h3
            by_cases hcond : min dayEnd (it.stop +
                  (if strContains it.type "non-written" = true then 45 else 90)) - it.stop ≥
                  (if strContains it.type "non-written" = true then 45 else 90) / 2 ∧
                ¬ hasBlockBetween blocks it.stop
                  (min dayEnd (it.stop +
                    (if strContains it.type "non-written" = true then 45 else 90)))
                  ((if strContains it.type "non-written" = true then 45 else 90) / 2) = true
            · rw [if_pos hcond] at h3
              have h := List.mem_singleton.mp h3
              injection h with hday hneed hsubj hpaper
              refine ⟨it, List.mem_cons_self _ _, hsubj.symm, hpaper.symm, hpp,
                hneed, ?_, ?_⟩
              · rw [hneed]; exact hcond.1
              · rw [hneed]
                exact Bool.eq_false_iff.mpr hcond.2
            · rw [if_neg hcond] at h3
              simp at h3
          · rw [if_neg hpp] at h3
            simp at h3
      · rcases (ih _).mp hr with ⟨x, hx, hrest⟩
        exact ⟨x, List.mem_cons_of_mem _ hx, hrest⟩
    · rintro ⟨x, hx, hsubj, hpaper, hpp, hneed, hwin, hnb⟩
      rcases List.mem_cons.mp hx with rfl | hx'
      · refine List.mem_append.mpr (Or.inl (List.mem_append.mpr (Or.inr ?_)))
        rw [if_pos hpp]
        rw [if_pos ⟨by rw [← hneed]; exact hwin,
          by rw [← hneed]; simp [hnb]⟩]
        simp [hsubj, hpaper, hneed]
      · exact List.mem_append.mpr (Or.inr
          ((ih _).mpr ⟨x, hx', hsubj, hpaper, hpp, hneed, hwin, hnb⟩))

/-- The date a warning is keyed by. -/
def warnDay : Warning → Int
  | .missingSupper d => d
  | .missingInterBreak d _ _ => d
  | .missingRecovery d _ _ => d
  | .missingPPDowntime d _ _ _ => d

theorem mem_ite_nil {α : Type} {c : Prop} [Decidable c] {l : List α} {x : α}
    (h : x ∈ (if c then l else [])) : x ∈ l := by
  split at h
  · exact h
  · simp at h

theorem mem_ite_nil_left {α : Type} {c : Prop} [Decidable c] {l : List α} {x : α}
    (h : x ∈ (if c then [] else l)) : x ∈ l := by
  split at h
  · simp at h
  · exact h

theorem warnDay_of_mem_dayItemChecks (day dayEnd breakMin : Int)
    (blocks : List Block) :
    ∀ (items : List Item) (sc : Int) (w : Warning),
      w ∈ dayItemChecks day dayEnd breakMin blocks sc items → warnDay w = day := by
  intro items
  induction items with
  | nil => intro sc w h; simp [dayItemChecks] at h
  | cons it rest ih =>
    intro sc w h
    simp only [dayItemChecks] at h
    rcases List.mem_append.mp h with h123 | hr
    · rcases List.mem_append.mp h123 with h12 | h3
      · rcases List.mem_append.mp h12 with h1 | h2
        · have h1' := mem_ite_nil h1
          cases rest with
          | nil => simp at h1'
          | cons next tail =>
            have h1'' : w ∈ (if next.start - it.stop ≥ breakMin ∧
                ¬ hasBlockBetween blocks it.stop next.start breakMin = true then
                  [Warning.missingInterBreak day it.subject it.paper]
                else []) := h1'
            rw [List.mem_singleton.mp (mem_ite_nil h1'')]
            rfl
        · rw [List.mem_singleton.mp (mem_ite_nil (mem_ite_nil h2))]
          rfl
      · rw [List.mem_singleton.mp (mem_ite_nil (mem_ite_nil h3))]
        rfl
    · exact ih _ w hr

theorem warnDay_of_mem_dayWarnings (cfg : Config) (plan : List Item) (d : Int)
    (w : Warning) (h : w ∈ dayWarnings cfg plan d) : warnDay w = d := by
  unfold dayWarnings at h
  rcases List.mem_append.mp h with h0 | h1
  · rw [List.mem_singleton.mp (mem_ite_nil_left (mem_ite_nil h0))]
    rfl
  · exact warnDay_of_mem_dayItemChecks _ _ _ _ _ _ w h1

/-- C7 (amended): a post-past-paper downtime warning for date `day` is in the
verifier's output iff the plan has an item on that date whose type contains
"Past Paper", whose check window (from the item's end to the required
downtime, truncated at the day's end) spans at least `need // 2` minutes
(22 for the 45-minute non-written downtime, 45 for the timed 90), and no
occupied block of that date overlaps the window by at least `need // 2`
minutes; the verifier never aborts and never modifies the plan. -/
theorem c7_pp_downtime_warning_iff (plan : List Item) (cfg : Config)
    (day need : Int) (subj paper : String) :
    Warning.missingPPDowntime day need subj paper ∈ verifyStudyPlan plan cfg ↔
      (day ∈ planDates plan ∧
        ∃ it ∈ itemsOn plan day, it.subject = subj ∧ it.paper = paper ∧
          strContains it.type "Past Paper" = true ∧
          need = (if strContains it.type "non-written" = true then 45 else 90) ∧
          min ((dayBounds day cfg).2) (it.stop + need) - it.stop ≥ need / 2 ∧
          hasBlockBetween ((itemsOn plan day).map (fun x => (x.start, x.stop)))
            it.stop (min ((dayBounds day cfg).2) (it.stop + need)) (need / 2) = false) := by
  unfold verifyStudyPlan
  rw [List.mem_flatMap]
  constructor
  · rintro ⟨d, hd, hw⟩
    have hday : d = day := by
      have := warnDay_of_mem_dayWarnings cfg plan d _ hw
      simpa [warnDay] using this.symm
    subst hday
    refine ⟨hd, ?_⟩
    unfold dayWarnings at hw
    rcases List.mem_append.mp hw with h0 | h1
    · exact absurd (List.mem_singleton.mp (mem_ite_nil_left (mem_ite_nil h0))) (by simp)
    · exact (ppWarning_mem_dayItemChecks d _ _ _ need subj paper _ 0).mp h1
  · rintro ⟨hd, hex⟩
    refine ⟨day, hd, ?_⟩
    unfold dayWarnings
    refine List.mem_append.mpr (Or.inr ?_)
    exact (ppWarning_mem_dayItemChecks day _ _ _ need subj paper _ 0).mpr hex

/-- Strict separation of two blocks in day order. -/
def sepLt (a b : Block) : Prop := a.2 < b.1

/-- Non-overlap of two blocks in day order (touching allowed). -/
def sepLe (a b : Block) : Prop := a.2 ≤ b.1

/-- Disjointness of a segment from a block (either side). -/
def disjB (s b : Block) : Prop := s.2 ≤ b.1 ∨ b.2 ≤ s.1

/-- Every block of the list is non-degenerate. -/
def allPos (l : List Block) : Prop := ∀ b ∈ l, b.1 < b.2

theorem mem_insertStable {α : Type} (le : α → α → Bool) (x : α) :
    ∀ (l : List α) (y : α), y ∈ insertStable le x l ↔ y = x ∨ y ∈ l := by
  intro l
  induction l with
  | nil => intro y; simp [insertStable]
  | cons z rest ih =>
    intro y
    unfold insertStable
    split
    · rw [List.mem_cons, ih y, List.mem_cons]
      tauto
    · rw [List.mem_cons, List.mem_cons]

theorem mem_sortedBy {α : Type} (le : α → α → Bool) (l : List α) (y : α) :
    y ∈ sortedBy le l ↔ y ∈ l := by
  unfold sortedBy
  suffices h : ∀ acc, y ∈ l.foldl (fun acc x => insertStable le x acc) acc ↔
      y ∈ acc ∨ y ∈ l by
    rw [h []]; simp
  induction l with
  | nil => intro acc; simp
  | cons x rest ih =>
    intro acc
    rw [List.foldl_cons, ih, mem_insertStable, List.mem_cons]
    tauto

theorem disjB_mono {s' s b : Block} (h1 : s.1 ≤ s'.1) (h2 : s'.2 ≤ s.2)
    (h : disjB s b) : disjB s' b := by
  rcases h with h | h
  · exact Or.inl (le_trans h2 h)
  · exact Or.inr (le_trans h h1)

theorem subtractBlock_sub (b : Block) :
    ∀ (segs : List Block), ∀ s' ∈ subtractBlock b segs,
      ∃ s ∈ segs, s.1 ≤ s'.1 ∧ s'.2 ≤ s.2 := by
  intro segs
  induction segs with
  | nil => intro s' h; simp [subtractBlock] at h
  | cons fsfe rest ih =>
    intro s' h
    obtain ⟨fs, fe⟩ := fsfe
    unfold subtractBlock at h
    split at h
    · rcases List.mem_cons.mp h with rfl | h'
      · exact ⟨(fs, fe), List.mem_cons_self _ _, le_refl _, le_refl _⟩
      · obtain ⟨s, hs, h1, h2⟩ := ih s' h'
        exact ⟨s, List.mem_cons_of_mem _ hs, h1, h2⟩
    · rename_i hcond
      push_neg at hcond
      rcases List.mem_append.mp h with h12 | h'
      · rcases List.mem_append.mp h12 with h1 | h2
        · rw [List.mem_singleton.mp (mem_ite_nil h1)]
          exact ⟨(fs, fe), List.mem_cons_self _ _, le_refl _, le_of_lt hcond.2⟩
        · rw [List.mem_singleton.mp (mem_ite_nil h2)]
          exact ⟨(fs, fe), List.mem_cons_self _ _, le_of_lt hcond.1, le_refl _⟩
      · obtain ⟨s, hs, h1, h2⟩ := ih s' h'
        exact ⟨s, List.mem_cons_of_mem _ hs, h1, h2⟩

theorem subtractBlock_disj (b : Block) :
    ∀ (segs : List Block), ∀ s' ∈ subtractBlock b segs, disjB s' b := by
  intro segs
  induction segs with
  | nil => intro s' h; simp [subtractBlock] at h
  | cons fsfe rest ih =>
    intro s' h
    obtain ⟨fs, fe⟩ := fsfe
    unfold subtractBlock at h
    split at h
    · rename_i hcond
      rcases List.mem_cons.mp h with rfl | h'
      · rcases hcond with hc | hc
        · exact Or.inr hc
        · exact Or.inl hc
      · exact ih s' h'
    · rcases List.mem_append.mp h with h12 | h'
      · rcases List.mem_append.mp h12 with h1 | h2
        · rw [List.mem_singleton.mp (mem_ite_nil h1)]
          exact Or.inl (le_refl _)
        · rw [List.mem_singleton.mp (mem_ite_nil h2)]
          exact Or.inr (le_refl _)
      · exact ih s' h'

theorem subtractBlock_pairwise (b : Block) (hb : b.1 < b.2) :
    ∀ (segs : List Block), List.Pairwise sepLt segs →
      List.Pairwise sepLt (subtractBlock b segs) := by
  intro segs
  induction segs with
  | nil => intro _; simp [subtractBlock]
  | cons fsfe rest ih =>
    intro hp
    obtain ⟨fs, fe⟩ := fsfe
    rcases List.pairwise_cons.mp hp with ⟨hhead, htail⟩
    have hrest : ∀ s' ∈ subtractBlock b rest, fe < s'.1 := by
      intro s' hs'
      obtain ⟨s, hs, h1, _⟩ := subtractBlock_sub b rest s' hs'
      exact lt_of_lt_of_le (hhead s hs) h1
    unfold subtractBlock
    split
    · exact List.pairwise_cons.mpr ⟨hrest, ih htail⟩
    · rename_i hcond
      push_neg at hcond
      rw [List.append_assoc]
      refine List.pairwise_append.mpr ⟨?_, ?_, ?_⟩
      · split <;> simp
      · refine List.pairwise_append.mpr ⟨?_, ih htail, ?_⟩
        · split <;> simp
        · intro x hx s' hs'
          rw [List.mem_singleton.mp (mem_ite_nil hx)]
          exact hrest s' hs'
      · intro x hx y hy
        rw [List.mem_singleton.mp (mem_ite_nil hx)]
        rcases List.mem_append.mp hy with h2 | h'
        · rw [List.mem_singleton.mp (mem_ite_nil h2)]
          exact hb
        · exact lt_trans hcond.2 (hrest _ h')

theorem foldl_subtract_sub (bs : List Block) :
    ∀ (segs : List Block),
      ∀ s' ∈ bs.foldl (fun segs b => subtractBlock b segs) segs,
        ∃ s ∈ segs, s.1 ≤ s'.1 ∧ s'.2 ≤ s.2 := by
  induction bs with
  | nil => intro segs s' h; exact ⟨s', h, le_refl _, le_refl _⟩
  | cons b rest ih =>
    intro segs s' h
    rw [List.foldl_cons] at h
    obtain ⟨s1, hs1, h1, h2⟩ := ih (subtractBlock b segs) s' h
    obtain ⟨s, hs, h3, h4⟩ := subtractBlock_sub b segs s1 hs1
    exact ⟨s, hs, le_trans h3 h1, le_trans h2 h4⟩

theorem foldl_subtract_disj (bs : List Block) :
    ∀ (segs : List Block) (b : Block), b ∈ bs →
      ∀ s' ∈ bs.foldl (fun segs b => subtractBlock b segs) segs, disjB s' b := by
  induction bs with
  | nil => intro segs b hb; simp at hb
  | cons b0 rest ih =>
    intro segs b hb s' h
    rw [List.foldl_cons] at h
    rcases List.mem_cons.mp hb with rfl | hb'
    · obtain ⟨s1, hs1, h1, h2⟩ := foldl_subtract_sub rest (subtractBlock b segs) s' h
      exact disjB_mono h1 h2 (subtractBlock_disj b segs s1 hs1)
    · exact ih (subtractBlock b0 segs) b hb' s' h

theorem foldl_subtract_pairwise (bs : List Block) (hpos : allPos bs) :
    ∀ (segs : List Block), List.Pairwise sepLt segs →
      List.Pairwise sepLt (bs.foldl (fun segs b => subtractBlock b segs) segs) := by
  induction bs with
  | nil => intro segs h; exact h
  | cons b rest ih =>
    intro segs h
    rw [List.foldl_cons]
    exact ih (fun x hx => hpos x (List.mem_cons_of_mem _ hx)) _
      (subtractBlock_pairwise b (hpos b (List.mem_cons_self _ _)) segs h)

theorem freeSegments_spec (occupied : List Block) (lo hi : Int)
    (hpos : allPos occupied) :
    (∀ s ∈ freeSegments occupied lo hi,
      lo ≤ s.1 ∧ s.2 - s.1 ≥ 45 ∧ s.2 ≤ hi ∧ ∀ b ∈ occupied, disjB s b) ∧
    List.Pairwise sepLt (freeSegments occupied lo hi) := by
  have hmemsort : ∀ b, b ∈ sortedBy blockLeLex occupied ↔ b ∈ occupied :=
    fun b => mem_sortedBy blockLeLex occupied b
  constructor
  · intro s hs
    have hs' := List.mem_filter.mp hs
    have hlen : s.2 - s.1 ≥ 45 := by
      have := hs'.2
      exact of_decide_eq_true this
    obtain ⟨s0, hs0, h1, h2⟩ := foldl_subtract_sub _ _ s hs'.1
    rcases List.mem_singleton.mp hs0 with rfl
    refine ⟨h1, hlen, h2, ?_⟩
    intro b hb
    exact foldl_subtract_disj _ _ b ((hmemsort b).mpr hb) s hs'.1
  · have hpos' : allPos (sortedBy blockLeLex occupied) :=
      fun b hb => hpos b ((hmemsort b).mp hb)
    have := foldl_subtract_pairwise _ hpos' [(lo, hi)] (by simp)
    exact this.sublist (List.filter_sublist _)

theorem freeSegments_nil (occupied : List Block) (lo hi : Int) (h : hi ≤ lo) :
    freeSegments occupied lo hi = [] := by
  unfold freeSegments
  rw [List.filter_eq_nil_iff]
  intro s hs
  obtain ⟨s0, hs0, h1, h2⟩ := foldl_subtract_sub _ _ s hs
  rcases List.mem_singleton.mp hs0 with rfl
  simp only [decide_eq_true_eq, defaultSessionMin]
  intro hcon
  have hq : s.2 ≤ s.1 := le_trans h2 (le_trans h h1)
  omega

theorem insertStable_append_of {α : Type} (le : α → α → Bool) (x : α) :
    ∀ (l : List α), (∀ y ∈ l, le y x = true) → insertStable le x l = l ++ [x] := by
  intro l
  induction l with
  | nil => intro _; rfl
  | cons y rest ih =>
    intro h
    unfold insertStable
    rw [if_pos (h y (List.mem_cons_self _ _)), ih (fun z hz => h z (List.mem_cons_of_mem _ hz))]
    rfl

theorem insertStable_front_of {α : Type} (le : α → α → Bool) (x : α) :
    ∀ (l : List α), (∀ y ∈ l, le y x = false) → insertStable le x l = x :: l := by
  intro l
  cases l with
  | nil => intro _; rfl
  | cons y rest =>
    intro h
    unfold insertStable
    rw [if_neg (by rw [h y (List.mem_cons_self _ _)]; exact fun hc => Bool.noConfusion hc)]

theorem pairwise_startLt_of {l : List Block} (hp : List.Pairwise sepLt l)
    (hpos : ∀ s ∈ l, s.1 < s.2) : List.Pairwise (fun a b : Block => a.1 < b.1) l := by
  induction l with
  | nil => exact List.Pairwise.nil
  | cons a rest ih =>
    rcases List.pairwise_cons.mp hp with ⟨hhead, htail⟩
    refine List.pairwise_cons.mpr ⟨?_, ih htail (fun s hs => hpos s (List.mem_cons_of_mem _ hs))⟩
    intro b hb
    exact lt_trans (hpos a (List.mem_cons_self _ _)) (hhead b hb)

theorem sortedBy_asc_eq_self (l : List Block)
    (h : List.Pairwise (fun a b : Block => a.1 < b.1) l) :
    sortedBy blockLeStart l = l := by
  unfold sortedBy
  suffices h' : ∀ (m : List Block), List.Pairwise (fun a b : Block => a.1 < b.1) m →
      ∀ acc, (∀ y ∈ acc, ∀ x ∈ m, y.1 ≤ x.1) →
      m.foldl (fun acc x => insertStable blockLeStart x acc) acc = acc ++ m by
    simpa using h' l h [] (by simp)
  intro m
  induction m with
  | nil => intro _ acc _; simp
  | cons x rest ih =>
    intro hm acc hacc
    rcases List.pairwise_cons.mp hm with ⟨hhead, htail⟩
    rw [List.foldl_cons]
    rw [insertStable_append_of blockLeStart x acc
      (fun y hy => decide_eq_true (hacc y hy x (List.mem_cons_self _ _)))]
    rw [ih htail (acc ++ [x]) ?_]
    · simp
    · intro y hy z hz
      rcases List.mem_append.mp hy with hy' | hy'
      · exact hacc y hy' z (List.mem_cons_of_mem _ hz)
      · rw [List.mem_singleton.mp hy']
        exact le_of_lt (hhead z hz)

theorem sortedBy_desc_eq_reverse (l : List Block)
    (h : List.Pairwise (fun a b : Block => a.1 < b.1) l) :
    sortedBy (fun a b : Block => b.1 ≤ a.1) l = l.reverse := by
  unfold sortedBy
  suffices h' : ∀ (m : List Block), List.Pairwise (fun a b : Block => a.1 < b.1) m →
      ∀ acc, (∀ y ∈ acc, ∀ x ∈ m, y.1 < x.1) →
      m.foldl (fun acc x => insertStable (fun a b : Block => b.1 ≤ a.1) x acc) acc =
        m.reverse ++ acc by
    simpa using h' l h [] (by simp)
  intro m
  induction m with
  | nil => intro _ acc _; simp
  | cons x rest ih =>
    intro hm acc hacc
    rcases List.pairwise_cons.mp hm with ⟨hhead, htail⟩
    rw [List.foldl_cons]
    rw [insertStable_front_of (fun a b : Block => b.1 ≤ a.1) x acc
      (fun y hy => decide_eq_false (not_le.mpr (hacc y hy x (List.mem_cons_self _ _))))]
    rw [ih htail (x :: acc) ?_]
    · rw [List.reverse_cons, List.append_assoc]
      rfl
    · intro y hy z hz
      rcases List.mem_cons.mp hy with rfl | hy'
      · exact hhead z hz
      · exact lt_trans (hacc y hy' x (List.mem_cons_self _ _)) (hhead z hz)

theorem mem_orderSegs (frontload : Bool) (free : List Block) (b : Block) :
    b ∈ orderSegs frontload free ↔ b ∈ free := by
  unfold orderSegs
  split <;> rw [mem_sortedBy]

theorem allocSeg_spec (e breakMin : Int) (hbm : 0 ≤ breakMin) :
    ∀ (fuel : Nat) (cursor : Int) (st : AllocState),
    (∀ le', st.lastEnd = some le' → le' < cursor ∨ (le' = cursor ∧ breakMin = 0)) →
    ∃ new : List Block,
      (allocSeg e breakMin fuel cursor st).sessions = st.sessions ++ new ∧
      (∀ b ∈ new, cursor ≤ b.1 ∧ b.1 < b.2 ∧ b.2 ≤ e) ∧
      List.Pairwise sepLe new ∧
      ((new = [] ∧ (allocSeg e breakMin fuel cursor st).lastEnd = st.lastEnd) ∨
        (∃ le2, (allocSeg e breakMin fuel cursor st).lastEnd = some le2 ∧ le2 ≤ e ∧
          (∀ b ∈ new, b.2 ≤ le2) ∧
          (∀ le', st.lastEnd = some le' → le' ≤ le2))) := by
  intro fuel
  induction fuel with
  | zero =>
    intro cursor st _
    exact ⟨[], by simp [allocSeg], by simp, List.Pairwise.nil,
      Or.inl ⟨rfl, by simp [allocSeg]⟩⟩
  | succ fuel ih =>
    intro cursor st hlast
    rw [allocSeg]
    by_cases hguard : cursor < e ∧ st.minutesNeeded > 0 ∧ st.perSubj > 0 ∧ st.dayCap > 0
    · rw [if_pos hguard]
      by_cases hseg : e - cursor ≤ 0
      · rw [if_pos hseg]
        exact ⟨[], by simp, by simp, List.Pairwise.nil, Or.inl ⟨rfl, rfl⟩⟩
      · rw [if_neg hseg]
        set sessionLen := min (min (min (min defaultSessionMax (e - cursor)) st.perSubj)
          st.dayCap) st.minutesNeeded with hlen
        by_cases hmin : sessionLen < defaultSessionMin ∧ st.minutesNeeded > defaultSessionMin
        · rw [if_pos hmin]
          exact ⟨[], by simp, by simp, List.Pairwise.nil, Or.inl ⟨rfl, rfl⟩⟩
        · rw [if_neg hmin]
          have hlen1 : 1 ≤ sessionLen := by
            rw [hlen]
            simp only [le_min_iff, defaultSessionMax]
            omega
          have hlenE : sessionLen ≤ e - cursor := by
            rw [hlen]
            simp only [defaultSessionMax]
            omega
          have hcont : ∀ cursor', cursor' = cursor →
              ∃ new : List Block,
                (allocSeg e breakMin fuel (cursor' + sessionLen + breakMin)
                  { sessions := st.sessions ++ [(cursor', cursor' + sessionLen)]
                    minutesNeeded := st.minutesNeeded - sessionLen
                    perSubj := st.perSubj - sessionLen
                    dayCap := st.dayCap - sessionLen
                    lastEnd := some (cursor' + sessionLen) }).sessions =
                  st.sessions ++ new ∧
                (∀ b ∈ new, cursor ≤ b.1 ∧ b.1 < b.2 ∧ b.2 ≤ e) ∧
                List.Pairwise sepLe new ∧
                ((new = [] ∧ (allocSeg e breakMin fuel (cursor' + sessionLen + breakMin)
                    { sessions := st.sessions ++ [(cursor', cursor' + sessionLen)]
                      minutesNeeded := st.minutesNeeded - sessionLen
                      perSubj := st.perSubj - sessionLen
                      dayCap := st.dayCap - sessionLen
                      lastEnd := some (cursor' + sessionLen) }).lastEnd = st.lastEnd) ∨
                  (∃ le2, (allocSeg e breakMin fuel (cursor' + sessionLen + breakMin)
                    { sessions := st.sessions ++ [(cursor', cursor' + sessionLen)]
                      minutesNeeded := st.minutesNeeded - sessionLen
                      perSubj := st.perSubj - sessionLen
                      dayCap := st.dayCap - sessionLen
                      lastEnd := some (cursor' + sessionLen) }).lastEnd = some le2 ∧
                    le2 ≤ e ∧ (∀ b ∈ new, b.2 ≤ le2) ∧
                    (∀ le', st.lastEnd = some le' → le' ≤ le2))) := by
            intro cursor' hc
            subst hc
            have hrec := ih (cursor' + sessionLen + breakMin)
              { sessions := st.sessions ++ [(cursor', cursor' + sessionLen)]
                minutesNeeded := st.minutesNeeded - sessionLen
                perSubj := st.perSubj - sessionLen
                dayCap := st.dayCap - sessionLen
                lastEnd := some (cursor' + sessionLen) }
              (by
                intro le' hle'
                simp only at hle'
                rcases hle' with rfl | _
                · rcases lt_or_eq_of_le hbm with hb | hb
                  · exact Or.inl (by omega)
                  · exact Or.inr ⟨by omega, hb.symm⟩)
            obtain ⟨new2, hsess, hbnd, hpw, hle⟩ := hrec
            refine ⟨(cursor', cursor' + sessionLen) :: new2, ?_, ?_, ?_, ?_⟩
            · rw [hsess]; simp
            · intro b hb
              rcases List.mem_cons.mp hb with rfl | hb'
              · exact ⟨le_refl _, by omega, by omega⟩
              · obtain ⟨h1, h2, h3⟩ := hbnd b hb'
                exact ⟨le_trans (by omega) h1, h2, h3⟩
            · refine List.pairwise_cons.mpr ⟨?_, hpw⟩
              intro b hb
              have := (hbnd b hb).1
              show (cursor', cursor' + sessionLen).2 ≤ b.1
              omega
            · rcases hle with ⟨hnew2, hlast2⟩ | ⟨le2, hl2, hl2e, hl2b, hl2o⟩
              · refine Or.inr ⟨cursor' + sessionLen, ?_, by omega, ?_, ?_⟩
                · rw [hlast2]
                · intro b hb
                  rcases List.mem_cons.mp hb with rfl | hb'
                  · exact le_refl _
                  · rw [hnew2] at hb'; simp at hb'
                · intro le' hle'
                  rcases hlast le' hle' with h | ⟨h, _⟩ <;> omega
              · refine Or.inr ⟨le2, hl2, hl2e, ?_, ?_⟩
                · intro b hb
                  rcases List.mem_cons.mp hb with rfl | hb'
                  · exact hl2o _ rfl
                  · exact hl2b b hb'
                · intro le' hle'
                  have h1 : le' ≤ cursor' := by
                    rcases hlast le' hle' with h | ⟨h, _⟩ <;> omega
                  exact le_trans h1 (le_trans (by omega) (hl2o _ rfl))
          dsimp only
          split
          · rename_i le' hoe
            by_cases hcle : cursor ≤ le'
            · rw [if_pos hcle]
              have hle0 : le' = cursor ∧ breakMin = 0 := by
                rcases hlast le' hoe with h | h
                · omega
                · exact h
              by_cases hc2 : le' + breakMin ≥ e
              · rw [if_pos hc2]
                exact ⟨[], by simp, by simp, List.Pairwise.nil, Or.inl ⟨rfl, rfl⟩⟩
              · rw [if_neg hc2]
                by_cases hc3 : e - (le' + breakMin) < defaultSessionMin
                · rw [if_pos hc3]
                  exact ⟨[], by simp, by simp, List.Pairwise.nil, Or.inl ⟨rfl, rfl⟩⟩
                · rw [if_neg hc3]
                  exact hcont (le' + breakMin) (by omega)
            · rw [if_neg hcle]
              exact hcont cursor rfl
          · exact hcont cursor rfl
    · rw [if_neg hguard]
      exact ⟨[], by simp, by simp, List.Pairwise.nil, Or.inl ⟨rfl, rfl⟩⟩

/-- `allocSeg` only appends sessions, and appends none only when it leaves the
whole state untouched. -/
theorem allocSeg_ext (e breakMin : Int) :
    ∀ (fuel : Nat) (cursor : Int) (st : AllocState),
    ∃ new : List Block,
      (allocSeg e breakMin fuel cursor st).sessions = st.sessions ++ new ∧
      (new = [] → allocSeg e breakMin fuel cursor st = st) := by
  intro fuel
  induction fuel with
  | zero => intro cursor st; exact ⟨[], by simp [allocSeg], fun _ => rfl⟩
  | succ fuel ih =>
    intro cursor st
    rw [allocSeg]
    by_cases hguard : cursor < e ∧ st.minutesNeeded > 0 ∧ st.perSubj > 0 ∧ st.dayCap > 0
    · rw [if_pos hguard]
      by_cases hseg : e - cursor ≤ 0
      · rw [if_pos hseg]
        exact ⟨[], by simp, fun _ => rfl⟩
      · rw [if_neg hseg]
        set sessionLen := min (min (min (min defaultSessionMax (e - cursor)) st.perSubj)
          st.dayCap) st.minutesNeeded with hlen
        by_cases hmin : sessionLen < defaultSessionMin ∧ st.minutesNeeded > defaultSessionMin
        · rw [if_pos hmin]
          exact ⟨[], by simp, fun _ => rfl⟩
        · rw [if_neg hmin]
          have hcont : ∀ cursor' : Int,
              ∃ new : List Block,
                (allocSeg e breakMin fuel (cursor' + sessionLen + breakMin)
                  { sessions := st.sessions ++ [(cursor', cursor' + sessionLen)]
                    minutesNeeded := st.minutesNeeded - sessionLen
                    perSubj := st.perSubj - sessionLen
                    dayCap := st.dayCap - sessionLen
                    lastEnd := some (cursor' + sessionLen) }).sessions =
                  st.sessions ++ new ∧ new ≠ [] := by
            intro cursor'
            obtain ⟨new2, hs2, _⟩ := ih (cursor' + sessionLen + breakMin)
              { sessions := st.sessions ++ [(cursor', cursor' + sessionLen)]
                minutesNeeded := st.minutesNeeded - sessionLen
                perSubj := st.perSubj - sessionLen
                dayCap := st.dayCap - sessionLen
                lastEnd := some (cursor' + sessionLen) }
            refine ⟨(cursor', cursor' + sessionLen) :: new2, ?_, by simp⟩
            rw [hs2]; simp
          dsimp only
          split
          · rename_i le' hoe
            by_cases hcle : cursor ≤ le'
            · rw [if_pos hcle]
              by_cases hc2 : le' + breakMin ≥ e
              · rw [if_pos hc2]
                exact ⟨[], by simp, fun _ => rfl⟩
              · rw [if_neg hc2]
                by_cases hc3 : e - (le' + breakMin) < defaultSessionMin
                · rw [if_pos hc3]
                  exact ⟨[], by simp, fun _ => rfl⟩
                · rw [if_neg hc3]
                  obtain ⟨new, h1, h2⟩ := hcont (le' + breakMin)
                  exact ⟨new, h1, fun hc => absurd hc h2⟩
            · rw [if_neg hcle]
              obtain ⟨new, h1, h2⟩ := hcont cursor
              exact ⟨new, h1, fun hc => absurd hc h2⟩
          · obtain ⟨new, h1, h2⟩ := hcont cursor
            exact ⟨new, h1, fun hc => absurd hc h2⟩
    · rw [if_neg hguard]
      exact ⟨[], by simp, fun _ => rfl⟩

/-- When `last_end` already lies at or past the segment end, the inner loop
places nothing and leaves the state untouched. -/
theorem allocSeg_skip (e breakMin : Int) (hbm : 0 ≤ breakMin) (le0 : Int)
    (fuel : Nat) (cursor : Int) (st : AllocState)
    (hle : st.lastEnd = some le0) (hee : e ≤ le0) :
    allocSeg e breakMin fuel cursor st = st := by
  cases fuel with
  | zero => rfl
  | succ fuel =>
    rw [allocSeg]
    by_cases hguard : cursor < e ∧ st.minutesNeeded > 0 ∧ st.perSubj > 0 ∧ st.dayCap > 0
    · rw [if_pos hguard]
      by_cases hseg : e - cursor ≤ 0
      · rw [if_pos hseg]
      · rw [if_neg hseg]
        set sessionLen := min (min (min (min defaultSessionMax (e - cursor)) st.perSubj)
          st.dayCap) st.minutesNeeded with hlen
        by_cases hmin : sessionLen < defaultSessionMin ∧ st.minutesNeeded > defaultSessionMin
        · rw [if_pos hmin]
        · rw [if_neg hmin]
          dsimp only
          split
          · rename_i le' hoe
            have hle' : le' = le0 := by
              rw [hle] at hoe
              exact (Option.some.inj hoe).symm
            subst hle'
            rw [if_pos (show cursor ≤ le' by omega),
              if_pos (show le' + breakMin ≥ e by omega)]
          · rename_i hoe
            rw [hle] at hoe
            cases hoe
    · rw [if_neg hguard]

/-- When `last_end` lies past the end of every remaining segment, the outer
loop leaves the state untouched. -/
theorem allocSegs_skip_all (breakMin : Int) (hbm : 0 ≤ breakMin) (le0 : Int) :
    ∀ (segs : List Block) (st : AllocState), st.lastEnd = some le0 →
    (∀ s ∈ segs, s.2 ≤ le0) → allocSegs breakMin segs st = st := by
  intro segs
  induction segs with
  | nil => intro st _ _; rfl
  | cons se rest ih =>
    intro st hle hall
    obtain ⟨s, e⟩ := se
    rw [allocSegs]
    rw [allocSeg_skip e breakMin hbm le0 _ s st hle
      (hall (s, e) (List.mem_cons_self _ _))]
    split
    · rfl
    · exact ih st hle (fun x hx => hall x (List.mem_cons_of_mem _ hx))

/-- The outer allocation loop over ascending, separated segments: every placed
session lies inside one of the segments, the sessions are mutually separated,
and `last_end` never escapes past a segment end. -/
theorem allocSegs_asc (breakMin : Int) (hbm : 0 ≤ breakMin) :
    ∀ (segs : List Block) (st : AllocState),
    List.Pairwise sepLt segs →
    (∀ le', st.lastEnd = some le' → ∀ s ∈ segs, le' < s.1) →
    ∃ new : List Block,
      (allocSegs breakMin segs st).sessions = st.sessions ++ new ∧
      (∀ b ∈ new, ∃ s ∈ segs, s.1 ≤ b.1 ∧ b.1 < b.2 ∧ b.2 ≤ s.2) ∧
      List.Pairwise sepLe new ∧
      (∀ le', (allocSegs breakMin segs st).lastEnd = some le' →
        st.lastEnd = some le' ∨ ∃ s ∈ segs, le' ≤ s.2) := by
  intro segs
  induction segs with
  | nil =>
    intro st _ _
    exact ⟨[], by simp [allocSegs], by simp, List.Pairwise.nil, fun le' h => Or.inl h⟩
  | cons se rest ih =>
    intro st hpw hlast
    obtain ⟨s, e⟩ := se
    rcases List.pairwise_cons.mp hpw with ⟨hhead, htail⟩
    obtain ⟨new1, hs1, hb1, hp1, hl1⟩ := allocSeg_spec e breakMin hbm
      (st.minutesNeeded.toNat + 1) s st
      (fun le' hle' => Or.inl (hlast le' hle' (s, e) (List.mem_cons_self _ _)))
    have hl1' : ∀ le', (allocSeg e breakMin (st.minutesNeeded.toNat + 1) s st).lastEnd =
        some le' → st.lastEnd = some le' ∨ le' ≤ e := by
      intro le' h
      rcases hl1 with ⟨_, heq⟩ | ⟨le2, heq, he2, _, _⟩
      · exact Or.inl (heq ▸ h)
      · rw [heq] at h
        exact Or.inr (Option.some.inj h ▸ he2)
    rw [allocSegs]
    split
    · refine ⟨new1, hs1, ?_, hp1, ?_⟩
      · intro b hb
        exact ⟨(s, e), List.mem_cons_self _ _, hb1 b hb⟩
      · intro le' h
        rcases hl1' le' h with h' | h'
        · exact Or.inl h'
        · exact Or.inr ⟨(s, e), List.mem_cons_self _ _, h'⟩
    · obtain ⟨new2, hs2, hb2, hp2, hl2⟩ := ih
        (allocSeg e breakMin (st.minutesNeeded.toNat + 1) s st) htail
        (by
          intro le' h s' hs'
          rcases hl1' le' h with h' | h'
          · exact hlast le' h' s' (List.mem_cons_of_mem _ hs')
          · exact lt_of_le_of_lt h' (hhead s' hs'))
      refine ⟨new1 ++ new2, ?_, ?_, ?_, ?_⟩
      · rw [hs2, hs1, List.append_assoc]
      · intro b hb
        rcases List.mem_append.mp hb with hb' | hb'
        · exact ⟨(s, e), List.mem_cons_self _ _, hb1 b hb'⟩
        · obtain ⟨s', hs', hbnd⟩ := hb2 b hb'
          exact ⟨s', List.mem_cons_of_mem _ hs', hbnd⟩
      · refine List.pairwise_append.mpr ⟨hp1, hp2, ?_⟩
        intro a ha b hb
        obtain ⟨s', hs', hbnd⟩ := hb2 b hb
        have h1 : a.2 ≤ e := (hb1 a ha).2.2
        have h2 : e < s'.1 := hhead s' hs'
        have h3 : s'.1 ≤ b.1 := hbnd.1
        show a.2 ≤ b.1
        omega
      · intro le' h
        rcases hl2 le' h with h' | ⟨s', hs', hle'⟩
        · rcases hl1' le' h' with h'' | h''
          · exact Or.inl h''
          · exact Or.inr ⟨(s, e), List.mem_cons_self _ _, h''⟩
        · exact Or.inr ⟨s', List.mem_cons_of_mem _ hs', hle'⟩

/-- The outer allocation loop over descending, separated segments starting with
no `last_end`: sessions land inside segments and remain mutually separated
(operationally they all come from the single first segment that places any). -/
theorem allocSegs_desc (breakMin : Int) (hbm : 0 ≤ breakMin) :
    ∀ (segs : List Block) (st : AllocState),
    List.Pairwise (fun a b : Block => b.2 < a.1) segs →
    st.lastEnd = none →
    ∃ new : List Block,
      (allocSegs breakMin segs st).sessions = st.sessions ++ new ∧
      (∀ b ∈ new, ∃ s ∈ segs, s.1 ≤ b.1 ∧ b.1 < b.2 ∧ b.2 ≤ s.2) ∧
      List.Pairwise sepLe new := by
  intro segs
  induction segs with
  | nil => intro st _ _; exact ⟨[], by simp [allocSegs], by simp, List.Pairwise.nil⟩
  | cons se rest ih =>
    intro st hpw hnone
    obtain ⟨s, e⟩ := se
    rcases List.pairwise_cons.mp hpw with ⟨hhead, htail⟩
    obtain ⟨new1, hs1, hb1, hp1, hl1⟩ := allocSeg_spec e breakMin hbm
      (st.minutesNeeded.toNat + 1) s st
      (fun le' hle' => by rw [hnone] at hle'; cases hle')
    rw [allocSegs]
    cases hn1 : new1 with
    | nil =>
      subst hn1
      obtain ⟨newp, hsp, hup⟩ := allocSeg_ext e breakMin (st.minutesNeeded.toNat + 1) s st
      have hnewp : newp = [] := by
        have h := hsp.symm.trans hs1
        simpa using List.append_cancel_left h
      rw [hup hnewp]
      split
      · exact ⟨[], by simp, by simp, List.Pairwise.nil⟩
      · obtain ⟨new2, hs2, hb2, hp2⟩ := ih st htail hnone
        refine ⟨new2, hs2, ?_, hp2⟩
        intro b hb
        obtain ⟨s', hs', hbnd⟩ := hb2 b hb
        exact ⟨s', List.mem_cons_of_mem _ hs', hbnd⟩
    | cons b0 new1' =>
      have hb0 : b0 ∈ new1 := by rw [hn1]; exact List.mem_cons_self _ _
      rcases hl1 with ⟨hnil, _⟩ | ⟨le2, heq, he2, hble2, _⟩
      · rw [hnil] at hn1; cases hn1
      · have hlow : s < le2 := by
          have h1 := (hb1 b0 hb0).1
          have h2 := (hb1 b0 hb0).2.1
          have h3 := hble2 b0 hb0
          omega
        have hskip := allocSegs_skip_all breakMin hbm le2 rest
          (allocSeg e breakMin (st.minutesNeeded.toNat + 1) s st) heq
          (fun x hx => le_of_lt (lt_trans (hhead x hx) hlow))
        have hout : ∀ b ∈ new1, ∃ s' ∈ (s, e) :: rest, s'.1 ≤ b.1 ∧ b.1 < b.2 ∧ b.2 ≤ s'.2 :=
          fun b hb => ⟨(s, e), List.mem_cons_self _ _, hb1 b hb⟩
        split
        · exact ⟨new1, hs1, hout, hp1⟩
        · rw [hskip]
          exact ⟨new1, hs1, hout, hp1⟩

/-- `_allocate_sessions` on separated, non-degenerate free segments: every
returned session block lies inside one of the segments, and the returned
session blocks are mutually separated. -/
theorem allocateSessions_spec (hoursNeeded : ℚ) (free : List Block)
    (perSubj dayCap breakMin : Int) (frontload : Bool) (hbm : 0 ≤ breakMin)
    (hpw : List.Pairwise sepLt free) (hpos : ∀ s ∈ free, s.1 < s.2) :
    (∀ b ∈ (allocateSessions hoursNeeded free perSubj dayCap breakMin frontload).1,
      ∃ s ∈ free, s.1 ≤ b.1 ∧ b.1 < b.2 ∧ b.2 ≤ s.2) ∧
    List.Pairwise sepLe
      (allocateSessions hoursNeeded free perSubj dayCap breakMin frontload).1 := by
  have hstart := pairwise_startLt_of hpw hpos
  unfold allocateSessions
  dsimp only
  cases frontload with
  | true =>
    have hord : orderSegs true free = free := by
      unfold orderSegs
      rw [if_pos rfl]
      exact sortedBy_asc_eq_self free hstart
    rw [hord]
    obtain ⟨new, hs, hb, hp, _⟩ := allocSegs_asc breakMin hbm free
      { sessions := [], minutesNeeded := pyRound (hoursNeeded * 60), perSubj := perSubj
        dayCap := dayCap, lastEnd := none } hpw (fun le' h => by simp at h)
    constructor
    · intro b hbmem
      rw [hs] at hbmem
      exact hb b (by simpa using hbmem)
    · rw [hs]
      simpa using hp
  | false =>
    have hord : orderSegs false free = free.reverse := by
      unfold orderSegs
      rw [if_neg (by simp)]
      exact sortedBy_desc_eq_reverse free hstart
    rw [hord]
    obtain ⟨new, hs, hb, hp⟩ := allocSegs_desc breakMin hbm free.reverse
      { sessions := [], minutesNeeded := pyRound (hoursNeeded * 60), perSubj := perSubj
        dayCap := dayCap, lastEnd := none }
      (List.pairwise_reverse.mpr (hpw.imp (fun h => h))) rfl
    constructor
    · intro b hbmem
      rw [hs] at hbmem
      obtain ⟨s, hsmem, hbnd⟩ := hb b (by simpa using hbmem)
      exact ⟨s, List.mem_reverse.mp hsmem, hbnd⟩
    · rw [hs]
      simpa using hp

/-- `_allocate_single_block`: the returned block (if any) lies inside one of
the given free segments. -/
theorem allocSingleBlock_spec (minutesNeeded : Int) (free : List Block)
    (frontload : Bool) :
    (∀ b ∈ allocSingleBlock minutesNeeded free frontload,
      ∃ s ∈ free, s.1 ≤ b.1 ∧ b.1 < b.2 ∧ b.2 ≤ s.2) ∧
    List.Pairwise sepLe (allocSingleBlock minutesNeeded free frontload) := by
  unfold allocSingleBlock
  split
  · exact ⟨fun b hb => absurd hb (List.not_mem_nil b), List.Pairwise.nil⟩
  · rename_i hmn
    split
    · rename_i s hfind
      refine ⟨?_, by simp⟩
      intro b hb
      rw [List.mem_singleton] at hb
      subst hb
      have hmem := List.mem_of_find?_eq_some hfind
      have hcond : s.2 - s.1 ≥ minutesNeeded := by
        have h := List.find?_some hfind
        exact of_decide_eq_true h
      refine ⟨s, (mem_orderSegs frontload free s).mp hmem, le_refl _, ?_, ?_⟩
      · show s.1 < s.1 + minutesNeeded
        omega
      · show s.1 + minutesNeeded ≤ s.2
        omega
    · exact ⟨fun b hb => absurd hb (List.not_mem_nil b), List.Pairwise.nil⟩

/-- The interval of a placed plan item. -/
def itemBlock (it : Item) : Block := (it.start, it.stop)

/-- Break items: the plan items whose type starts with `"Break"`. -/
def isBreakItem (it : Item) : Bool := strStarts it.type "Break"

/-- Two plan items do not overlap in time, unless one of them is a break. -/
def nbDisj (a b : Item) : Prop :=
  isBreakItem a = true ∨ isBreakItem b = true ∨ a.stop ≤ b.start ∨ b.stop ≤ a.start

theorem nbDisj_symm {a b : Item} (h : nbDisj a b) : nbDisj b a := by
  unfold nbDisj at h ⊢
  tauto

/-- The item lies inside the hard 09:00-23:00 window of day `d`. -/
def itemInDay (d : Int) (it : Item) : Prop :=
  atTime d 9 0 ≤ it.start ∧ it.start < it.stop ∧ it.stop ≤ atTime d 23 0

theorem itemInDay_date {d : Int} {it : Item} (h : itemInDay d it) :
    dateOf it.start = d := by
  obtain ⟨h1, h2, h3⟩ := h
  unfold atTime at h1 h3
  unfold dateOf
  rw [fdiv_eq_ediv_of_nonneg _ _ (by omega)]
  generalize hs : it.start = s at h1 h2 ⊢
  generalize ht : it.stop = t at h2 h3
  omega

/-- Items lying inside the hard windows of two different days never overlap. -/
theorem itemInDay_sep {d d' : Int} {a b : Item} (ha : itemInDay d a)
    (hb : itemInDay d' b) (hne : d ≠ d') :
    a.stop ≤ b.start ∨ b.stop ≤ a.start := by
  obtain ⟨ha1, ha2, ha3⟩ := ha
  obtain ⟨hb1, hb2, hb3⟩ := hb
  unfold atTime at ha1 ha3 hb1 hb3
  rcases lt_or_gt_of_ne hne with h | h
  · left; nlinarith
  · right; nlinarith

/-- A list of break items is trivially pairwise `nbDisj`. -/
theorem nbDisj_of_breaks {l : List Item} (h : ∀ it ∈ l, isBreakItem it = true) :
    List.Pairwise nbDisj l := by
  induction l with
  | nil => exact List.Pairwise.nil
  | cons a rest ih =>
    refine List.pairwise_cons.mpr
      ⟨?_, ih (fun it hit => h it (List.mem_cons_of_mem _ hit))⟩
    intro b _
    exact Or.inl (h a (List.mem_cons_self _ _))

theorem insertStable_perm {α : Type} (le : α → α → Bool) (x : α) :
    ∀ l : List α, List.Perm (insertStable le x l) (x :: l) := by
  intro l
  induction l with
  | nil => exact List.Perm.refl _
  | cons y rest ih =>
    unfold insertStable
    split
    · exact (List.Perm.cons y ih).trans (List.Perm.swap x y rest)
    · exact List.Perm.refl _

theorem sortedBy_perm {α : Type} (le : α → α → Bool) (l : List α) :
    List.Perm (sortedBy le l) l := by
  unfold sortedBy
  suffices h : ∀ acc,
      List.Perm (l.foldl (fun acc x => insertStable le x acc) acc) (l ++ acc) by
    simpa using h []
  induction l with
  | nil => intro acc; simp
  | cons x rest ih =>
    intro acc
    rw [List.foldl_cons]
    have hmid : List.Perm (rest ++ x :: acc) ((x :: rest) ++ acc) := by
      rw [List.cons_append]
      exact List.perm_middle
    exact ((ih (insertStable le x acc)).trans
      (List.Perm.append_left rest (insertStable_perm le x acc))).trans hmid

theorem charsPre_append (p : List Char) :
    ∀ l l' : List Char, charsPre p l = true → charsPre p (l ++ l') = true := by
  induction p with
  | nil => intro l l' _; rfl
  | cons a ps ih =>
    intro l l' h
    cases l with
    | nil => cases h
    | cons b ls =>
      rw [List.cons_append]
      unfold charsPre at h ⊢
      rcases (Bool.and_eq_true _ _).mp h with ⟨h1, h2⟩
      rw [h1, ih ls l' h2]
      rfl

theorem strToList_append (a b : String) : (a ++ b).toList = a.toList ++ b.toList := by
  simp [String.toList]

theorem strStarts_append_left (x y pat : String) (h : strStarts x pat = true) :
    strStarts (x ++ y) pat = true := by
  unfold strStarts at h ⊢
  rw [strToList_append]
  exact charsPre_append _ _ _ h

/-- The post-past-paper break label starts with `"Break"` whatever the
downtime length. -/
theorem postPPBreak_starts (n : Int) :
    strStarts ("Break: Post Past Paper (" ++ toString n ++ "m)") "Break" = true :=
  strStarts_append_left _ _ _ (strStarts_append_left _ _ _ (by decide))

/-- The clamped break append: it extends the block list and the item list with
the same zero-or-one break entry, which lies inside the day window. -/
theorem maybeBreak_spec (subject paper btyp : String) (ds de bstart bend : Int)
    (acc : List Block × List Item × Int)
    (hb : strStarts btyp "Break" = true) :
    ∃ opt : List Item,
      (maybeBreak subject paper btyp ds de bstart bend acc).1 =
        acc.1 ++ opt.map itemBlock ∧
      (maybeBreak subject paper btyp ds de bstart bend acc).2.1 =
        acc.2.1 ++ opt ∧
      ∀ it ∈ opt, isBreakItem it = true ∧ ds ≤ it.start ∧ it.start < it.stop ∧
        it.stop ≤ de := by
  unfold maybeBreak
  dsimp only
  split
  · split
    · rename_i h1 h2
      refine ⟨[⟨subject, paper, btyp, max bstart ds, min bend de⟩],
        by simp [itemBlock], by simp, ?_⟩
      intro it hit
      rw [List.mem_singleton] at hit
      subst hit
      exact ⟨hb, le_max_right _ _, h2, min_le_right _ _⟩
    · exact ⟨[], by simp, by simp, fun it hit => absurd hit (List.not_mem_nil it)⟩
  · exact ⟨[], by simp, by simp, fun it hit => absurd hit (List.not_mem_nil it)⟩

theorem nbDisj_left {a b : Item} (h : isBreakItem a = true) : nbDisj a b := Or.inl h

theorem nbDisj_right {a b : Item} (h : isBreakItem b = true) : nbDisj a b :=
  Or.inr (Or.inl h)

theorem nbDisj_sep1 {a b : Item} (h : a.stop ≤ b.start) : nbDisj a b :=
  Or.inr (Or.inr (Or.inl h))

/-- Assembling one step of the per-session emission loop from the break
appends of that step and the induction hypothesis for the remaining
sessions. -/
theorem emitCons_assemble (ctx : DayCtx) (ttype : String) (isPP : Bool)
    (ss ee : ℤ) (rest : List Block)
    (st : EmitState) (X : List Block) (Y : List Item) (Z d1 d2 d3 : ℤ)
    (opts : List Item)
    (ih : ∀ (st' : EmitState),
      st'.free = freeSegments st'.occupied ctx.dayStart ctx.dayEnd →
      (∀ b ∈ rest, ctx.dayStart ≤ b.1 ∧ b.1 < b.2 ∧ b.2 ≤ ctx.dayEnd) →
      List.Pairwise sepLe rest →
      ∃ new : List Item,
        (emitSessions ctx ttype isPP rest st').scheduled = st'.scheduled ++ new ∧
        (emitSessions ctx ttype isPP rest st').occupied =
          st'.occupied ++ new.map itemBlock ∧
        (emitSessions ctx ttype isPP rest st').free =
          freeSegments (emitSessions ctx ttype isPP rest st').occupied
            ctx.dayStart ctx.dayEnd ∧
        (∀ it ∈ new, ctx.dayStart ≤ it.start ∧ it.start < it.stop ∧
          it.stop ≤ ctx.dayEnd) ∧
        (∀ it ∈ new, isBreakItem it = false → itemBlock it ∈ rest) ∧
        List.Pairwise nbDisj new)
    (hX : X = (st.occupied ++ [(ss, ee)]) ++ opts.map itemBlock)
    (hY : Y = (st.scheduled ++ [⟨ctx.subject, ctx.paper, ttype, ss, ee⟩]) ++ opts)
    (hW : ∀ it ∈ opts, isBreakItem it = true ∧ ctx.dayStart ≤ it.start ∧
      it.start < it.stop ∧ it.stop ≤ ctx.dayEnd)
    (hwh : ctx.dayStart ≤ ss ∧ ss < ee ∧ ee ≤ ctx.dayEnd)
    (hph : ∀ b ∈ rest, ee ≤ b.1)
    (hwt : ∀ b ∈ rest, ctx.dayStart ≤ b.1 ∧ b.1 < b.2 ∧ b.2 ≤ ctx.dayEnd)
    (hpt : List.Pairwise sepLe rest) :
    ∃ new : List Item,
      (emitSessions ctx ttype isPP rest
        { occupied := X, free := freeSegments X ctx.dayStart ctx.dayEnd
          sessionCount := st.sessionCount + 1, scheduled := Y
          usedMinutes := Z, lastDur := d1, lastSbs := d2,
          lastSbe := d3 }).scheduled = st.scheduled ++ new ∧
      (emitSessions ctx ttype isPP rest
        { occupied := X, free := freeSegments X ctx.dayStart ctx.dayEnd
          sessionCount := st.sessionCount + 1, scheduled := Y
          usedMinutes := Z, lastDur := d1, lastSbs := d2,
          lastSbe := d3 }).occupied = st.occupied ++ new.map itemBlock ∧
      (emitSessions ctx ttype isPP rest
        { occupied := X, free := freeSegments X ctx.dayStart ctx.dayEnd
          sessionCount := st.sessionCount + 1, scheduled := Y
          usedMinutes := Z, lastDur := d1, lastSbs := d2,
          lastSbe := d3 }).free =
        freeSegments (emitSessions ctx ttype isPP rest
          { occupied := X, free := freeSegments X ctx.dayStart ctx.dayEnd
            sessionCount := st.sessionCount + 1, scheduled := Y
            usedMinutes := Z, lastDur := d1, lastSbs := d2,
            lastSbe := d3 }).occupied ctx.dayStart ctx.dayEnd ∧
      (∀ it ∈ new, ctx.dayStart ≤ it.start ∧ it.start < it.stop ∧
        it.stop ≤ ctx.dayEnd) ∧
      (∀ it ∈ new, isBreakItem it = false → itemBlock it ∈ (ss, ee) :: rest) ∧
      List.Pairwise nbDisj new := by
  obtain ⟨new2, hsch2, hocc2, hfree2, hwin2, hblk2, hpw2⟩ := ih
    { occupied := X, free := freeSegments X ctx.dayStart ctx.dayEnd
      sessionCount := st.sessionCount + 1, scheduled := Y
      usedMinutes := Z, lastDur := d1, lastSbs := d2, lastSbe := d3 }
    rfl hwt hpt
  refine ⟨⟨ctx.subject, ctx.paper, ttype, ss, ee⟩ :: (opts ++ new2),
    ?_, ?_, hfree2, ?_, ?_, ?_⟩
  · rw [hsch2]
    show Y ++ new2 = _
    rw [hY]
    simp
  · rw [hocc2]
    show X ++ new2.map itemBlock = _
    rw [hX]
    simp [itemBlock]
  · intro it hit
    rcases List.mem_cons.mp hit with rfl | hit'
    · exact hwh
    · rcases List.mem_append.mp hit' with h | h
      · exact ⟨(hW it h).2.1, (hW it h).2.2.1, (hW it h).2.2.2⟩
      · exact hwin2 it h
  · intro it hit hnb
    rcases List.mem_cons.mp hit with rfl | hit'
    · exact List.mem_cons_self _ _
    · rcases List.mem_append.mp hit' with h | h
      · rw [(hW it h).1] at hnb
        cases hnb
      · exact List.mem_cons_of_mem _ (hblk2 it h hnb)
  · refine List.pairwise_cons.mpr ⟨?_, ?_⟩
    · intro b hb
      rcases List.mem_append.mp hb with h | h
      · exact nbDisj_right (hW b h).1
      · by_cases hbk : isBreakItem b = true
        · exact nbDisj_right hbk
        · have hmem := hblk2 b h (by simpa using hbk)
          exact nbDisj_sep1 (hph (itemBlock b) hmem)
    · refine List.pairwise_append.mpr ⟨?_, hpw2, ?_⟩
      · exact nbDisj_of_breaks (fun it hit => (hW it hit).1)
      · intro a ha b hb
        exact nbDisj_left (hW a ha).1

/-- The per-session emission loop: for each session block it appends the
session item plus that session's break items; occupied blocks and emitted
items stay in step, every new item lies inside the day window, the non-break
new items are exactly session blocks, the free list stays the free segments
of the occupied list, and the new items pairwise do not overlap except for
breaks. -/
theorem emitSessions_spec (ctx : DayCtx) (ttype : String) (isPP : Bool) :
    ∀ (sessions : List Block) (st : EmitState),
    st.free = freeSegments st.occupied ctx.dayStart ctx.dayEnd →
    (∀ b ∈ sessions, ctx.dayStart ≤ b.1 ∧ b.1 < b.2 ∧ b.2 ≤ ctx.dayEnd) →
    List.Pairwise sepLe sessions →
    ∃ new : List Item,
      (emitSessions ctx ttype isPP sessions st).scheduled = st.scheduled ++ new ∧
      (emitSessions ctx ttype isPP sessions st).occupied =
        st.occupied ++ new.map itemBlock ∧
      (emitSessions ctx ttype isPP sessions st).free =
        freeSegments (emitSessions ctx ttype isPP sessions st).occupied
          ctx.dayStart ctx.dayEnd ∧
      (∀ it ∈ new, ctx.dayStart ≤ it.start ∧ it.start < it.stop ∧
        it.stop ≤ ctx.dayEnd) ∧
      (∀ it ∈ new, isBreakItem it = false → itemBlock it ∈ sessions) ∧
      List.Pairwise nbDisj new := by
  intro sessions
  induction sessions with
  | nil =>
    intro st hfree _ _
    exact ⟨[], by simp [emitSessions], by simp [emitSessions],
      by simpa [emitSessions] using hfree, by simp, by simp, List.Pairwise.nil⟩
  | cons head rest ih =>
    obtain ⟨ss, ee⟩ := head
    intro st hfree hwin hpw
    rcases List.pairwise_cons.mp hpw with ⟨hph, hpt⟩
    have hwh := hwin (ss, ee) (List.mem_cons_self _ _)
    have hwt : ∀ b ∈ rest, ctx.dayStart ≤ b.1 ∧ b.1 < b.2 ∧ b.2 ≤ ctx.dayEnd :=
      fun b hb => hwin b (List.mem_cons_of_mem _ hb)
    obtain ⟨o1, hA1, hA2, hA3⟩ := maybeBreak_spec ctx.subject ctx.paper "Break: 15m"
      ctx.dayStart ctx.dayEnd ee (ee + ctx.breakMinutes)
      (st.occupied ++ [(ss, ee)],
        st.scheduled ++ [⟨ctx.subject, ctx.paper, ttype, ss, ee⟩],
        st.usedMinutes + (ee - ss)) (by decide)
    dsimp only at hA1 hA2
    rw [emitSessions]
    dsimp only
    generalize heB : (if strContains ttype "non-written" = true then (45:ℤ) else 90) = eB
    generalize hbS : (if ee + ctx.breakMinutes > ee then ee + ctx.breakMinutes else ee) = bS
    by_cases hPP : isPP = true
    · simp only [if_pos hPP]
      obtain ⟨o2, hB1, hB2, hB3⟩ := maybeBreak_spec ctx.subject ctx.paper
        ("Break: Post Past Paper (" ++ toString eB ++ "m)")
        ctx.dayStart ctx.dayEnd bS (bS + eB)
        (maybeBreak ctx.subject ctx.paper "Break: 15m" ctx.dayStart ctx.dayEnd ee
          (ee + ctx.breakMinutes)
          (st.occupied ++ [(ss, ee)],
            st.scheduled ++ [⟨ctx.subject, ctx.paper, ttype, ss, ee⟩],
            st.usedMinutes + (ee - ss))) (postPPBreak_starts eB)
      by_cases hsc : (st.sessionCount + 1) % 4 = 0
      · simp only [if_pos hsc]
        obtain ⟨o3, hC1, hC2, hC3⟩ := maybeBreak_spec ctx.subject ctx.paper
          "Break: 2h recovery" ctx.dayStart ctx.dayEnd (bS + eB) (bS + eB + 120)
          (maybeBreak ctx.subject ctx.paper
            ("Break: Post Past Paper (" ++ toString eB ++ "m)")
            ctx.dayStart ctx.dayEnd bS (bS + eB)
            (maybeBreak ctx.subject ctx.paper "Break: 15m" ctx.dayStart ctx.dayEnd ee
              (ee + ctx.breakMinutes)
              (st.occupied ++ [(ss, ee)],
                st.scheduled ++ [⟨ctx.subject, ctx.paper, ttype, ss, ee⟩],
                st.usedMinutes + (ee - ss)))) (by decide)
        refine emitCons_assemble ctx ttype isPP ss ee rest st _ _ _ _ _ _
          (o1 ++ (o2 ++ o3)) ih ?_ ?_ ?_ hwh hph hwt hpt
        · rw [hC1, hB1, hA1]
          simp
        · rw [hC2, hB2, hA2]
          simp
        · intro it hit
          rcases List.mem_append.mp hit with h | h
          · exact hA3 it h
          · rcases List.mem_append.mp h with h' | h'
            · exact hB3 it h'
            · exact hC3 it h'
      · simp only [if_neg hsc]
        refine emitCons_assemble ctx ttype isPP ss ee rest st _ _ _ _ _ _
          (o1 ++ o2) ih ?_ ?_ ?_ hwh hph hwt hpt
        · rw [hB1, hA1]
          simp
        · rw [hB2, hA2]
          simp
        · intro it hit
          rcases List.mem_append.mp hit with h | h
          · exact hA3 it h
          · exact hB3 it h
    · simp only [if_neg hPP]
      by_cases hsc : (st.sessionCount + 1) % 4 = 0
      · simp only [if_pos hsc]
        obtain ⟨o3, hC1, hC2, hC3⟩ := maybeBreak_spec ctx.subject ctx.paper
          "Break: 2h recovery" ctx.dayStart ctx.dayEnd bS (bS + 120)
          (maybeBreak ctx.subject ctx.paper "Break: 15m" ctx.dayStart ctx.dayEnd ee
            (ee + ctx.breakMinutes)
            (st.occupied ++ [(ss, ee)],
              st.scheduled ++ [⟨ctx.subject, ctx.paper, ttype, ss, ee⟩],
              st.usedMinutes + (ee - ss))) (by decide)
        refine emitCons_assemble ctx ttype isPP ss ee rest st _ _ _ _ _ _
          (o1 ++ o3) ih ?_ ?_ ?_ hwh hph hwt hpt
        · rw [hC1, hA1]
          simp
        · rw [hC2, hA2]
          simp
        · intro it hit
          rcases List.mem_append.mp hit with h | h
          · exact hA3 it h
          · exact hC3 it h
      · simp only [if_neg hsc]
        refine emitCons_assemble ctx ttype isPP ss ee rest st _ _ _ _ _ _
          o1 ih hA1 hA2 hA3 hwh hph hwt hpt


theorem nbDisj_sep2 {a b : Item} (h : b.stop ≤ a.start) : nbDisj a b :=
  Or.inr (Or.inr (Or.inr h))

/-- Transport the allocator's segment-containment facts along
`free = freeSegments occ lo hi`. -/
theorem sessionsFromFree (ds de : ℤ) (occ free : List Block) (S : List Block)
    (Hpos : allPos occ) (Hfree : free = freeSegments occ ds de)
    (hmem : ∀ b ∈ S, ∃ s ∈ free,
      s.1 ≤ b.1 ∧ b.1 < b.2 ∧ b.2 ≤ s.2) :
    (∀ b ∈ S, ds ≤ b.1 ∧ b.1 < b.2 ∧ b.2 ≤ de) ∧
    (∀ b ∈ S, ∀ ob ∈ occ, disjB b ob) := by
  subst Hfree
  obtain ⟨hseg, _⟩ := freeSegments_spec occ ds de Hpos
  constructor
  · intro b hb
    obtain ⟨s, hs, h1, h2, h3⟩ := hmem b hb
    obtain ⟨g1, g2, g3, _⟩ := hseg s hs
    exact ⟨le_trans g1 h1, h2, le_trans h3 g3⟩
  · intro b hb ob hob
    obtain ⟨s, hs, h1, h2, h3⟩ := hmem b hb
    exact disjB_mono h1 h3 ((hseg s hs).2.2.2 ob hob)

/-- One iteration of the per-day task loop, assembled from the session facts
of the allocator and the induction hypothesis for the remaining tasks. -/
theorem taskLoop_step (ctx : DayCtx) (rest : List Task) (st : TaskLoopState)
    (S : List Block) (ttype : String) (isPP : Bool) (c1 c2 : ℤ)
    (cnd : Prop) [Decidable cnd] (done1 done2 : List Task)
    (ih : ∀ (st' : TaskLoopState),
      st'.free = freeSegments st'.occupied ctx.dayStart ctx.dayEnd →
      allPos st'.occupied →
      ∃ new : List Item,
        (taskLoop ctx rest st').scheduled = st'.scheduled ++ new ∧
        (taskLoop ctx rest st').occupied = st'.occupied ++ new.map itemBlock ∧
        (∀ it ∈ new, ctx.dayStart ≤ it.start ∧ it.start < it.stop ∧
          it.stop ≤ ctx.dayEnd) ∧
        (∀ it ∈ new, isBreakItem it = false →
          ∀ ob ∈ st'.occupied, disjB (itemBlock it) ob) ∧
        List.Pairwise nbDisj new)
    (Hfree : st.free = freeSegments st.occupied ctx.dayStart ctx.dayEnd)
    (Hpos : allPos st.occupied)
    (SFwin : ∀ b ∈ S, ctx.dayStart ≤ b.1 ∧ b.1 < b.2 ∧ b.2 ≤ ctx.dayEnd)
    (SFdisj : ∀ b ∈ S, ∀ ob ∈ st.occupied, disjB b ob)
    (SFpw : List.Pairwise sepLe S) :
    ∃ new : List Item,
      (if cnd then
        taskLoop ctx rest
          { occupied := (emitSessions ctx ttype isPP S
              { occupied := st.occupied, free := st.free
                sessionCount := st.sessionCount, scheduled := st.scheduled
                usedMinutes := 0, lastDur := 0, lastSbs := 0, lastSbe := 0 }).occupied
            free := (emitSessions ctx ttype isPP S
              { occupied := st.occupied, free := st.free
                sessionCount := st.sessionCount, scheduled := st.scheduled
                usedMinutes := 0, lastDur := 0, lastSbs := 0, lastSbe := 0 }).free
            perSubj := c1, dayCap := c2
            sessionCount := (emitSessions ctx ttype isPP S
              { occupied := st.occupied, free := st.free
                sessionCount := st.sessionCount, scheduled := st.scheduled
                usedMinutes := 0, lastDur := 0, lastSbs := 0, lastSbe := 0 }).sessionCount
            scheduled := (emitSessions ctx ttype isPP S
              { occupied := st.occupied, free := st.free
                sessionCount := st.sessionCount, scheduled := st.scheduled
                usedMinutes := 0, lastDur := 0, lastSbs := 0, lastSbe := 0 }).scheduled
            done := done1 }
      else
        taskLoop ctx rest
          { occupied := (emitSessions ctx ttype isPP S
              { occupied := st.occupied, free := st.free
                sessionCount := st.sessionCount, scheduled := st.scheduled
                usedMinutes := 0, lastDur := 0, lastSbs := 0, lastSbe := 0 }).occupied
            free := (emitSessions ctx ttype isPP S
              { occupied := st.occupied, free := st.free
                sessionCount := st.sessionCount, scheduled := st.scheduled
                usedMinutes := 0, lastDur := 0, lastSbs := 0, lastSbe := 0 }).free
            perSubj := c1, dayCap := c2
            sessionCount := (emitSessions ctx ttype isPP S
              { occupied := st.occupied, free := st.free
                sessionCount := st.sessionCount, scheduled := st.scheduled
                usedMinutes := 0, lastDur := 0, lastSbs := 0, lastSbe := 0 }).sessionCount
            scheduled := (emitSessions ctx ttype isPP S
              { occupied := st.occupied, free := st.free
                sessionCount := st.sessionCount, scheduled := st.scheduled
                usedMinutes := 0, lastDur := 0, lastSbs := 0, lastSbe := 0 }).scheduled
            done := done2 }).scheduled = st.scheduled ++ new ∧
      (if cnd then
        taskLoop ctx rest
          { occupied := (emitSessions ctx ttype isPP S
              { occupied := st.occupied, free := st.free
                sessionCount := st.sessionCount, scheduled := st.scheduled
                usedMinutes := 0, lastDur := 0, lastSbs := 0, lastSbe := 0 }).occupied
            free := (emitSessions ctx ttype isPP S
              { occupied := st.occupied, free := st.free
                sessionCount := st.sessionCount, scheduled := st.scheduled
                usedMinutes := 0, lastDur := 0, lastSbs := 0, lastSbe := 0 }).free
            perSubj := c1, dayCap := c2
            sessionCount := (emitSessions ctx ttype isPP S
              { occupied := st.occupied, free := st.free
                sessionCount := st.sessionCount, scheduled := st.scheduled
                usedMinutes := 0, lastDur := 0, lastSbs := 0, lastSbe := 0 }).sessionCount
            scheduled := (emitSessions ctx ttype isPP S
              { occupied := st.occupied, free := st.free
                sessionCount := st.sessionCount, scheduled := st.scheduled
                usedMinutes := 0, lastDur := 0, lastSbs := 0, lastSbe := 0 }).scheduled
            done := done1 }
      else
        taskLoop ctx rest
          { occupied := (emitSessions ctx ttype isPP S
              { occupied := st.occupied, free := st.free
                sessionCount := st.sessionCount, scheduled := st.scheduled
                usedMinutes := 0, lastDur := 0, lastSbs := 0, lastSbe := 0 }).occupied
            free := (emitSessions ctx ttype isPP S
              { occupied := st.occupied, free := st.free
                sessionCount := st.sessionCount, scheduled := st.scheduled
                usedMinutes := 0, lastDur := 0, lastSbs := 0, lastSbe := 0 }).free
            perSubj := c1, dayCap := c2
            sessionCount := (emitSessions ctx ttype isPP S
              { occupied := st.occupied, free := st.free
                sessionCount := st.sessionCount, scheduled := st.scheduled
                usedMinutes := 0, lastDur := 0, lastSbs := 0, lastSbe := 0 }).sessionCount
            scheduled := (emitSessions ctx ttype isPP S
              { occupied := st.occupied, free := st.free
                sessionCount := st.sessionCount, scheduled := st.scheduled
                usedMinutes := 0, lastDur := 0, lastSbs := 0, lastSbe := 0 }).scheduled
            done := done2 }).occupied = st.occupied ++ new.map itemBlock ∧
      (∀ it ∈ new, ctx.dayStart ≤ it.start ∧ it.start < it.stop ∧
        it.stop ≤ ctx.dayEnd) ∧
      (∀ it ∈ new, isBreakItem it = false →
        ∀ ob ∈ st.occupied, disjB (itemBlock it) ob) ∧
      List.Pairwise nbDisj new := by
  obtain ⟨new1, hsch1, hocc1, hfree1, hwin1, hblk1, hpw1⟩ :=
    emitSessions_spec ctx ttype isPP S
      { occupied := st.occupied, free := st.free
        sessionCount := st.sessionCount, scheduled := st.scheduled
        usedMinutes := 0, lastDur := 0, lastSbs := 0, lastSbe := 0 }
      Hfree SFwin SFpw
  have key : ∀ dn : List Task,
      ∃ new : List Item,
        (taskLoop ctx rest
          { occupied := (emitSessions ctx ttype isPP S
              { occupied := st.occupied, free := st.free
                sessionCount := st.sessionCount, scheduled := st.scheduled
                usedMinutes := 0, lastDur := 0, lastSbs := 0, lastSbe := 0 }).occupied
            free := (emitSessions ctx ttype isPP S
              { occupied := st.occupied, free := st.free
                sessionCount := st.sessionCount, scheduled := st.scheduled
                usedMinutes := 0, lastDur := 0, lastSbs := 0, lastSbe := 0 }).free
            perSubj := c1, dayCap := c2
            sessionCount := (emitSessions ctx ttype isPP S
              { occupied := st.occupied, free := st.free
                sessionCount := st.sessionCount, scheduled := st.scheduled
                usedMinutes := 0, lastDur := 0, lastSbs := 0, lastSbe := 0 }).sessionCount
            scheduled := (emitSessions ctx ttype isPP S
              { occupied := st.occupied, free := st.free
                sessionCount := st.sessionCount, scheduled := st.scheduled
                usedMinutes := 0, lastDur := 0, lastSbs := 0, lastSbe := 0 }).scheduled
            done := dn }).scheduled = st.scheduled ++ new ∧
        (taskLoop ctx rest
          { occupied := (emitSessions ctx ttype isPP S
              { occupied := st.occupied, free := st.free
                sessionCount := st.sessionCount, scheduled := st.scheduled
                usedMinutes := 0, lastDur := 0, lastSbs := 0, lastSbe := 0 }).occupied
            free := (emitSessions ctx ttype isPP S
              { occupied := st.occupied, free := st.free
                sessionCount := st.sessionCount, scheduled := st.scheduled
                usedMinutes := 0, lastDur := 0, lastSbs := 0, lastSbe := 0 }).free
            perSubj := c1, dayCap := c2
            sessionCount := (emitSessions ctx ttype isPP S
              { occupied := st.occupied, free := st.free
                sessionCount := st.sessionCount, scheduled := st.scheduled
                usedMinutes := 0, lastDur := 0, lastSbs := 0, lastSbe := 0 }).sessionCount
            scheduled := (emitSessions ctx ttype isPP S
              { occupied := st.occupied, free := st.free
                sessionCount := st.sessionCount, scheduled := st.scheduled
                usedMinutes := 0, lastDur := 0, lastSbs := 0, lastSbe := 0 }).scheduled
            done := dn }).occupied = st.occupied ++ new.map itemBlock ∧
        (∀ it ∈ new, ctx.dayStart ≤ it.start ∧ it.start < it.stop ∧
          it.stop ≤ ctx.dayEnd) ∧
        (∀ it ∈ new, isBreakItem it = false →
          ∀ ob ∈ st.occupied, disjB (itemBlock it) ob) ∧
        List.Pairwise nbDisj new := by
    intro dn
    obtain ⟨new2, hsch2, hocc2, hwin2, hdis2, hpw2⟩ := ih
      { occupied := (emitSessions ctx ttype isPP S
          { occupied := st.occupied, free := st.free
            sessionCount := st.sessionCount, scheduled := st.scheduled
            usedMinutes := 0, lastDur := 0, lastSbs := 0, lastSbe := 0 }).occupied
        free := (emitSessions ctx ttype isPP S
          { occupied := st.occupied, free := st.free
            sessionCount := st.sessionCount, scheduled := st.scheduled
            usedMinutes := 0, lastDur := 0, lastSbs := 0, lastSbe := 0 }).free
        perSubj := c1, dayCap := c2
        sessionCount := (emitSessions ctx ttype isPP S
          { occupied := st.occupied, free := st.free
            sessionCount := st.sessionCount, scheduled := st.scheduled
            usedMinutes := 0, lastDur := 0, lastSbs := 0, lastSbe := 0 }).sessionCount
        scheduled := (emitSessions ctx ttype isPP S
          { occupied := st.occupied, free := st.free
            sessionCount := st.sessionCount, scheduled := st.scheduled
            usedMinutes := 0, lastDur := 0, lastSbs := 0, lastSbe := 0 }).scheduled
        done := dn }
      hfree1
      (by
        intro b hb
        rw [hocc1] at hb
        rcases List.mem_append.mp hb with h | h
        · exact Hpos b h
        · obtain ⟨it, hit, rfl⟩ := List.mem_map.mp h
          have := (hwin1 it hit).2.1
          exact this)
    refine ⟨new1 ++ new2, ?_, ?_, ?_, ?_, ?_⟩
    · rw [hsch2]
      show (emitSessions ctx ttype isPP S
        { occupied := st.occupied, free := st.free
          sessionCount := st.sessionCount, scheduled := st.scheduled
          usedMinutes := 0, lastDur := 0, lastSbs := 0, lastSbe := 0 }).scheduled
          ++ new2 = _
      rw [hsch1]
      show st.scheduled ++ new1 ++ new2 = _
      rw [List.append_assoc]
    · rw [hocc2]
      show (emitSessions ctx ttype isPP S
        { occupied := st.occupied, free := st.free
          sessionCount := st.sessionCount, scheduled := st.scheduled
          usedMinutes := 0, lastDur := 0, lastSbs := 0, lastSbe := 0 }).occupied
          ++ new2.map itemBlock = _
      rw [hocc1]
      show st.occupied ++ new1.map itemBlock ++ new2.map itemBlock = _
      rw [List.append_assoc, List.map_append]
    · intro it hit
      rcases List.mem_append.mp hit with h | h
      · exact hwin1 it h
      · exact hwin2 it h
    · intro it hit hnb
      rcases List.mem_append.mp hit with h | h
      · intro ob hob
        exact SFdisj (itemBlock it) (hblk1 it h hnb) ob hob
      · intro ob hob
        refine hdis2 it h hnb ob ?_
        show ob ∈ (emitSessions ctx ttype isPP S
          { occupied := st.occupied, free := st.free
            sessionCount := st.sessionCount, scheduled := st.scheduled
            usedMinutes := 0, lastDur := 0, lastSbs := 0, lastSbe := 0 }).occupied
        rw [hocc1]
        exact List.mem_append_left _ hob
    · refine List.pairwise_append.mpr ⟨hpw1, hpw2, ?_⟩
      intro a ha b hb
      by_cases hba : isBreakItem a = true
      · exact nbDisj_left hba
      · by_cases hbb : isBreakItem b = true
        · exact nbDisj_right hbb
        · have hblkA : itemBlock a ∈ (emitSessions ctx ttype isPP S
              { occupied := st.occupied, free := st.free
                sessionCount := st.sessionCount, scheduled := st.scheduled
                usedMinutes := 0, lastDur := 0, lastSbs := 0, lastSbe := 0 }).occupied := by
            rw [hocc1]
            exact List.mem_append_right _
              (List.mem_map_of_mem itemBlock ha)
          have hd := hdis2 b hb (by simpa using hbb) (itemBlock a) hblkA
          rcases hd with h | h
          · exact nbDisj_sep2 h
          · exact nbDisj_sep1 h
  split
  · exact key done1
  · exact key done2


/-- The per-day task loop: it only appends scheduled items; the appended items
lie inside the day window, their blocks are appended to the occupied list,
the non-break ones are disjoint from every initially occupied block, and the
appended items pairwise do not overlap except for breaks. -/
theorem taskLoop_spec (ctx : DayCtx) (hbm : 0 ≤ ctx.breakMinutes) :
    ∀ (tasks : List Task) (st : TaskLoopState),
    st.free = freeSegments st.occupied ctx.dayStart ctx.dayEnd →
    allPos st.occupied →
    ∃ new : List Item,
      (taskLoop ctx tasks st).scheduled = st.scheduled ++ new ∧
      (taskLoop ctx tasks st).occupied = st.occupied ++ new.map itemBlock ∧
      (∀ it ∈ new, ctx.dayStart ≤ it.start ∧ it.start < it.stop ∧
        it.stop ≤ ctx.dayEnd) ∧
      (∀ it ∈ new, isBreakItem it = false →
        ∀ ob ∈ st.occupied, disjB (itemBlock it) ob) ∧
      List.Pairwise nbDisj new := by
  intro tasks
  induction tasks with
  | nil =>
    intro st _ _
    exact ⟨[], by simp [taskLoop], by simp [taskLoop], by simp, by simp,
      List.Pairwise.nil⟩
  | cons task rest ih =>
    intro st Hfree Hpos
    obtain ⟨hseg, hsegpw⟩ := freeSegments_spec st.occupied ctx.dayStart ctx.dayEnd Hpos
    have hfpw : List.Pairwise sepLt st.free := by rw [Hfree]; exact hsegpw
    have hfpos : ∀ s ∈ st.free, s.1 < s.2 := by
      rw [Hfree]
      intro s hs
      have h := (hseg s hs).2.1
      omega
    rw [taskLoop]
    by_cases hfr : st.free = []
    · rw [if_pos hfr]
      exact ⟨[], by simp, by simp, by simp, by simp, List.Pairwise.nil⟩
    · rw [if_neg hfr]
      dsimp only
      by_cases hcap : ¬task.mandatory = true ∧
          ((if task.mandatory = true then (10:ℤ) ^ 9 else st.perSubj) ≤ 0 ∨
           (if task.mandatory = true then (10:ℤ) ^ 9 else st.dayCap) ≤ 0)
      · rw [if_pos hcap]
        exact ⟨[], by simp, by simp, by simp, by simp, List.Pairwise.nil⟩
      · rw [if_neg hcap]
        by_cases hPP : strContains task.type "Past Paper" = true
        · simp only [if_pos hPP]
          by_cases hc2 : task.mandatory = true ∨
              ((if task.mandatory = true then (10:ℤ) ^ 9 else st.perSubj) ≥
                pyRound (task.hours * 60) ∧
               (if task.mandatory = true then (10:ℤ) ^ 9 else st.dayCap) ≥
                pyRound (task.hours * 60))
          · simp only [if_pos hc2]
            obtain ⟨hfit, hspw⟩ := allocSingleBlock_spec
              (pyRound (task.hours * 60)) st.free ctx.frontload
            obtain ⟨SFwin, SFdisj⟩ := sessionsFromFree ctx.dayStart ctx.dayEnd
              st.occupied st.free _ Hpos Hfree hfit
            exact taskLoop_step ctx rest st _ task.type _ _ _ _ _ _ ih Hfree Hpos
              SFwin SFdisj hspw
          · simp only [if_neg hc2]
            exact taskLoop_step ctx rest st [] task.type _ _ _ _ _ _ ih Hfree Hpos
              (by simp) (by simp) List.Pairwise.nil
        · simp only [if_neg hPP]
          obtain ⟨hfit, hspw⟩ := allocateSessions_spec task.hours st.free
            (if task.mandatory = true then (10:ℤ) ^ 9 else st.perSubj)
            (if task.mandatory = true then (10:ℤ) ^ 9 else st.dayCap)
            ctx.breakMinutes ctx.frontload hbm hfpw hfpos
          obtain ⟨SFwin, SFdisj⟩ := sessionsFromFree ctx.dayStart ctx.dayEnd
            st.occupied st.free _ Hpos Hfree hfit
          exact taskLoop_step ctx rest st _ task.type _ _ _ _ _ _ ih Hfree Hpos
            SFwin SFdisj hspw

/-- With no free segment the task loop only moves tasks to `done`. -/
theorem taskLoop_free_nil (ctx : DayCtx) (tasks : List Task) (st : TaskLoopState)
    (h : st.free = []) :
    (taskLoop ctx tasks st).scheduled = st.scheduled ∧
    (taskLoop ctx tasks st).occupied = st.occupied := by
  cases tasks with
  | nil => exact ⟨rfl, rfl⟩
  | cons t rest =>
    rw [taskLoop, if_pos h]
    exact ⟨rfl, rfl⟩

/-- Supper insertion only appends. -/
theorem withSupper_sub (occupied0 : List Block) (ds de ss se : ℤ) :
    ∀ b ∈ occupied0, b ∈ withSupper occupied0 ds de ss se := by
  intro b hb
  unfold withSupper
  split
  · dsimp only
    split
    · split
      · exact hb
      · exact List.mem_append_left _ hb
    · exact hb
  · exact hb

/-- Supper insertion preserves non-degeneracy of the occupancy list. -/
theorem withSupper_pos (occupied0 : List Block) (ds de ss se : ℤ)
    (h : allPos occupied0) : allPos (withSupper occupied0 ds de ss se) := by
  unfold withSupper
  split
  · dsimp only
    split
    · rename_i hgt
      split
      · exact h
      · intro b hb
        rcases List.mem_append.mp hb with h' | h'
        · exact h b h'
        · rw [List.mem_singleton.mp h']
          exact hgt
    · exact h
  · exact h

theorem mem_blocksFor {blocks : List Block} {d : ℤ} {b : Block} :
    b ∈ blocksFor blocks d ↔ b ∈ blocks ∧ dateOf b.1 = d := by
  unfold blocksFor
  rw [List.mem_filter]
  simp

/-- Wellformedness of a configuration record: the daily window carries real
wall-clock minutes (as `datetime.replace` enforces in the source) and the
break length is non-negative. -/
def cfgValid (cfg : Config) : Bool :=
  decide (0 ≤ cfg.dailyStart.2) && decide (0 ≤ cfg.dailyEnd.2) &&
  decide (cfg.dailyEnd.2 ≤ 59) && decide (23 ≤ cfg.dailyEnd.1 → cfg.dailyEnd.2 = 0) &&
  decide (0 ≤ cfg.breakMinutes)

/-- Wellformedness of the metadata the configuration is read from: configured
minutes are real wall-clock minutes and the break length is non-negative. -/
def metaValid (meta : Metadata) : Bool :=
  (match meta.dailyStartTime with
   | none => true
   | some p => decide (0 ≤ p.2)) &&
  (match meta.dailyEndTime with
   | none => true
   | some p => decide (0 ≤ p.2) && decide (p.2 ≤ 59)) &&
  (match meta.breakMinutes with
   | none => true
   | some b => decide (0 ≤ b))

theorem cfgValid_break {cfg : Config} (h : cfgValid cfg = true) :
    0 ≤ cfg.breakMinutes := by
  unfold cfgValid at h
  simp only [Bool.and_eq_true, decide_eq_true_eq] at h
  exact h.2

/-- `_get_config` of valid metadata yields a valid configuration. -/
theorem getConfig_valid (meta : Metadata) (h : metaValid meta = true) :
    cfgValid (getConfig meta) = true := by
  unfold metaValid at h
  simp only [Bool.and_eq_true] at h
  obtain ⟨⟨h1, h2⟩, h3⟩ := h
  unfold cfgValid getConfig
  dsimp only
  simp only [Bool.and_eq_true, decide_eq_true_eq]
  refine ⟨⟨⟨⟨?_, ?_⟩, ?_⟩, ?_⟩, ?_⟩
  · cases hs : meta.dailyStartTime with
    | none => simp [hs]
    | some p =>
      rw [hs] at h1
      simp only [decide_eq_true_eq] at h1
      simp only [Option.getD_some]
      split
      · exact h1
      · exact le_refl 0
  · cases he : meta.dailyEndTime with
    | none =>
      simp only [he, Option.getD_none]
      split <;> norm_num
    | some p =>
      rw [he] at h2
      simp only [Bool.and_eq_true, decide_eq_true_eq] at h2
      simp only [Option.getD_some]
      split
      · exact h2.1
      · exact le_refl 0
  · cases he : meta.dailyEndTime with
    | none =>
      simp only [he, Option.getD_none]
      split <;> norm_num
    | some p =>
      rw [he] at h2
      simp only [Bool.and_eq_true, decide_eq_true_eq] at h2
      simp only [Option.getD_some]
      split
      · exact h2.2
      · norm_num
  · intro hc
    rw [if_neg (show ¬(min (meta.dailyEndTime.getD (21, 30)).1 hardEndHour <
      hardEndHour) from not_lt.mpr hc)]
  · cases hb : meta.breakMinutes with
    | none => simp [hb]
    | some b =>
      rw [hb] at h3
      simp only [decide_eq_true_eq] at h3
      simpa using h3

/-- The hard clamp of `_day_bounds`: the window of day `d` always lies inside
09:00-23:00 of day `d` for a valid configuration. -/
theorem dayBounds_valid (d : ℤ) (cfg : Config) (h : cfgValid cfg = true) :
    atTime d 9 0 ≤ (dayBounds d cfg).1 ∧ (dayBounds d cfg).2 ≤ atTime d 23 0 := by
  unfold cfgValid at h
  simp only [Bool.and_eq_true, decide_eq_true_eq] at h
  obtain ⟨⟨⟨⟨h1, h2⟩, h3⟩, h4⟩, _⟩ := h
  unfold dayBounds atTime hardStartHour hardEndHour
  dsimp only
  constructor
  · have hmax : (9:ℤ) ≤ max cfg.dailyStart.1 9 := le_max_right _ _
    nlinarith [hmax, h1]
  · rcases le_or_lt 23 cfg.dailyEnd.1 with hge | hlt
    · have he : min cfg.dailyEnd.1 23 = 23 := min_eq_right hge
      rw [he, h4 hge]
    · have he : min cfg.dailyEnd.1 23 = cfg.dailyEnd.1 := min_eq_left (le_of_lt hlt)
      rw [he]
      nlinarith [h3, hlt]

/-- The task loop of one forward-placement day, packaged over its inputs. -/
theorem placeDayAux (subject paper : String) (ds de P DC SCC : ℤ) (bl : Bool)
    (bm : ℤ) (occ : List Block) (tasks : List Task)
    (hbm : 0 ≤ bm) (hposOcc : allPos occ) :
    ∃ new : List Item,
      (taskLoop ⟨subject, paper, ds, de, bm, bl⟩ tasks
        { occupied := occ, free := freeSegments occ ds de, perSubj := P
          dayCap := DC, sessionCount := SCC, scheduled := [], done := [] }).scheduled
        = new ∧
      (∀ it ∈ new, ds ≤ it.start ∧ it.start < it.stop ∧ it.stop ≤ de) ∧
      (∀ it ∈ new, isBreakItem it = false → ∀ ob ∈ occ, disjB (itemBlock it) ob) ∧
      List.Pairwise nbDisj new := by
  obtain ⟨new, hsch, hocc, hwin, hdisj, hpw⟩ :=
    taskLoop_spec ⟨subject, paper, ds, de, bm, bl⟩ hbm tasks
      { occupied := occ, free := freeSegments occ ds de, perSubj := P
        dayCap := DC, sessionCount := SCC, scheduled := [], done := [] }
      rfl hposOcc
  exact ⟨new, by simpa using hsch, hwin, hdisj, hpw⟩


/-- One forward-placement day: its emitted items lie inside the clamped day
window, non-break items avoid every block filed under that date, items
pairwise do not overlap except for breaks, and a morning exam day emits
nothing. -/
theorem placeDay_spec (subject : String) (exam : ExamRec) (cfg : Config)
    (lastDay d : ℤ) (blocks : List Block) (tasks : List Task)
    (sc : List (ℤ × ℤ)) (hbm : 0 ≤ cfg.breakMinutes) (hpos : allPos blocks) :
    (∀ it ∈ (placeDay subject exam cfg lastDay d blocks tasks sc).1,
      (dayBounds d cfg).1 ≤ it.start ∧ it.start < it.stop ∧
      it.stop ≤ (dayBounds d cfg).2) ∧
    (∀ it ∈ (placeDay subject exam cfg lastDay d blocks tasks sc).1,
      isBreakItem it = false → ∀ ob ∈ blocks, dateOf ob.1 = d →
        disjB (itemBlock it) ob) ∧
    List.Pairwise nbDisj (placeDay subject exam cfg lastDay d blocks tasks sc).1 ∧
    (d = lastDay → hourOf exam.start < 12 →
      (placeDay subject exam cfg lastDay d blocks tasks sc).1 = []) := by
  have hpos0 : allPos (blocksFor blocks d) :=
    fun b hb => hpos b (mem_blocksFor.mp hb).1
  unfold placeDay
  dsimp only
  by_cases hd : d = lastDay
  · simp only [if_pos hd]
    by_cases hh : hourOf exam.start < 12
    · simp only [if_pos hh]
      have hnil := (taskLoop_free_nil
        ⟨subject, exam.paper, (dayBounds d cfg).1, (dayBounds d cfg).1,
          cfg.breakMinutes, cfg.adhdFrontload⟩ tasks
        { occupied := withSupper (blocksFor blocks d) (dayBounds d cfg).1
            (dayBounds d cfg).1 (atTime d 18 30) (atTime d 18 30 + 90)
          free := freeSegments (withSupper (blocksFor blocks d) (dayBounds d cfg).1
            (dayBounds d cfg).1 (atTime d 18 30) (atTime d 18 30 + 90))
            (dayBounds d cfg).1 (dayBounds d cfg).1
          perSubj := pyTrunc (cfg.perSubjectDailyCapHours * 60)
          dayCap := dayCapMinutesFn cfg d (withSupper (blocksFor blocks d)
            (dayBounds d cfg).1 (dayBounds d cfg).1 (atTime d 18 30)
            (atTime d 18 30 + 90))
          sessionCount := scGet sc d, scheduled := [], done := [] }
        (freeSegments_nil _ _ _ (le_refl _))).1
      refine ⟨?_, ?_, ?_, ?_⟩
      · intro it hit
        rw [hnil] at hit
        cases hit
      · intro it hit
        rw [hnil] at hit
        cases hit
      · rw [hnil]
        exact List.Pairwise.nil
      · intro _ _
        exact hnil
    · simp only [if_neg hh]
      obtain ⟨new, hsch, hwin, hdisj, hpw⟩ := placeDayAux subject exam.paper
        (dayBounds d cfg).1 (min (dayBounds d cfg).2 exam.start)
        (pyTrunc (cfg.perSubjectDailyCapHours * 60))
        (dayCapMinutesFn cfg d (withSupper (blocksFor blocks d) (dayBounds d cfg).1
          (min (dayBounds d cfg).2 exam.start) (atTime d 18 30) (atTime d 18 30 + 90)))
        (scGet sc d) cfg.adhdFrontload cfg.breakMinutes
        (withSupper (blocksFor blocks d) (dayBounds d cfg).1
          (min (dayBounds d cfg).2 exam.start) (atTime d 18 30) (atTime d 18 30 + 90))
        tasks hbm (withSupper_pos _ _ _ _ _ hpos0)
      rw [hsch]
      refine ⟨?_, ?_, hpw, ?_⟩
      · intro it hit
        obtain ⟨g1, g2, g3⟩ := hwin it hit
        exact ⟨g1, g2, le_trans g3 (min_le_left _ _)⟩
      · intro it hit hnb ob hob hobd
        exact hdisj it hit hnb ob
          (withSupper_sub _ _ _ _ _ ob (mem_blocksFor.mpr ⟨hob, hobd⟩))
      · intro _ hcon
        exact absurd hcon hh
  · simp only [if_neg hd]
    obtain ⟨new, hsch, hwin, hdisj, hpw⟩ := placeDayAux subject exam.paper
      (dayBounds d cfg).1 (dayBounds d cfg).2
      (pyTrunc (cfg.perSubjectDailyCapHours * 60))
      (dayCapMinutesFn cfg d (withSupper (blocksFor blocks d) (dayBounds d cfg).1
        (dayBounds d cfg).2 (atTime d 18 30) (atTime d 18 30 + 90)))
      (scGet sc d) cfg.adhdFrontload cfg.breakMinutes
      (withSupper (blocksFor blocks d) (dayBounds d cfg).1
        (dayBounds d cfg).2 (atTime d 18 30) (atTime d 18 30 + 90))
      tasks hbm (withSupper_pos _ _ _ _ _ hpos0)
    rw [hsch]
    refine ⟨hwin, ?_, hpw, ?_⟩
    · intro it hit hnb ob hob hobd
      exact hdisj it hit hnb ob
        (withSupper_sub _ _ _ _ _ ob (mem_blocksFor.mpr ⟨hob, hobd⟩))
    · intro hcon _
      exact absurd hcon hd

theorem disjB_symm {a b : Block} (h : disjB a b) : disjB b a := by
  unfold disjB at h ⊢
  tauto

/-- The round-robin reservation loop of `_reserve_priority_on`: it appends
mirrored item/block pairs that lie inside the day window, avoid every block
occupied at entry and are mutually disjoint. -/
theorem reserveLoop_spec (ctx : ResCtx) (hbm : 0 ≤ ctx.breakMinutes) :
    ∀ (fuel : Nat) (i : Nat) (st : ResState),
    st.free = freeSegments st.occupied ctx.dayStart ctx.dayEnd →
    allPos st.occupied →
    ∃ new : List Item,
      (reserveLoop ctx fuel i st).scheduled = st.scheduled ++ new ∧
      (reserveLoop ctx fuel i st).blocks = st.blocks ++ new.map itemBlock ∧
      (reserveLoop ctx fuel i st).occupied = st.occupied ++ new.map itemBlock ∧
      (∀ it ∈ new, ctx.dayStart ≤ it.start ∧ it.start < it.stop ∧
        it.stop ≤ ctx.dayEnd) ∧
      (∀ it ∈ new, ∀ ob ∈ st.occupied, disjB (itemBlock it) ob) ∧
      List.Pairwise (fun a b => disjB (itemBlock a) (itemBlock b)) new := by
  intro fuel
  induction fuel with
  | zero =>
    intro i st _ _
    exact ⟨[], by simp [reserveLoop], by simp [reserveLoop], by simp [reserveLoop],
      by simp, by simp, List.Pairwise.nil⟩
  | succ fuel ih =>
    intro i st h1 h2
    have hADV : ∀ (j : Nat) (st' : ResState),
        st'.free = freeSegments st'.occupied ctx.dayStart ctx.dayEnd →
        allPos st'.occupied →
        ∃ new : List Item,
          (resAdvance (reserveLoop ctx fuel) j st').scheduled = st'.scheduled ++ new ∧
          (resAdvance (reserveLoop ctx fuel) j st').blocks =
            st'.blocks ++ new.map itemBlock ∧
          (resAdvance (reserveLoop ctx fuel) j st').occupied =
            st'.occupied ++ new.map itemBlock ∧
          (∀ it ∈ new, ctx.dayStart ≤ it.start ∧ it.start < it.stop ∧
            it.stop ≤ ctx.dayEnd) ∧
          (∀ it ∈ new, ∀ ob ∈ st'.occupied, disjB (itemBlock it) ob) ∧
          List.Pairwise (fun a b => disjB (itemBlock a) (itemBlock b)) new := by
      intro j st' g1 g2
      unfold resAdvance
      dsimp only
      split
      · split
        · exact ⟨[], by simp, by simp, by simp, by simp, by simp, List.Pairwise.nil⟩
        · exact ih 0 { st' with sessionsMade := 0 } g1 g2
      · exact ih (j + 1) st' g1 g2
    rw [reserveLoop]
    by_cases hguard : st.free ≠ [] ∧ st.remaining > 0 ∧ st.pool ≠ [] ∧
        i < st.pool.length
    · rw [if_pos hguard]
      dsimp only
      split
      · exact hADV i st h1 h2
      · rename_i ss ee tl heq
        obtain ⟨hseg, hsegpw⟩ := freeSegments_spec st.occupied ctx.dayStart
          ctx.dayEnd h2
        have hfpw : List.Pairwise sepLt st.free := by rw [h1]; exact hsegpw
        have hfpos : ∀ s ∈ st.free, s.1 < s.2 := by
          rw [h1]
          intro s hs
          have hl := (hseg s hs).2.1
          omega
        obtain ⟨hfit, _⟩ := allocateSessions_spec
          (min (st.tasks.getD (st.pool.getD i 0) noTask).hours (75 / 60 : ℚ))
          st.free ((10:ℤ) ^ 9) ((10:ℤ) ^ 9) ctx.breakMinutes true hbm hfpw hfpos
        have hmem : (ss, ee) ∈ (allocateSessions
            (min (st.tasks.getD (st.pool.getD i 0) noTask).hours (75 / 60 : ℚ))
            st.free ((10:ℤ) ^ 9) ((10:ℤ) ^ 9) ctx.breakMinutes true).1 := by
          rw [heq]
          exact List.mem_cons_self _ _
        obtain ⟨SFwin, SFdisj⟩ := sessionsFromFree ctx.dayStart ctx.dayEnd
          st.occupied st.free _ h2 h1 hfit
        have hw0 := SFwin (ss, ee) hmem
        have hd0 := SFdisj (ss, ee) hmem
        have hSTEP : ∀ (F : ResState → ResState),
            (∀ st' : ResState,
              st'.free = freeSegments st'.occupied ctx.dayStart ctx.dayEnd →
              allPos st'.occupied →
              ∃ new : List Item,
                (F st').scheduled = st'.scheduled ++ new ∧
                (F st').blocks = st'.blocks ++ new.map itemBlock ∧
                (F st').occupied = st'.occupied ++ new.map itemBlock ∧
                (∀ it ∈ new, ctx.dayStart ≤ it.start ∧ it.start < it.stop ∧
                  it.stop ≤ ctx.dayEnd) ∧
                (∀ it ∈ new, ∀ ob ∈ st'.occupied, disjB (itemBlock it) ob) ∧
                List.Pairwise (fun a b => disjB (itemBlock a) (itemBlock b)) new) →
            ∀ (pool' : List Nat) (tasks' : List Task) (rem' sm' : ℤ),
            ∃ new : List Item,
              (F
                { scheduled := st.scheduled ++
                    [⟨ctx.subject, ctx.paper,
                      (st.tasks.getD (st.pool.getD i 0) noTask).type, ss, ee⟩]
                  blocks := st.blocks ++ [(ss, ee)]
                  tasks := tasks'
                  pool := pool'
                  occupied := st.occupied ++ [(ss, ee)]
                  free := freeSegments (st.occupied ++ [(ss, ee)])
                    ctx.dayStart ctx.dayEnd
                  remaining := rem', sessionsMade := sm' }).scheduled =
                st.scheduled ++ new ∧
              (F
                { scheduled := st.scheduled ++
                    [⟨ctx.subject, ctx.paper,
                      (st.tasks.getD (st.pool.getD i 0) noTask).type, ss, ee⟩]
                  blocks := st.blocks ++ [(ss, ee)]
                  tasks := tasks'
                  pool := pool'
                  occupied := st.occupied ++ [(ss, ee)]
                  free := freeSegments (st.occupied ++ [(ss, ee)])
                    ctx.dayStart ctx.dayEnd
                  remaining := rem', sessionsMade := sm' }).blocks =
                st.blocks ++ new.map itemBlock ∧
              (F
                { scheduled := st.scheduled ++
                    [⟨ctx.subject, ctx.paper,
                      (st.tasks.getD (st.pool.getD i 0) noTask).type, ss, ee⟩]
                  blocks := st.blocks ++ [(ss, ee)]
                  tasks := tasks'
                  pool := pool'
                  occupied := st.occupied ++ [(ss, ee)]
                  free := freeSegments (st.occupied ++ [(ss, ee)])
                    ctx.dayStart ctx.dayEnd
                  remaining := rem', sessionsMade := sm' }).occupied =
                st.occupied ++ new.map itemBlock ∧
              (∀ it ∈ new, ctx.dayStart ≤ it.start ∧ it.start < it.stop ∧
                it.stop ≤ ctx.dayEnd) ∧
              (∀ it ∈ new, ∀ ob ∈ st.occupied, disjB (itemBlock it) ob) ∧
              List.Pairwise (fun a b => disjB (itemBlock a) (itemBlock b)) new := by
          intro F HF pool' tasks' rem' sm'
          have hpos' : allPos (st.occupied ++ [(ss, ee)]) := by
            intro b hb
            rcases List.mem_append.mp hb with h | h
            · exact h2 b h
            · rw [List.mem_singleton.mp h]
              exact hw0.2.1
          obtain ⟨new2, g1, g2, g3, g4, g5, g6⟩ := HF
            { scheduled := st.scheduled ++
                [⟨ctx.subject, ctx.paper,
                  (st.tasks.getD (st.pool.getD i 0) noTask).type, ss, ee⟩]
              blocks := st.blocks ++ [(ss, ee)]
              tasks := tasks'
              pool := pool'
              occupied := st.occupied ++ [(ss, ee)]
              free := freeSegments (st.occupied ++ [(ss, ee)])
                ctx.dayStart ctx.dayEnd
              remaining := rem', sessionsMade := sm' }
            rfl hpos'
          refine ⟨⟨ctx.subject, ctx.paper,
            (st.tasks.getD (st.pool.getD i 0) noTask).type, ss, ee⟩ :: new2,
            ?_, ?_, ?_, ?_, ?_, ?_⟩
          · rw [g1]
            simp
          · rw [g2]
            simp [itemBlock]
          · rw [g3]
            simp [itemBlock]
          · intro it hit
            rcases List.mem_cons.mp hit with rfl | hit'
            · exact hw0
            · exact g4 it hit'
          · intro it hit ob hob
            rcases List.mem_cons.mp hit with rfl | hit'
            · exact hd0 ob hob
            · exact g5 it hit' ob (List.mem_append_left _ hob)
          · refine List.pairwise_cons.mpr ⟨?_, g6⟩
            intro b hb
            have hq := g5 b hb (ss, ee)
              (List.mem_append_right _ (List.mem_singleton.mpr rfl))
            exact disjB_symm hq
        split
        · exact hSTEP (reserveLoop ctx fuel 0) (fun st' => ih 0 st') _ _ _ _
        · exact hSTEP (resAdvance (reserveLoop ctx fuel) i)
            (fun st' => hADV i st') _ _ _ _
    · rw [if_neg hguard]
      exact ⟨[], by simp, by simp, by simp, by simp, by simp, List.Pairwise.nil⟩

/-- `_reserve_priority_on`: the reserved items lie inside the 09:00-23:00
window of the target date, avoid every block already filed under that date,
are mutually disjoint, and are mirrored one-to-one into `blocks_by_date`. -/
theorem reservePriorityOn_spec (subject paper : String) (examStart : ℤ)
    (cfg : Config) (lastDay dayDate : ℤ) (rd : ResData) (remainingSessions : ℤ)
    (hv : cfgValid cfg = true) (hpos : allPos rd.blocks) :
    ∃ new : List Item,
      (reservePriorityOn subject paper examStart cfg lastDay dayDate rd
        remainingSessions).1.scheduled = rd.scheduled ++ new ∧
      (reservePriorityOn subject paper examStart cfg lastDay dayDate rd
        remainingSessions).1.blocks = rd.blocks ++ new.map itemBlock ∧
      (∀ it ∈ new, itemInDay dayDate it) ∧
      (∀ it ∈ new, ∀ ob ∈ rd.blocks, dateOf ob.1 = dayDate →
        disjB (itemBlock it) ob) ∧
      List.Pairwise (fun a b => disjB (itemBlock a) (itemBlock b)) new := by
  obtain ⟨hb1, hb2⟩ := dayBounds_valid dayDate cfg hv
  have hbm := cfgValid_break hv
  have hde : (if dayDate = lastDay then min (dayBounds dayDate cfg).2 examStart
      else (dayBounds dayDate cfg).2) ≤ (dayBounds dayDate cfg).2 := by
    split
    · exact min_le_left _ _
    · exact le_refl _
  unfold reservePriorityOn
  split
  · exact ⟨[], by simp, by simp, by simp, by simp, List.Pairwise.nil⟩
  · dsimp only
    split
    · exact ⟨[], by simp, by simp, by simp, by simp, List.Pairwise.nil⟩
    · obtain ⟨new, g1, g2, g3, g4, g5, g6⟩ := reserveLoop_spec
        ⟨subject, paper, cfg.breakMinutes, (dayBounds dayDate cfg).1,
          if dayDate = lastDay then min (dayBounds dayDate cfg).2 examStart
          else (dayBounds dayDate cfg).2⟩ hbm
        ((remainingSessions.toNat + rd.pool.length + 2) * (rd.pool.length + 3)) 0
        ⟨rd.scheduled, rd.blocks, rd.tasks, rd.pool,
          blocksFor rd.blocks dayDate,
          freeSegments (blocksFor rd.blocks dayDate) (dayBounds dayDate cfg).1
            (if dayDate = lastDay then min (dayBounds dayDate cfg).2 examStart
             else (dayBounds dayDate cfg).2),
          remainingSessions, 0⟩
        rfl (fun b hb => hpos b (mem_blocksFor.mp hb).1)
      refine ⟨new, by simpa using g1, by simpa using g2, ?_, ?_, g6⟩
      · intro it hit
        obtain ⟨w1, w2, w3⟩ := g4 it hit
        exact ⟨le_trans hb1 w1, w2, le_trans w3 (le_trans hde hb2)⟩
      · intro it hit ob hob hobd
        exact g5 it hit ob (mem_blocksFor.mpr ⟨hob, hobd⟩)

/-- The whole day-before reservation of `schedule_study_for_exam`: every
reserved item lies inside the hard window of `E.date - 1` or `E.date - 2`,
avoids every input block filed under its own date, the items are mutually
disjoint, and the returned `blocks_by_date` is the input plus exactly the
reserved items' intervals. -/
theorem reservationPhase_spec (subject : String) (exam : ExamRec)
    (tasks : List Task) (plannerStartDay today : ℤ) (blocks : List Block)
    (cfg : Config) (hv : cfgValid cfg = true) (hpos : allPos blocks) :
    ∃ new : List Item,
      (reservationPhase subject exam tasks plannerStartDay today blocks
        cfg).1.scheduled = new ∧
      (reservationPhase subject exam tasks plannerStartDay today blocks
        cfg).1.blocks = blocks ++ new.map itemBlock ∧
      (∀ it ∈ new, itemInDay (dateOf exam.start - 1) it ∨
        itemInDay (dateOf exam.start - 2) it) ∧
      (∀ it ∈ new, ∀ ob ∈ blocks, dateOf ob.1 = dateOf it.start →
        disjB (itemBlock it) ob) ∧
      List.Pairwise (fun a b => disjB (itemBlock a) (itemBlock b)) new := by
  unfold reservationPhase
  dsimp only
  generalize (if strLower (exam.effortLevel.getD "") = "high" then
    cfg.dayBeforeSessionsHighEffort else cfg.dayBeforeSessionsDefault) = REQ
  by_cases hc1 : dateOf exam.start - 1 ≥ today ∧
      dateOf exam.start - 1 ≥ plannerStartDay
  · simp only [if_pos hc1]
    obtain ⟨new1, g1, g2, g3, g4, g5⟩ := reservePriorityOn_spec subject exam.paper
      exam.start cfg (dateOf exam.start) (dateOf exam.start - 1)
      ⟨[], blocks, tasks, poolIndices tasks⟩ REQ hv hpos
    have hd1 : ∀ it ∈ new1, dateOf it.start = dateOf exam.start - 1 :=
      fun it hit => itemInDay_date (g3 it hit)
    have hpos1 : allPos (reservePriorityOn subject exam.paper exam.start cfg
        (dateOf exam.start) (dateOf exam.start - 1)
        ⟨[], blocks, tasks, poolIndices tasks⟩ REQ).1.blocks := by
      rw [g2]
      intro b hb
      rcases List.mem_append.mp hb with h | h
      · exact hpos b h
      · obtain ⟨it, hit, rfl⟩ := List.mem_map.mp h
        exact (g3 it hit).2.1
    dsimp only at g1
    split
    · by_cases hc2 : dateOf exam.start - 2 ≥ today ∧
          dateOf exam.start - 2 ≥ plannerStartDay
      · simp only [if_pos hc2]
        obtain ⟨new2, f1, f2, f3, f4, f5⟩ := reservePriorityOn_spec subject
          exam.paper exam.start cfg (dateOf exam.start) (dateOf exam.start - 2)
          (reservePriorityOn subject exam.paper exam.start cfg
            (dateOf exam.start) (dateOf exam.start - 1)
            ⟨[], blocks, tasks, poolIndices tasks⟩ REQ).1
          (REQ - (reservePriorityOn subject exam.paper exam.start cfg
            (dateOf exam.start) (dateOf exam.start - 1)
            ⟨[], blocks, tasks, poolIndices tasks⟩ REQ).2)
          hv hpos1
        have hd2 : ∀ it ∈ new2, dateOf it.start = dateOf exam.start - 2 :=
          fun it hit => itemInDay_date (f3 it hit)
        refine ⟨new1 ++ new2, ?_, ?_, ?_, ?_, ?_⟩
        · rw [f1, g1]
          simp
        · rw [f2, g2]
          simp
        · intro it hit
          rcases List.mem_append.mp hit with h | h
          · exact Or.inl (g3 it h)
          · exact Or.inr (f3 it h)
        · intro it hit ob hob hobd
          rcases List.mem_append.mp hit with h | h
          · exact g4 it h ob hob (by rw [hobd, hd1 it h])
          · refine f4 it h ob ?_ (by rw [hobd, hd2 it h])
            rw [g2]
            exact List.mem_append_left _ hob
        · refine List.pairwise_append.mpr ⟨g5, f5, ?_⟩
          intro a ha b hb
          exact itemInDay_sep (g3 a ha) (f3 b hb) (by omega)
      · simp only [if_neg hc2]
        refine ⟨new1, g1, g2, fun it hit => Or.inl (g3 it hit), ?_, g5⟩
        intro it hit ob hob hobd
        exact g4 it hit ob hob (by rw [hobd, hd1 it hit])
    · refine ⟨new1, g1, g2, fun it hit => Or.inl (g3 it hit), ?_, g5⟩
      intro it hit ob hob hobd
      exact g4 it hit ob hob (by rw [hobd, hd1 it hit])
  · simp only [if_neg hc1]
    split
    · by_cases hc2 : dateOf exam.start - 2 ≥ today ∧
          dateOf exam.start - 2 ≥ plannerStartDay
      · simp only [if_pos hc2]
        obtain ⟨new2, f1, f2, f3, f4, f5⟩ := reservePriorityOn_spec subject
          exam.paper exam.start cfg (dateOf exam.start) (dateOf exam.start - 2)
          ⟨[], blocks, tasks, poolIndices tasks⟩ REQ hv hpos
        have hd2 : ∀ it ∈ new2, dateOf it.start = dateOf exam.start - 2 :=
          fun it hit => itemInDay_date (f3 it hit)
        refine ⟨new2, by simpa using f1, f2, fun it hit => Or.inr (f3 it hit),
          ?_, f5⟩
        intro it hit ob hob hobd
        exact f4 it hit ob hob (by rw [hobd, hd2 it hit])
      · simp only [if_neg hc2]
        exact ⟨[], by simp, by simp, by simp, by simp, List.Pairwise.nil⟩
    · exact ⟨[], by simp, by simp, by simp, by simp, List.Pairwise.nil⟩

/-- The forward day loop of `schedule_study_for_exam`: it appends items that
each lie inside the hard window of one day between the cursor and the exam
day (never the exam day itself when the exam starts before noon), the
non-break ones avoid every block filed under their own date, and the whole
accumulated plan stays pairwise non-overlapping up to breaks. -/
theorem dayLoop_spec (subject : String) (exam : ExamRec) (cfg : Config)
    (lastDay : ℤ) (hv : cfgValid cfg = true) :
    ∀ (fuel : Nat) (d : ℤ) (blocks : List Block) (tasks : List Task)
      (sc : List (ℤ × ℤ)) (acc : List Item),
    allPos blocks →
    (∀ it ∈ acc, ∃ dd, itemInDay dd it) →
    List.Pairwise nbDisj acc →
    (∀ it ∈ acc, itemBlock it ∈ blocks ∨ dateOf it.start < d) →
    ∃ out : List Item,
      (dayLoop subject exam cfg lastDay fuel d blocks tasks sc acc).1 =
        acc ++ out ∧
      (∀ it ∈ out, ∃ dd, itemInDay dd it ∧ d ≤ dd ∧ dd ≤ lastDay ∧
        (hourOf exam.start < 12 → dd ≠ lastDay)) ∧
      (∀ it ∈ out, isBreakItem it = false → ∀ ob ∈ blocks,
        dateOf ob.1 = dateOf it.start → disjB (itemBlock it) ob) ∧
      List.Pairwise nbDisj (acc ++ out) := by
  have hbm := cfgValid_break hv
  intro fuel
  induction fuel with
  | zero =>
    intro d blocks tasks sc acc _ _ hpw _
    exact ⟨[], by simp [dayLoop], by simp, by simp, by simpa using hpw⟩
  | succ fuel ih =>
    intro d blocks tasks sc acc hpos hday hpw hcov
    rw [dayLoop]
    by_cases hguard : d ≤ lastDay ∧ tasks ≠ []
    · rw [if_pos hguard]
      dsimp only
      obtain ⟨pd1, pd2, pd3, pd4⟩ := placeDay_spec subject exam cfg lastDay d
        blocks tasks sc hbm hpos
      obtain ⟨hdb1, hdb2⟩ := dayBounds_valid d cfg hv
      have hnew_day : ∀ it ∈ (placeDay subject exam cfg lastDay d blocks
          tasks sc).1, itemInDay d it := by
        intro it hit
        obtain ⟨w1, w2, w3⟩ := pd1 it hit
        exact ⟨le_trans hdb1 w1, w2, le_trans w3 hdb2⟩
      have hnew_date : ∀ it ∈ (placeDay subject exam cfg lastDay d blocks
          tasks sc).1, dateOf it.start = d :=
        fun it hit => itemInDay_date (hnew_day it hit)
      have hpw' : List.Pairwise nbDisj
          (acc ++ (placeDay subject exam cfg lastDay d blocks tasks sc).1) := by
        refine List.pairwise_append.mpr ⟨hpw, pd3, ?_⟩
        intro a ha b hb
        by_cases hba : isBreakItem a = true
        · exact nbDisj_left hba
        · by_cases hbb : isBreakItem b = true
          · exact nbDisj_right hbb
          · by_cases hdate : dateOf a.start = d
            · have hblkA : itemBlock a ∈ blocks := by
                rcases hcov a ha with h | h
                · exact h
                · omega
              have hd := pd2 b hb (by simpa using hbb) (itemBlock a) hblkA
                (by rw [show (itemBlock a).1 = a.start from rfl, hdate])
              rcases hd with h | h
              · exact nbDisj_sep2 h
              · exact nbDisj_sep1 h
            · obtain ⟨dda, hina⟩ := hday a ha
              have hda : dda = dateOf a.start := (itemInDay_date hina).symm
              have hsep := itemInDay_sep hina (hnew_day b hb)
                (by rw [hda]; exact hdate)
              rcases hsep with h | h
              · exact Or.inr (Or.inr (Or.inl h))
              · exact Or.inr (Or.inr (Or.inr h))
      obtain ⟨out2, q1, q2, q3, q4⟩ := ih (d + 1) blocks
        (placeDay subject exam cfg lastDay d blocks tasks sc).2.1
        (placeDay subject exam cfg lastDay d blocks tasks sc).2.2
        (acc ++ (placeDay subject exam cfg lastDay d blocks tasks sc).1)
        hpos
        (by
          intro it hit
          rcases List.mem_append.mp hit with h | h
          · exact hday it h
          · exact ⟨d, hnew_day it h⟩)
        hpw'
        (by
          intro it hit
          rcases List.mem_append.mp hit with h | h
          · rcases hcov it h with h' | h'
            · exact Or.inl h'
            · exact Or.inr (by omega)
          · exact Or.inr (by rw [hnew_date it h]; omega))
      refine ⟨(placeDay subject exam cfg lastDay d blocks tasks sc).1 ++ out2,
        ?_, ?_, ?_, ?_⟩
      · rw [q1, List.append_assoc]
      · intro it hit
        rcases List.mem_append.mp hit with h | h
        · refine ⟨d, hnew_day it h, le_refl _, hguard.1, ?_⟩
          intro hm hdeq
          rw [pd4 hdeq hm] at h
          cases h
        · obtain ⟨dd, w1, w2, w3, w4⟩ := q2 it h
          exact ⟨dd, w1, by omega, w3, w4⟩
      · intro it hit hnb ob hob hobd
        rcases List.mem_append.mp hit with h | h
        · exact pd2 it h hnb ob hob (by rw [hobd, hnew_date it h])
        · exact q3 it h hnb ob hob hobd
      · rw [← List.append_assoc]
        exact q4
    · rw [if_neg hguard]
      exact ⟨[], by simp, by simp, by simp, by simpa using hpw⟩

/-- `schedule_study_for_exam`: every emitted item lies inside the hard
09:00-23:00 window of one day, which is never the exam day when the exam
starts before noon; the non-break items avoid every input block filed under
their own date; the items pairwise do not overlap except for breaks; and the
returned block map is the input plus non-degenerate intervals. -/
theorem scheduleStudyForExam_spec (subject : String) (exam : ExamRec)
    (tasks : List Task) (plannerStartDay : ℤ) (blocks : List Block)
    (cfg : Config) (sc : List (ℤ × ℤ)) (today : ℤ)
    (hv : cfgValid cfg = true) (hpos : allPos blocks) :
    (∀ it ∈ (scheduleStudyForExam subject exam tasks plannerStartDay blocks
        cfg sc today).1, ∃ dd, itemInDay dd it ∧
        (hourOf exam.start < 12 → dd ≠ dateOf exam.start)) ∧
    List.Pairwise nbDisj (scheduleStudyForExam subject exam tasks
      plannerStartDay blocks cfg sc today).1 ∧
    (∀ it ∈ (scheduleStudyForExam subject exam tasks plannerStartDay blocks
        cfg sc today).1, isBreakItem it = false → ∀ ob ∈ blocks,
      dateOf ob.1 = dateOf it.start → disjB (itemBlock it) ob) ∧
    (∃ extra : List Block, (scheduleStudyForExam subject exam tasks
      plannerStartDay blocks cfg sc today).2.1 = blocks ++ extra ∧
      allPos extra) := by
  obtain ⟨newr, r1, r2, r3, r4, r5⟩ := reservationPhase_spec subject exam tasks
    plannerStartDay today blocks cfg hv hpos
  have hrday : ∀ it ∈ newr, ∃ dd, itemInDay dd it ∧ dd ≠ dateOf exam.start := by
    intro it hit
    rcases r3 it hit with h | h
    · exact ⟨dateOf exam.start - 1, h, by omega⟩
    · exact ⟨dateOf exam.start - 2, h, by omega⟩
  have hrpos : allPos (reservationPhase subject exam tasks plannerStartDay
      today blocks cfg).1.blocks := by
    rw [r2]
    intro b hb
    rcases List.mem_append.mp hb with h | h
    · exact hpos b h
    · obtain ⟨it, hit, rfl⟩ := List.mem_map.mp h
      rcases hrday it hit with ⟨dd, hin, _⟩
      exact hin.2.1
  have hrpw : List.Pairwise nbDisj newr := by
    refine r5.imp ?_
    intro a b h
    rcases h with h | h
    · exact Or.inr (Or.inr (Or.inl h))
    · exact Or.inr (Or.inr (Or.inr h))
  obtain ⟨out, q1, q2, q3, q4⟩ := dayLoop_spec subject exam cfg
    (dateOf exam.start) hv
    ((dateOf exam.start - max plannerStartDay today + 1).toNat)
    (max plannerStartDay today)
    (reservationPhase subject exam tasks plannerStartDay today blocks
      cfg).1.blocks
    (reservationPhase subject exam tasks plannerStartDay today blocks
      cfg).1.tasks
    sc
    (reservationPhase subject exam tasks plannerStartDay today blocks
      cfg).1.scheduled
    hrpos
    (by
      rw [r1]
      intro it hit
      rcases hrday it hit with ⟨dd, hin, _⟩
      exact ⟨dd, hin⟩)
    (by rw [r1]; exact hrpw)
    (by
      rw [r1, r2]
      intro it hit
      exact Or.inl (List.mem_append_right _ (List.mem_map_of_mem itemBlock hit)))
  unfold scheduleStudyForExam
  dsimp only
  rw [q1, r1]
  refine ⟨?_, ?_, ?_, ?_⟩
  · intro it hit
    rcases List.mem_append.mp hit with h | h
    · rcases hrday it h with ⟨dd, hin, hne⟩
      exact ⟨dd, hin, fun _ => hne⟩
    · obtain ⟨dd, w1, w2, w3, w4⟩ := q2 it h
      exact ⟨dd, w1, w4⟩
  · rw [← r1]
    exact q4
  · intro it hit hnb ob hob hobd
    rcases List.mem_append.mp hit with h | h
    · exact r4 it h ob hob hobd
    · refine q3 it h hnb ob ?_ hobd
      rw [r2]
      exact List.mem_append_left _ hob
  · refine ⟨newr.map itemBlock, r2, ?_⟩
    intro b hb
    obtain ⟨it, hit, rfl⟩ := List.mem_map.mp hb
    rcases hrday it hit with ⟨dd, hin, _⟩
    exact hin.2.1

/-- Wellformedness of the configured tuition classes: each is a real
interval. -/
def tuitionValid (meta : Metadata) : Bool :=
  meta.tuitionClasses.all (fun t => decide (t.1 < t.2))

/-- Wellformedness of the runtime exam dicts: every exam is a real
interval. -/
def legacyPos (legacy : LegacyData) : Bool :=
  (legacy.trialExams ++ legacy.finalExams).all
    (fun g => g.2.all (fun ex => decide (ex.start < ex.stop)))

theorem enrichOne_startStop (srcExams : List SrcExam) (ex : ExamRec) :
    (enrichOne srcExams ex).start = ex.start ∧
    (enrichOne srcExams ex).stop = ex.stop := by
  unfold enrichOne
  split
  · exact ⟨rfl, rfl⟩
  · exact ⟨rfl, rfl⟩

/-- Enrichment keeps every exam interval, hence preserves wellformedness. -/
theorem legacyPos_extend (tt : Timetable) (legacy : LegacyData)
    (h : legacyPos legacy = true) :
    legacyPos (extendExamsWithLevels tt legacy) = true := by
  unfold legacyPos at h ⊢
  rw [List.all_eq_true] at h ⊢
  intro g hg
  rw [List.all_eq_true]
  intro ex hex
  unfold extendExamsWithLevels enrichGroup at hg
  dsimp only at hg
  rcases List.mem_append.mp hg with hg' | hg'
  · obtain ⟨g0, hg0, rfl⟩ := List.mem_map.mp hg'
    dsimp only at hex
    obtain ⟨ex0, hex0, rfl⟩ := List.mem_map.mp hex
    have hp := h g0 (List.mem_append_left _ hg0)
    rw [List.all_eq_true] at hp
    have := hp ex0 hex0
    rw [(enrichOne_startStop _ ex0).1, (enrichOne_startStop _ ex0).2]
    exact this
  · obtain ⟨g0, hg0, rfl⟩ := List.mem_map.mp hg'
    dsimp only at hex
    obtain ⟨ex0, hex0, rfl⟩ := List.mem_map.mp hex
    have hp := h g0 (List.mem_append_right _ hg0)
    rw [List.all_eq_true] at hp
    have := hp ex0 hex0
    rw [(enrichOne_startStop _ ex0).1, (enrichOne_startStop _ ex0).2]
    exact this

/-- All blocks emitted by `list_blocks_by_date` are real intervals when the
exams and tuition classes are. -/
theorem listBlocksByDate_pos (trial finals : List (String × List ExamRec))
    (tuition : List Block) (ps pe : ℤ)
    (hT : ∀ g ∈ trial ++ finals, ∀ ex ∈ g.2, ex.start < ex.stop)
    (htu : ∀ t ∈ tuition, t.1 < t.2) :
    allPos (listBlocksByDate trial finals tuition ps pe) := by
  have hgroup : ∀ (gr : List (String × List ExamRec)),
      (∀ g ∈ gr, ∀ ex ∈ g.2, ex.start < ex.stop) →
      allPos (groupOccBlocks gr) := by
    intro gr hgr b hb
    unfold groupOccBlocks at hb
    obtain ⟨g, hg, hb1⟩ := List.mem_flatMap.mp hb
    obtain ⟨ex, hex, hb2⟩ := List.mem_flatMap.mp hb1
    unfold examOccBlocks at hb2
    rcases List.mem_cons.mp hb2 with rfl | hb3
    · exact hgr g hg ex hex
    · rw [List.mem_singleton.mp hb3]
      show ex.stop < ex.stop + 120
      omega
  intro b hb
  unfold listBlocksByDate at hb
  rcases List.mem_append.mp hb with hb' | hsup
  · rcases List.mem_append.mp hb' with hb'' | htub
    · rcases List.mem_append.mp hb'' with ht | hf
      · exact hgroup trial (fun g hg => hT g (List.mem_append_left _ hg)) b ht
      · exact hgroup finals (fun g hg => hT g (List.mem_append_right _ hg)) b hf
    · obtain ⟨t, htm, hb2⟩ := List.mem_flatMap.mp htub
      unfold tuitionOccBlocks at hb2
      have hpt := htu t htm
      rcases List.mem_cons.mp hb2 with rfl | hb3
      · exact hpt
      · rcases List.mem_cons.mp hb3 with rfl | hb4
        · show t.1 - 30 < t.1
          omega
        · rw [List.mem_singleton.mp hb4]
          show t.2 < t.2 + 90
          omega
  · unfold supperOccBlocks at hsup
    obtain ⟨i, _, rfl⟩ := List.mem_map.mp hsup
    unfold supperBlock atTime
    show _ < _ + 90
    omega

/-- One step of the exam fold preserves the plan/occupancy invariant. -/
theorem planStep_inv (cfg : Config) (ps today : ℤ) (hv : cfgValid cfg = true)
    (acc : List Item × List Block × List (ℤ × ℤ)) (se : String × ExamRec)
    (h1 : ∀ it ∈ acc.1, ∃ dd, itemInDay dd it)
    (h2 : List.Pairwise nbDisj acc.1)
    (h3 : ∀ it ∈ acc.1, isBreakItem it = false → itemBlock it ∈ acc.2.1)
    (h4 : allPos acc.2.1) :
    (∀ it ∈ (planStep cfg ps today acc se).1, ∃ dd, itemInDay dd it) ∧
    List.Pairwise nbDisj (planStep cfg ps today acc se).1 ∧
    (∀ it ∈ (planStep cfg ps today acc se).1, isBreakItem it = false →
      itemBlock it ∈ (planStep cfg ps today acc se).2.1) ∧
    allPos (planStep cfg ps today acc se).2.1 := by
  unfold planStep
  dsimp only
  split
  · exact ⟨h1, h2, h3, h4⟩
  · 
    obtain ⟨s1, s2, s3, s4⟩ := scheduleStudyForExam_spec se.1 se.2
      (buildTasksForExam se.1 se.2) ps acc.2.1 cfg acc.2.2 today hv h4
    obtain ⟨extra, hex, hexpos⟩ := s4
    refine ⟨?_, ?_, ?_, ?_⟩
    · intro it hit
      rcases List.mem_append.mp hit with h | h
      · exact h1 it h
      · obtain ⟨dd, hin, _⟩ := s1 it h
        exact ⟨dd, hin⟩
    · refine List.pairwise_append.mpr ⟨h2, s2, ?_⟩
      intro a ha b hb
      by_cases hba : isBreakItem a = true
      · exact nbDisj_left hba
      · by_cases hbb : isBreakItem b = true
        · exact nbDisj_right hbb
        · by_cases hdate : dateOf a.start = dateOf b.start
          · have hd := s3 b hb (by simpa using hbb) (itemBlock a)
              (h3 a ha (by simpa using hba))
              (by rw [show (itemBlock a).1 = a.start from rfl]; exact hdate)
            rcases hd with h | h
            · exact nbDisj_sep2 h
            · exact nbDisj_sep1 h
          · obtain ⟨dda, hina⟩ := h1 a ha
            obtain ⟨ddb, hinb, _⟩ := s1 b hb
            have hsep := itemInDay_sep hina hinb (by
              rw [← itemInDay_date hina, ← itemInDay_date hinb]
              exact hdate)
            rcases hsep with h | h
            · exact Or.inr (Or.inr (Or.inl h))
            · exact Or.inr (Or.inr (Or.inr h))
    · intro it hit hnb
      rcases List.mem_append.mp hit with h | h
      · refine List.mem_append_left _ ?_
        rw [hex]
        exact List.mem_append_left _ (h3 it h hnb)
      · refine List.mem_append_right _ ?_
        exact List.mem_map.mpr ⟨it, h, rfl⟩
    · intro b hb
      rcases List.mem_append.mp hb with h | h
      · rw [hex] at h
        rcases List.mem_append.mp h with h' | h'
        · exact h4 b h'
        · exact hexpos b h'
      · obtain ⟨it, hit, rfl⟩ := List.mem_map.mp h
        obtain ⟨dd, hin, _⟩ := s1 it hit
        exact hin.2.1

/-- The exam fold preserves the plan/occupancy invariant. -/
theorem foldPlan_inv (cfg : Config) (ps today : ℤ) (hv : cfgValid cfg = true) :
    ∀ (exs : List (String × ExamRec))
      (acc : List Item × List Block × List (ℤ × ℤ)),
    (∀ it ∈ acc.1, ∃ dd, itemInDay dd it) →
    List.Pairwise nbDisj acc.1 →
    (∀ it ∈ acc.1, isBreakItem it = false → itemBlock it ∈ acc.2.1) →
    allPos acc.2.1 →
    (∀ it ∈ (exs.foldl (planStep cfg ps today) acc).1, ∃ dd, itemInDay dd it) ∧
    List.Pairwise nbDisj (exs.foldl (planStep cfg ps today) acc).1 := by
  intro exs
  induction exs with
  | nil => intro acc g1 g2 _ _; exact ⟨g1, g2⟩
  | cons se rest ih =>
    intro acc g1 g2 g3 g4
    rw [List.foldl_cons]
    obtain ⟨p1, p2, p3, p4⟩ := planStep_inv cfg ps today hv acc se g1 g2 g3 g4
    exact ih (planStep cfg ps today acc se) p1 p2 p3 p4

/-- The supper pass preserves the window and disjointness invariants of the
plan: the appended supper items are break items inside their day windows. -/
theorem addSupper_inv :
    ∀ (ds : List ℤ) (plan : List Item),
    (∀ it ∈ plan, ∃ dd, itemInDay dd it) →
    List.Pairwise nbDisj plan →
    (∀ it ∈ ds.foldl addSupperDay plan, ∃ dd, itemInDay dd it) ∧
    List.Pairwise nbDisj (ds.foldl addSupperDay plan) := by
  intro ds
  induction ds with
  | nil => intro plan g1 g2; exact ⟨g1, g2⟩
  | cons d rest ih =>
    intro plan g1 g2
    rw [List.foldl_cons]
    refine ih (addSupperDay plan d) ?_ ?_
    · intro it hit
      unfold addSupperDay at hit
      split at hit
      · rcases List.mem_append.mp hit with h | h
        · exact g1 it h
        · rw [List.mem_singleton.mp h]
          refine ⟨d, ?_, ?_, ?_⟩
          · show atTime d 9 0 ≤ atTime d 18 30
            unfold atTime
            omega
          · show atTime d 18 30 < atTime d 18 30 + 90
            omega
          · show atTime d 18 30 + 90 ≤ atTime d 23 0
            unfold atTime
            omega
      · exact g1 it hit
    · unfold addSupperDay
      split
      · refine List.pairwise_append.mpr ⟨g2, ?_, ?_⟩
        · simp
        · intro a _ b hb
          rw [List.mem_singleton.mp hb]
          exact nbDisj_right (show strStarts "Break: Supper" "Break" = true by decide)
      · exact g2

/-- The full engine invariant: every plan item lies inside the hard window
of one day, and the plan is pairwise non-overlapping up to breaks. -/
theorem buildStudyPlanRun_inv (tt : Timetable) (legacy : LegacyData)
    (today : ℤ) (hv : metaValid tt.metadata = true)
    (htu : tuitionValid tt.metadata = true) (hp : legacyPos legacy = true) :
    (∀ it ∈ (buildStudyPlanRun tt legacy today).1, ∃ dd, itemInDay dd it) ∧
    List.Pairwise nbDisj (buildStudyPlanRun tt legacy today).1 := by
  have hcv := getConfig_valid tt.metadata hv
  have hp' := legacyPos_extend tt legacy hp
  have hpos0 : allPos (listBlocksByDate
      (extendExamsWithLevels tt legacy).trialExams
      (extendExamsWithLevels tt legacy).finalExams
      (getConfig tt.metadata).tuitionBlocks
      tt.metadata.plannerStartDate tt.metadata.plannerEndDate) := by
    refine listBlocksByDate_pos _ _ _ _ _ ?_ ?_
    · unfold legacyPos at hp'
      rw [List.all_eq_true] at hp'
      intro g hg ex hex
      have hq := hp' g hg
      rw [List.all_eq_true] at hq
      have := hq ex hex
      exact of_decide_eq_true this
    · unfold tuitionValid at htu
      rw [List.all_eq_true] at htu
      intro t ht
      exact of_decide_eq_true (htu t ht)
  unfold buildStudyPlanRun
  dsimp only
  obtain ⟨f1, f2⟩ := foldPlan_inv (getConfig tt.metadata)
    tt.metadata.plannerStartDate today hcv
    (sortedBy (fun (a b : String × ExamRec) => a.2.start ≤ b.2.start)
      ((extendExamsWithLevels tt legacy).trialExams.flatMap
        (fun p => p.2.map (fun e => (p.1, e))) ++
        (extendExamsWithLevels tt legacy).finalExams.flatMap
          (fun p => p.2.map (fun e => (p.1, e)))))
    ([], listBlocksByDate (extendExamsWithLevels tt legacy).trialExams
      (extendExamsWithLevels tt legacy).finalExams
      (getConfig tt.metadata).tuitionBlocks
      tt.metadata.plannerStartDate tt.metadata.plannerEndDate, [])
    (by simp) (by simp) (by simp) hpos0
  obtain ⟨a1, a2⟩ := addSupper_inv
    ((List.range (tt.metadata.plannerEndDate + 1 -
      tt.metadata.plannerStartDate).toNat).map
      (fun i => tt.metadata.plannerStartDate + i)) _ f1 f2
  constructor
  · intro it hit
    have hmem := (sortedBy_perm (fun (a b : Item) => a.start ≤ b.start) _).mem_iff.mp hit
    exact a1 it hmem
  · exact ((sortedBy_perm (fun (a b : Item) => a.start ≤ b.start) _).pairwise_iff
      (fun h => nbDisj_symm h)).mpr a2

/-- C3 (amended): in every plan the engine produces from wellformed input
(real wall-clock minutes and break length in the metadata, real exam and
tuition intervals), no two non-break items overlap in time; break items
(the 15-minute, post-past-paper, recovery and supper breaks) are exempt,
and indeed can overlap other entries. -/
theorem c3_nonbreak_items_never_overlap (tt : Timetable) (legacy : LegacyData)
    (today : ℤ) (hv : metaValid tt.metadata = true)
    (htu : tuitionValid tt.metadata = true) (hp : legacyPos legacy = true) :
    List.Pairwise
      (fun a b : Item => isBreakItem a = true ∨ isBreakItem b = true ∨
        a.stop ≤ b.start ∨ b.stop ≤ a.start)
      (buildStudyPlanRun tt legacy today).1 :=
  (buildStudyPlanRun_inv tt legacy today hv htu hp).2

theorem c3_nonbreak_items_never_overlap_witness :
    metaValid tuitionDayTT.metadata = true ∧
    tuitionValid tuitionDayTT.metadata = true ∧
    legacyPos tuitionDayLegacy = true ∧
    List.Pairwise
      (fun a b : Item => isBreakItem a = true ∨ isBreakItem b = true ∨
        a.stop ≤ b.start ∨ b.stop ≤ a.start)
      (buildStudyPlanRun tuitionDayTT tuitionDayLegacy 0).1 :=
  ⟨by decide, by decide, by decide,
    c3_nonbreak_items_never_overlap tuitionDayTT tuitionDayLegacy 0
      (by decide) (by decide) (by decide)⟩

/-- C4: every item the engine emits from wellformed input starts at or after
09:00 and ends at or before 23:00 of the same day, with `end > start`. -/
theorem c4_hard_bounds (tt : Timetable) (legacy : LegacyData) (today : ℤ)
    (hv : metaValid tt.metadata = true) (htu : tuitionValid tt.metadata = true)
    (hp : legacyPos legacy = true) :
    ∀ it ∈ (buildStudyPlanRun tt legacy today).1,
      atTime (dateOf it.start) 9 0 ≤ it.start ∧ it.start < it.stop ∧
      it.stop ≤ atTime (dateOf it.start) 23 0 := by
  intro it hit
  obtain ⟨dd, hin⟩ := (buildStudyPlanRun_inv tt legacy today hv htu hp).1 it hit
  rw [itemInDay_date hin]
  exact hin

theorem c4_hard_bounds_witness :
    metaValid tuitionDayTT.metadata = true ∧
    tuitionValid tuitionDayTT.metadata = true ∧
    legacyPos tuitionDayLegacy = true ∧
    (∀ it ∈ (buildStudyPlanRun tuitionDayTT tuitionDayLegacy 0).1,
      atTime (dateOf it.start) 9 0 ≤ it.start ∧ it.start < it.stop ∧
      it.stop ≤ atTime (dateOf it.start) 23 0) :=
  ⟨by decide, by decide, by decide,
    c4_hard_bounds tuitionDayTT tuitionDayLegacy 0
      (by decide) (by decide) (by decide)⟩

/-- C6: for an exam starting before noon, `schedule_study_for_exam` places no
item on the exam's own date: the forward day loop collapses the exam day's
window and the day-before reservation only ever targets `E.date - 1` and
`E.date - 2`. -/
theorem c6_morning_exam_day_untouched (subject : String) (exam : ExamRec)
    (tasks : List Task) (plannerStartDay : ℤ) (blocks : List Block)
    (cfg : Config) (sc : List (ℤ × ℤ)) (today : ℤ)
    (hv : cfgValid cfg = true) (hpos : allPos blocks)
    (hmorning : hourOf exam.start < 12) :
    ∀ it ∈ (scheduleStudyForExam subject exam tasks plannerStartDay blocks cfg
      sc today).1, dateOf it.start ≠ dateOf exam.start := by
  intro it hit
  obtain ⟨dd, hin, hne⟩ := (scheduleStudyForExam_spec subject exam tasks
    plannerStartDay blocks cfg sc today hv hpos).1 it hit
  rw [itemInDay_date hin]
  exact hne hmorning

/-- A 09:00 exam on day 3, used to witness the morning-exam skip. -/
def morningExam : ExamRec :=
  { paper := "P1", start := atTime 3 9 0, stop := atTime 3 11 0
    effortLevel := some "medium", theoryLevel := some "medium"
    practiceLevel := some "medium", pastPapersRequired := some 1 }

theorem c6_morning_exam_day_untouched_witness :
    cfgValid defaultCfg = true ∧ allPos ([] : List Block) ∧
    hourOf morningExam.start < 12 ∧
    ∀ it ∈ (scheduleStudyForExam "Math" morningExam
      (buildTasksForExam "Math" morningExam) 0 [] defaultCfg [] 0).1,
      dateOf it.start ≠ dateOf morningExam.start :=
  ⟨by decide, (by intro b hb; cases hb), by decide,
    c6_morning_exam_day_untouched "Math" morningExam
      (buildTasksForExam "Math" morningExam) 0 [] defaultCfg [] 0
      (by decide) (by intro b hb; cases hb) (by decide)⟩

end ExamPlanner
